import Mathlib

/-!
Verification of the 15-451 splay-tree repository.

The repository contains two implementations of the same fixed-size splay tree:
`src/c/splay_tree.c` and `src/cpp/splay_tree.cpp`.  Both keep all nodes in one
contiguous allocation; a node is identified here by its index in that
allocation (a C `struct node*` becomes a `Nat` index, `NULL` becomes `none`).
A tree state is the arena of nodes together with the recorded root index and
the recorded size (the C `struct tree`; the C++ class stores the size
implicitly as `nodes.size()`).

Reads of a missing index yield the `default` node (all-`none` pointers,
value 0, i.e. calloc-zeroed memory); writes to a missing index are no-ops.
Code paths where the C source would dereference `NULL` (undefined behavior,
unreachable on well-formed trees) are modelled as no-ops and marked by
comments; paths where the C++ source fails an `assert` (which aborts) are
modelled as `none`.
-/

namespace Splay

/-- One tree node: the C `struct node` / C++ `SplayTree::Node`.
Pointers become optional arena indices.  (The C++ `Node` also carries an
unused `size` member that is set to 1 at construction and never read;
it is omitted.) -/
structure Node where
  parent : Option Nat
  left : Option Nat
  right : Option Nat
  value : Nat
deriving Repr, DecidableEq

/-- Calloc-zeroed node: null pointers, value 0. -/
instance : Inhabited Node := ⟨⟨none, none, none, 0⟩⟩

/-- Tree handle: the C `struct tree` (size and root pointer) plus the node
arena it owns. -/
structure Tree where
  size : Nat
  root : Nat
  nodes : List Node
deriving Repr, DecidableEq

/-- Read the node at index `j` (a pointer dereference).  Out-of-range reads
give the zero node. -/
def nd (a : List Node) (j : Nat) : Node := a.getD j default

/-- Update the node at index `j` by `f` (a field assignment through a
pointer).  Out-of-range writes are dropped. -/
def wr (a : List Node) (j : Nat) (f : Node → Node) : List Node :=
  a.set j (f (nd a j))

theorem length_wr (a : List Node) (j : Nat) (f : Node → Node) :
    (wr a j f).length = a.length := by
  simp [wr]

theorem nd_wr_self (a : List Node) (j : Nat) (f : Node → Node) (h : j < a.length) :
    nd (wr a j f) j = f (nd a j) := by
  unfold wr nd
  rw [List.getD_eq_getElem?_getD, List.getD_eq_getElem?_getD,
    List.getElem?_set_eq_of_lt _ h, List.getElem?_eq_getElem h]
  rfl

theorem nd_wr_other (a : List Node) (i j : Nat) (f : Node → Node) (h : i ≠ j) :
    nd (wr a i f) j = nd a j := by
  simp [wr, nd, List.getD_eq_getElem?_getD, List.getElem?_set_ne h]

theorem nd_oob (a : List Node) (j : Nat) (h : a.length ≤ j) : nd a j = default := by
  simp [nd, List.getD_eq_getElem?_getD, List.getElem?_eq_none h]

/-- Two arenas with the same length and the same reads are equal. -/
theorem arena_ext (a b : List Node) (h : a.length = b.length)
    (h2 : ∀ j, j < a.length → nd a j = nd b j) : a = b := by
  apply List.ext_getElem h
  intro n h1 hb
  have := h2 n h1
  simpa [nd, List.getD_eq_getElem?_getD, List.getElem?_eq_getElem, h1, hb] using this

/-! ## The C implementation (`src/c/splay_tree.c`)

Functions keep their C names.  `initialize_tree` is called `init_tree`
here.  The C error reports are `printf` calls that do not change any state
and do not stop execution; they are therefore not part of the state
transition (this matters for the error-handling claim, settled below). -/

/-- C `set_left(P, L)`: `P->left = L; if (L != NULL) L->parent = P`. -/
def set_left (a : List Node) (p : Nat) (l : Option Nat) : List Node :=
  let a1 := wr a p (fun v => { v with left := l })
  match l with
  | none => a1
  | some li => wr a1 li (fun v => { v with parent := some p })

/-- C `set_right(P, R)`: `P->right = R; if (R != NULL) R->parent = P`. -/
def set_right (a : List Node) (p : Nat) (r : Option Nat) : List Node :=
  let a1 := wr a p (fun v => { v with right := r })
  match r with
  | none => a1
  | some ri => wr a1 ri (fun v => { v with parent := some p })

/-- C `swap_child(T, parent, old, new)`.  Sets `new->parent = parent`; then
replaces `parent`'s child `old` by `new`, or the recorded root when
`parent` is `NULL`.  The C failure branches only `printf` and continue. -/
def swap_child (T : Tree) (z : Option Nat) (old new : Nat) : Tree :=
  let a := wr T.nodes new (fun v => { v with parent := z })
  match z with
  | none => { T with nodes := a, root := new }
  | some zi =>
      if (nd a zi).left = some old then
        { T with nodes := wr a zi (fun v => { v with left := some new }) }
      else if (nd a zi).right = some old then
        { T with nodes := wr a zi (fun v => { v with right := some new }) }
      else { T with nodes := a }

/-- C `rotate_right(T, y)`: the left child `x` of `y` takes `y`'s place.
When `y->left == NULL` the C code would dereference `NULL` (undefined
behavior, unreachable on well-formed input); modelled as a no-op. -/
def rotate_right (T : Tree) (y : Nat) : Tree :=
  match (nd T.nodes y).left with
  | none => T
  | some x =>
      let a := T.nodes
      let z := (nd a y).parent
      let sA := (nd a x).left
      let sB := (nd a x).right
      let sC := (nd a y).right
      let T1 := swap_child T z y x
      let a2 := set_left T1.nodes x sA
      let a3 := set_right a2 x (some y)
      let a4 := set_left a3 y sB
      let a5 := set_right a4 y sC
      { T1 with nodes := a5 }

/-- C `rotate_left(T, x)`: the right child `y` of `x` takes `x`'s place.
When `x->right == NULL` the C code would dereference `NULL`; no-op here. -/
def rotate_left (T : Tree) (x : Nat) : Tree :=
  match (nd T.nodes x).right with
  | none => T
  | some y =>
      let a := T.nodes
      let z := (nd a x).parent
      let sA := (nd a x).left
      let sB := (nd a y).left
      let sC := (nd a y).right
      let T1 := swap_child T z x y
      let a2 := set_right T1.nodes y sC
      let a3 := set_left a2 y x
      let a4 := set_right a3 x sB
      let a5 := set_left a4 x sA
      { T1 with nodes := a5 }

/-- Right child of an optional node pointer (`p->right` behind a `NULL`
test, used for the short-circuited `z->left->right == x` conditions). -/
def optRight (a : List Node) : Option Nat → Option Nat
  | none => none
  | some i => (nd a i).right

/-- Left child of an optional node pointer. -/
def optLeft (a : List Node) : Option Nat → Option Nat
  | none => none
  | some i => (nd a i).left

/-- C `splay_step(T, x)`: one zig / zig-zig / zig-zag step.  The final
`printf("Invalid tree")` branch (and the `NULL`-grandparent fall-through,
both unreachable on well-formed trees) leave the tree unchanged. -/
def splay_step (T : Tree) (x : Nat) : Tree :=
  let a := T.nodes
  match (nd a x).parent with
  | none => T
  | some y =>
      match (nd a y).parent with
      | none =>
          if (nd a y).left = some x then rotate_right T y
          else if (nd a y).right = some x then rotate_left T y
          else T
      | some z =>
          let zl := (nd a z).left
          let zr := (nd a z).right
          if zl ≠ none ∧ optRight a zl = some x then
            rotate_right (rotate_left T y) z
          else if zr ≠ none ∧ optLeft a zr = some x then
            rotate_left (rotate_right T y) z
          else if zl ≠ none ∧ optLeft a zl = some x then
            rotate_right (rotate_right T z) y
          else if zr ≠ none ∧ optRight a zr = some x then
            rotate_left (rotate_left T z) y
          else T

/-- Fuel-indexed version of the C `while (T->root != x)` loop in
`splay_node`.  The depth-reduction theorem below shows fuel `T.size`
always suffices on well-formed trees, so the fuel is not observable. -/
def splay_loop : Nat → Tree → Nat → Tree
  | 0, T, _ => T
  | fuel+1, T, x => if T.root = x then T else splay_loop fuel (splay_step T x) x

/-- C `splay_node(T, x)`: splay `x` to the root. -/
def splay_node (T : Tree) (x : Nat) : Tree := splay_loop T.size T x

/-- The `for` loop of C `initialize_tree`: chains node `cur` to `cur + 1`
for `i = 1 .. n-1` and returns the final arena and current index. -/
def initLoop (n : Nat) (a : List Node) (cur i : Nat) : List Node × Nat :=
  if i < n then
    let a1 := wr a cur (fun v => { v with value := i })
    let a2 := wr a1 cur (fun v => { v with parent := some (cur + 1) })
    let a3 := wr a2 (cur + 1) (fun v => { v with left := some cur })
    initLoop n a3 (cur + 1) (i + 1)
  else (a, cur)
termination_by n - i

/-- C `initialize_tree(n)`: calloc `n` zeroed nodes, chain them into a left
list, root the last one.  Returns `NULL` (`none`) for `n = 0`. -/
def init_tree (n : Nat) : Option Tree :=
  if n = 0 then none
  else
    let s := initLoop n (List.replicate n default) 0 1
    some { size := n, root := s.2, nodes := wr s.1 s.2 (fun v => { v with value := n }) }

/-- C `splay(T, k)`, the public entry point, with `k` an `int`.

The range check `if (k <= 0 || k > T->size)` only prints a message: the
returned `Bool` records whether it fired, and execution continues
regardless.  The code then forms the pointer `T->root + (k - T->root->value)`
and splays it; when that pointer lies outside the allocation this is
undefined behavior, modelled as `none`. -/
def splay (T : Tree) (k : Int) : Bool × Option Tree :=
  let err : Bool := decide (k ≤ 0 ∨ (T.size : Int) < k)
  let tgt : Int := T.root + (k - ((nd T.nodes T.root).value : Int))
  if 0 ≤ tgt ∧ tgt < T.nodes.length then (err, some (splay_node T tgt.toNat))
  else (err, none)

/-! ## The C++ implementation (`src/cpp/splay_tree.cpp`)

The C++ class methods live in the `Cpp` namespace.  `Node::set_left` and
`Node::set_right` are literally the C `set_left`/`set_right` and are
shared.  C++ `assert` aborts the process; a failed assertion is `none`. -/

namespace Cpp

/-- C++ `Node::replace_child(old, new_child)`; `none` models the failed
`assert(left == old || right == old)`. -/
def replace_child (a : List Node) (p old new : Nat) : Option (List Node) :=
  if (nd a p).left = some old then some (set_left a p (some new))
  else if (nd a p).right = some old then some (set_right a p (some new))
  else none

/-- C++ `SplayTree::set_root(x)`: record the root and clear its parent. -/
def set_root (T : Tree) (x : Nat) : Tree :=
  { T with root := x, nodes := wr T.nodes x (fun v => { v with parent := none }) }

/-- C++ `SplayTree::rotate_right(y)`. -/
def rotate_right (T : Tree) (y : Nat) : Option Tree :=
  match (nd T.nodes y).left with
  | none => none
  | some x =>
      let a := T.nodes
      let z := (nd a y).parent
      let sA := (nd a x).left
      let sB := (nd a x).right
      let sC := (nd a y).right
      let T1? : Option Tree :=
        match z with
        | none => some (set_root T x)
        | some zi => (replace_child a zi y x).map (fun a1 => { T with nodes := a1 })
      T1?.map fun T1 =>
        { T1 with nodes := set_right (set_left (set_right (set_left T1.nodes x sA) x (some y)) y sB) y sC }

/-- C++ `SplayTree::rotate_left(x)`. -/
def rotate_left (T : Tree) (x : Nat) : Option Tree :=
  match (nd T.nodes x).right with
  | none => none
  | some y =>
      let a := T.nodes
      let z := (nd a x).parent
      let sA := (nd a x).left
      let sB := (nd a y).left
      let sC := (nd a y).right
      let T1? : Option Tree :=
        match z with
        | none => some (set_root T y)
        | some zi => (replace_child a zi x y).map (fun a1 => { T with nodes := a1 })
      T1?.map fun T1 =>
        { T1 with nodes := set_left (set_right (set_left (set_right T1.nodes y sC) y x) x sB) x sA }

/-- C++ `SplayTree::splay_step(x)`.  The two leading asserts (zig shape,
and the four-way zig-zig/zig-zag disjunction) abort on violation. -/
def splay_step (T : Tree) (x : Nat) : Option Tree :=
  let a := T.nodes
  match (nd a x).parent with
  | none => some T
  | some y =>
      match (nd a y).parent with
      | none =>
          if ¬((nd a y).left = some x ∨ (nd a y).right = some x) then none
          else if (nd a y).left = some x then rotate_right T y
          else rotate_left T y
      | some z =>
          let zl := (nd a z).left
          let zr := (nd a z).right
          if ¬((zl ≠ none ∧ optRight a zl = some x) ∨
               (zr ≠ none ∧ optLeft a zr = some x) ∨
               (zl ≠ none ∧ optLeft a zl = some x) ∨
               (zr ≠ none ∧ optRight a zr = some x)) then none
          else if zl ≠ none ∧ optRight a zl = some x then
            (rotate_left T y).bind fun T1 => rotate_right T1 z
          else if zr ≠ none ∧ optLeft a zr = some x then
            (rotate_right T y).bind fun T1 => rotate_left T1 z
          else if zl ≠ none ∧ optLeft a zl = some x then
            (rotate_right T z).bind fun T1 => rotate_right T1 y
          else
            (rotate_left T z).bind fun T1 => rotate_left T1 y

/-- Fuel-indexed version of the C++ `while (root != x)` loop in `splay`. -/
def splay_loop : Nat → Tree → Nat → Option Tree
  | 0, T, _ => some T
  | fuel+1, T, x =>
      if T.root = x then some T
      else (splay_step T x).bind fun T1 => splay_loop fuel T1 x

/-- C++ `SplayTree::splay(x)`. -/
def splay (T : Tree) (x : Nat) : Option Tree := splay_loop T.nodes.length T x

/-- C++ `SplayTree::splay_by_key(key)`: `assert(1 <= key && key <=
nodes.size())`, then splay `nodes[key-1]`. -/
def splay_by_key (T : Tree) (key : Nat) : Option Tree :=
  if 1 ≤ key ∧ key ≤ T.nodes.length then splay T (key - 1) else none

/-- The loop of the C++ constructor: for `i = 1 .. n-1`, emplace node
`i + 1` and link `nodes[i].set_left(&nodes[i-1])`. -/
def buildLoop (n : Nat) (a : List Node) (i : Nat) : List Node :=
  if i < n then
    buildLoop n (set_left (a ++ [({ parent := none, left := none, right := none, value := i + 1 } : Node)]) i (some (i - 1))) (i + 1)
  else a
termination_by n - i

/-- C++ `SplayTree::SplayTree(n)`.  Note the constructor emplaces node 1
unconditionally, before the loop, so even `n = 0` yields one node.  The
tree size is `nodes.size()`. -/
def build (n : Nat) : Tree :=
  let a := buildLoop n [{ parent := none, left := none, right := none, value := 1 }] 1
  let last := a.length - 1
  { size := a.length, root := last,
    nodes := wr a last (fun v => { v with parent := none }) }

end Cpp

/-! ## Abstract view of well-formed states

A well-formed arena represents an inductive binary tree whose nodes are
labelled by their arena indices (in this program the key of the node at
index `j` is always `j + 1`, which is proved below as an invariant).  `rep`
is the representation predicate tying an arena to such a tree; `Inv`
bundles everything that holds between operations. -/

/-- Inductive binary tree of arena indices. -/
inductive BT where
  | leaf : BT
  | node : BT → Nat → BT → BT
deriving Repr, DecidableEq

/-- Index of the root of an abstract subtree (`none` for a leaf), i.e. the
pointer to it. -/
def rootIdx : BT → Option Nat
  | .leaf => none
  | .node _ i _ => some i

/-- Inorder list of the indices of an abstract tree. -/
def idxs : BT → List Nat
  | .leaf => []
  | .node l i r => idxs l ++ i :: idxs r

/-- Number of nodes of an abstract tree. -/
def bcount : BT → Nat
  | .leaf => 0
  | .node l _ r => bcount l + bcount r + 1

/-- `rep a par t`: the arena `a` realises the abstract tree `t`, whose root
node's parent pointer is `par`: every abstract node is in range, its
parent/left/right fields point exactly at its abstract parent and
children. -/
def rep (a : List Node) (par : Option Nat) : BT → Prop
  | .leaf => True
  | .node l i r =>
      i < a.length ∧ (nd a i).parent = par ∧
      (nd a i).left = rootIdx l ∧ (nd a i).right = rootIdx r ∧
      rep a (some i) l ∧ rep a (some i) r

instance repDec (a : List Node) (par : Option Nat) : (t : BT) → Decidable (rep a par t)
  | .leaf => by unfold rep; infer_instance
  | .node l i r => by
      unfold rep
      have hl := repDec a (some i) l
      have hr := repDec a (some i) r
      infer_instance

/-- Subtree of `t` at a path (`true` = descend left). -/
def subtreeAt : BT → List Bool → Option BT
  | t, [] => some t
  | .leaf, _ :: _ => none
  | .node l _ _, true :: p => subtreeAt l p
  | .node _ _ r, false :: p => subtreeAt r p

/-- Replace the subtree of `t` at a path. -/
def replaceAt : BT → List Bool → BT → BT
  | _, [], s => s
  | .leaf, _ :: _, _ => .leaf
  | .node l i r, true :: p, s => .node (replaceAt l p s) i r
  | .node l i r, false :: p, s => .node l i (replaceAt r p s)

/-- Path from the root of `t` to the node with index `x`, if any. -/
def pathTo : BT → Nat → Option (List Bool)
  | .leaf, _ => none
  | .node l i r, x =>
      if i = x then some []
      else
        match pathTo l x with
        | some p => some (true :: p)
        | none =>
          match pathTo r x with
          | some p => some (false :: p)
          | none => none

/-- Depth (root distance) of the node at index `j`, computed by chasing
parent pointers, with fuel against corrupt states. -/
def depthF (a : List Node) : Nat → Nat → Nat
  | 0, _ => 0
  | fuel+1, j =>
      match (nd a j).parent with
      | none => 0
      | some i => depthF a fuel i + 1

/-- Depth of the node at index `x` in tree `T` (fuel `T.size` suffices on
well-formed trees, where depths are below the node count). -/
def depthA (T : Tree) (x : Nat) : Nat := depthF T.nodes T.size x

/-- Inorder traversal of the keys stored in the arena, starting at an
optional node index, with fuel against corrupt states.  (The sources have
no traversal function; this is the observation the spec's BST-order
property speaks about.) -/
def inorderA (a : List Node) : Nat → Option Nat → List Nat
  | _, none => []
  | 0, some _ => []
  | fuel+1, some i =>
      inorderA a fuel (nd a i).left ++ (nd a i).value :: inorderA a fuel (nd a i).right

/-- The abstract left-leaning chain over indices `0 .. n-1` produced by
construction: root `n-1`, each node's left child the previous index. -/
def chainBT : Nat → BT
  | 0 => .leaf
  | n+1 => .node (chainBT n) n .leaf

/-- Closed form of the node at index `j` after construction of size `n`. -/
def chainNode (n j : Nat) : Node :=
  { parent := if j + 1 < n then some (j + 1) else none,
    left := if j = 0 then none else some (j - 1),
    right := none,
    value := j + 1 }

/-- Closed form of the arena after construction of size `n`. -/
def chainArena (n : Nat) : List Node := (List.range n).map (chainNode n)

/-- Closed form of the whole tree after construction of size `n`. -/
def chainTree (n : Nat) : Tree := { size := n, root := n - 1, nodes := chainArena n }

/-- The full between-operations invariant of a tree of size `n`: the arena
realises the abstract tree `t` (root parent `NULL`), the recorded root is
`t`'s root, the inorder index sequence is exactly `0 .. n-1` (hence the
BST order on keys), sizes agree, and the node at index `j` holds key
`j + 1`. -/
def Inv (n : Nat) (T : Tree) (t : BT) : Prop :=
  rep T.nodes none t ∧ rootIdx t = some T.root ∧ idxs t = List.range n ∧
  T.nodes.length = n ∧ T.size = n ∧ ∀ j, j < n → (nd T.nodes j).value = j + 1

instance (n : Nat) (T : Tree) (t : BT) : Decidable (Inv n T t) := by
  unfold Inv; infer_instance

/-- States of the C implementation reachable by building a tree of size
`n` and performing any sequence of in-range `splay` calls. -/
inductive ReachableC : Nat → Tree → Prop
  | built {n : Nat} {T : Tree} : init_tree n = some T → ReachableC n T
  | splayed {n : Nat} {T T' : Tree} {k : Int} {e : Bool} : ReachableC n T →
      1 ≤ k → k ≤ (n : Int) → splay T k = (e, some T') → ReachableC n T'

/-- States of the C++ implementation reachable by constructing a tree of
size `n` and performing any sequence of in-range `splay_by_key` calls. -/
inductive ReachableCpp : Nat → Tree → Prop
  | built {n : Nat} : ReachableCpp n (Cpp.build n)
  | splayed {n k : Nat} {T T' : Tree} : ReachableCpp n T →
      1 ≤ k → k ≤ n → Cpp.splay_by_key T k = some T' → ReachableCpp n T'

/-- Run of the C implementation: build size `n`, then splay each key in
turn (`none` once anything is undefined). -/
def runC (n : Nat) (ks : List Nat) : Option Tree :=
  ks.foldl (fun o (k : Nat) => o.bind (fun T => (splay T (k : Int)).2)) (init_tree n)

/-- Run of the C++ implementation on the same inputs (`none` on an
aborted assert). -/
def runCpp (n : Nat) (ks : List Nat) : Option Tree :=
  ks.foldl (fun o k => o.bind (fun T => Cpp.splay_by_key T k)) (some (Cpp.build n))

/-- Observable equality of two optional tree states: both undefined, or
both defined with the same recorded root and the same arena (the C-only
`size` field is not compared; the C++ class has no such field). -/
def optTreeEq : Option Tree → Option Tree → Prop
  | none, none => True
  | some T, some U => T.root = U.root ∧ T.nodes = U.nodes
  | _, _ => False

instance (o1 o2 : Option Tree) : Decidable (optTreeEq o1 o2) := by
  unfold optTreeEq
  match o1, o2 with
  | none, none => infer_instance
  | some _, none => infer_instance
  | none, some _ => infer_instance
  | some _, some _ => infer_instance

/-! ## Basic lemmas about the abstract layer -/

theorem rootIdx_mem {t : BT} {j : Nat} (h : rootIdx t = some j) : j ∈ idxs t := by
  cases t with
  | leaf => simp [rootIdx] at h
  | node l i r =>
      simp [rootIdx] at h
      simp [idxs, h]

theorem rootIdx_node (l : BT) (i : Nat) (r : BT) : rootIdx (BT.node l i r) = some i := rfl

theorem rootIdx_leaf : rootIdx BT.leaf = none := rfl

theorem bcount_eq_length_idxs (t : BT) : bcount t = (idxs t).length := by
  induction t with
  | leaf => rfl
  | node l i r ihl ihr => simp [bcount, idxs, ihl, ihr]; omega

theorem nodup_node {l : BT} {i : Nat} {r : BT} (h : (idxs (BT.node l i r)).Nodup) :
    (idxs l).Nodup ∧ (idxs r).Nodup ∧ i ∉ idxs l ∧ i ∉ idxs r ∧
      ∀ j ∈ idxs l, j ∉ idxs r := by
  simp only [idxs] at h
  rw [List.nodup_append] at h
  obtain ⟨h1, h2, h3⟩ := h
  rw [List.nodup_cons] at h2
  refine ⟨h1, h2.2, fun hc => h3 hc (by simp), h2.1, fun j hj hj2 => h3 hj (by simp [hj2])⟩

theorem rep_lt {a : List Node} {par : Option Nat} {t : BT} {j : Nat}
    (h : rep a par t) (hm : j ∈ idxs t) : j < a.length := by
  induction t generalizing par with
  | leaf => simp [idxs] at hm
  | node l i r ihl ihr =>
      obtain ⟨h1, _, _, _, h5, h6⟩ := h
      simp [idxs] at hm
      rcases hm with hm | hm | hm
      · exact ihl h5 hm
      · omega
      · exact ihr h6 hm

theorem rep_frame {a a' : List Node} {par : Option Nat} {t : BT}
    (hlen : a'.length = a.length)
    (hnd : ∀ j ∈ idxs t, nd a' j = nd a j) (h : rep a par t) : rep a' par t := by
  induction t generalizing par with
  | leaf => trivial
  | node l i r ihl ihr =>
      obtain ⟨h1, h2, h3, h4, h5, h6⟩ := h
      have hi : nd a' i = nd a i := hnd i (by simp [idxs])
      refine ⟨by omega, by rw [hi]; exact h2, by rw [hi]; exact h3, by rw [hi]; exact h4,
        ihl (fun j hj => hnd j (by simp [idxs, hj])) h5,
        ihr (fun j hj => hnd j (by simp [idxs, hj])) h6⟩

theorem rep_reparent {a a' : List Node} {par par' : Option Nat} {s : BT}
    (h : rep a par s)
    (hroot : ∀ c, rootIdx s = some c → (nd a' c).parent = par' ∧
       (nd a' c).left = (nd a c).left ∧ (nd a' c).right = (nd a c).right)
    (hrest : ∀ j ∈ idxs s, rootIdx s ≠ some j → nd a' j = nd a j)
    (hlen : a'.length = a.length)
    (hnd : (idxs s).Nodup) : rep a' par' s := by
  cases s with
  | leaf => trivial
  | node l c r =>
      obtain ⟨h1, h2, h3, h4, h5, h6⟩ := h
      obtain ⟨hndl, hndr, hcl, hcr, hdis⟩ := nodup_node hnd
      obtain ⟨hc1, hc2, hc3⟩ := hroot c rfl
      refine ⟨by omega, hc1, by rw [hc2]; exact h3, by rw [hc3]; exact h4, ?_, ?_⟩
      · refine rep_frame hlen (fun j hj => ?_) h5
        exact hrest j (by simp [idxs, hj]) (by simp [rootIdx]; rintro rfl; exact hcl hj)
      · refine rep_frame hlen (fun j hj => ?_) h6
        exact hrest j (by simp [idxs, hj]) (by simp [rootIdx]; rintro rfl; exact hcr hj)

theorem subtreeAt_append (t : BT) (p q : List Bool) :
    subtreeAt t (p ++ q) = (subtreeAt t p).bind (fun s => subtreeAt s q) := by
  induction p generalizing t with
  | nil => simp [subtreeAt]
  | cons d p ih =>
      cases t with
      | leaf => cases d <;> simp [subtreeAt]
      | node l i r => cases d <;> simp [subtreeAt, ih]

theorem subtree_mem {t : BT} {p : List Bool} {s : BT}
    (h : subtreeAt t p = some s) : ∀ j ∈ idxs s, j ∈ idxs t := by
  induction p generalizing t with
  | nil => simp [subtreeAt] at h; subst h; exact fun j hj => hj
  | cons d p ih =>
      cases t with
      | leaf => simp [subtreeAt] at h
      | node l i r =>
          intro j hj
          cases d
          · simp only [subtreeAt] at h
            have := ih h j hj
            simp [idxs, this]
          · simp only [subtreeAt] at h
            have := ih h j hj
            simp [idxs, this]

theorem subtree_nodup {t : BT} {p : List Bool} {s : BT}
    (h : subtreeAt t p = some s) (hnd : (idxs t).Nodup) : (idxs s).Nodup := by
  induction p generalizing t with
  | nil => simp [subtreeAt] at h; subst h; exact hnd
  | cons d p ih =>
      cases t with
      | leaf => simp [subtreeAt] at h
      | node l i r =>
          obtain ⟨hndl, hndr, _, _, _⟩ := nodup_node hnd
          cases d
          · simp only [subtreeAt] at h
            exact ih h hndr
          · simp only [subtreeAt] at h
            exact ih h hndl

theorem idxs_replaceAt {t : BT} {p : List Bool} {s s' : BT}
    (h : subtreeAt t p = some s) (hi : idxs s' = idxs s) :
    idxs (replaceAt t p s') = idxs t := by
  induction p generalizing t with
  | nil => simp [subtreeAt] at h; subst h; simp [replaceAt, hi]
  | cons d p ih =>
      cases t with
      | leaf => simp [subtreeAt] at h
      | node l i r =>
          cases d
          · simp only [subtreeAt] at h
            simp only [replaceAt, idxs]
            rw [ih h]
          · simp only [subtreeAt] at h
            simp only [replaceAt, idxs]
            rw [ih h]

theorem subtreeAt_replaceAt {t : BT} {p : List Bool} {s s' : BT}
    (h : subtreeAt t p = some s) : subtreeAt (replaceAt t p s') p = some s' := by
  induction p generalizing t with
  | nil => simp [subtreeAt, replaceAt]
  | cons d p ih =>
      cases t with
      | leaf => simp [subtreeAt] at h
      | node l i r =>
          cases d
          · simp only [subtreeAt] at h
            simp only [replaceAt, subtreeAt]
            exact ih h
          · simp only [subtreeAt] at h
            simp only [replaceAt, subtreeAt]
            exact ih h

theorem rootIdx_replaceAt {t : BT} {p : List Bool} {s' : BT} (hp : p ≠ []) :
    rootIdx (replaceAt t p s') = rootIdx t := by
  cases p with
  | nil => exact absurd rfl hp
  | cons d p =>
      cases t with
      | leaf => simp [replaceAt]
      | node l i r => cases d <;> simp [replaceAt, rootIdx]

theorem pathTo_isSome_iff {t : BT} {x : Nat} : (pathTo t x).isSome ↔ x ∈ idxs t := by
  induction t with
  | leaf => simp [pathTo, idxs]
  | node l i r ihl ihr =>
      simp only [pathTo, idxs, List.mem_append, List.mem_cons]
      by_cases hi : i = x
      · simp [hi]
      · simp only [if_neg hi]
        cases hl : pathTo l x with
        | some p => simp [← ihl, hl]
        | none =>
            cases hr : pathTo r x with
            | some p => simp [← ihr, hr, ← ihl, hl]
            | none =>
                simp [← ihl, ← ihr, hl, hr]
                exact fun h => hi h.symm

theorem pathTo_none {t : BT} {x : Nat} (h : x ∉ idxs t) : pathTo t x = none := by
  cases hp : pathTo t x with
  | none => rfl
  | some p => exact absurd (pathTo_isSome_iff.mp (by simp [hp])) h

theorem pathTo_mem {t : BT} {x : Nat} {p : List Bool} (h : pathTo t x = some p) :
    x ∈ idxs t := pathTo_isSome_iff.mp (by simp [h])

theorem pathTo_nil {t : BT} {x : Nat} (h : pathTo t x = some []) :
    rootIdx t = some x := by
  cases t with
  | leaf => simp [pathTo] at h
  | node l i r =>
      simp only [pathTo] at h
      by_cases hi : i = x
      · simp [rootIdx, hi]
      · rw [if_neg hi] at h
        cases hl : pathTo l x with
        | some p => rw [hl] at h; simp at h
        | none =>
            rw [hl] at h
            cases hr : pathTo r x with
            | some p => rw [hr] at h; simp at h
            | none => rw [hr] at h; simp at h

theorem pathTo_subtree {t : BT} {x : Nat} {p : List Bool}
    (h : pathTo t x = some p) : ∃ s, subtreeAt t p = some s ∧ rootIdx s = some x := by
  induction t generalizing p with
  | leaf => simp [pathTo] at h
  | node l i r ihl ihr =>
      simp only [pathTo] at h
      by_cases hi : i = x
      · rw [if_pos hi] at h
        simp at h
        subst h
        exact ⟨_, rfl, by simp [rootIdx, hi]⟩
      · rw [if_neg hi] at h
        cases hl : pathTo l x with
        | some q =>
            rw [hl] at h
            simp at h
            subst h
            obtain ⟨s, hs, hr⟩ := ihl hl
            exact ⟨s, by simpa [subtreeAt] using hs, hr⟩
        | none =>
            rw [hl] at h
            cases hr : pathTo r x with
            | some q =>
                rw [hr] at h
                simp at h
                subst h
                obtain ⟨s, hs, hrr⟩ := ihr hr
                exact ⟨s, by simpa [subtreeAt] using hs, hrr⟩
            | none => rw [hr] at h; simp at h

theorem subtree_pathTo {t : BT} {q : List Bool} {s : BT} {x : Nat}
    (hnd : (idxs t).Nodup) (h : subtreeAt t q = some s) (hr : rootIdx s = some x) :
    pathTo t x = some q := by
  induction q generalizing t with
  | nil =>
      have he : t = s := by simpa [subtreeAt] using h
      subst he
      cases t with
      | leaf => simp [rootIdx] at hr
      | node l i r =>
          simp [rootIdx] at hr
          simp [pathTo, hr]
  | cons d q ih =>
      cases t with
      | leaf => simp [subtreeAt] at h
      | node l i r =>
          obtain ⟨hndl, hndr, hil, hir, hdis⟩ := nodup_node hnd
          cases d
          · simp only [subtreeAt] at h
            have hx : x ∈ idxs r := subtree_mem h _ (rootIdx_mem hr)
            have hi : i ≠ x := fun he => hir (he ▸ hx)
            have hlnone : pathTo l x = none := pathTo_none (fun hc => hdis x hc hx)
            have := ih hndr h
            simp [pathTo, if_neg hi, hlnone, this]
          · simp only [subtreeAt] at h
            have hx : x ∈ idxs l := subtree_mem h _ (rootIdx_mem hr)
            have hi : i ≠ x := fun he => hil (he ▸ hx)
            have := ih hndl h
            simp [pathTo, if_neg hi, this]

theorem pathTo_length_lt_bcount {t : BT} {x : Nat} {p : List Bool}
    (h : pathTo t x = some p) : p.length < bcount t := by
  induction t generalizing p with
  | leaf => simp [pathTo] at h
  | node l i r ihl ihr =>
      simp only [pathTo] at h
      by_cases hi : i = x
      · rw [if_pos hi] at h
        simp at h
        subst h
        simp only [bcount, List.length_nil]
        omega
      · rw [if_neg hi] at h
        cases hl : pathTo l x with
        | some q =>
            rw [hl] at h
            simp at h
            subst h
            have := ihl hl
            simp only [bcount, List.length_cons]
            omega
        | none =>
            rw [hl] at h
            cases hr : pathTo r x with
            | some q =>
                rw [hr] at h
                simp at h
                subst h
                have := ihr hr
                simp only [bcount, List.length_cons]
                omega
            | none => rw [hr] at h; simp at h

theorem rep_subtree {a : List Node} {par : Option Nat} {t : BT} {p : List Bool} {s : BT}
    (h : rep a par t) (hs : subtreeAt t p = some s) : ∃ q, rep a q s := by
  induction p generalizing t par with
  | nil => simp [subtreeAt] at hs; subst hs; exact ⟨par, h⟩
  | cons d p ih =>
      cases t with
      | leaf => simp [subtreeAt] at hs
      | node l i r =>
          obtain ⟨_, _, _, _, h5, h6⟩ := h
          cases d
          · simp only [subtreeAt] at hs
            exact ih h6 hs
          · simp only [subtreeAt] at hs
            exact ih h5 hs

theorem parent_of_child {a : List Node} {par : Option Nat} {l : BT} {zi : Nat} {r : BT}
    {d : Bool} {x : Nat} (h : rep a par (BT.node l zi r))
    (hd : rootIdx (if d then l else r) = some x) : (nd a x).parent = some zi := by
  obtain ⟨_, _, _, _, h5, h6⟩ := h
  cases d
  · simp at hd
    cases r with
    | leaf => simp [rootIdx] at hd
    | node rl j rr =>
        simp [rootIdx] at hd
        subst hd
        exact h6.2.1
  · simp at hd
    cases l with
    | leaf => simp [rootIdx] at hd
    | node ll j lr =>
        simp [rootIdx] at hd
        subst hd
        exact h5.2.1

theorem depth_path {a : List Node} {t : BT} {x : Nat} {p : List Bool} {fuel : Nat}
    (hrep : rep a none t) (hnd : (idxs t).Nodup)
    (hp : pathTo t x = some p) (hf : p.length < fuel) : depthF a fuel x = p.length := by
  induction fuel generalizing x p with
  | zero => omega
  | succ f ih =>
      rcases List.eq_nil_or_concat p with rfl | ⟨q, d, rfl⟩
      · have hr := pathTo_nil hp
        cases t with
        | leaf => simp [rootIdx] at hr
        | node l i r =>
            simp [rootIdx] at hr
            subst hr
            obtain ⟨_, h2, _⟩ := hrep
            simp [depthF, h2]
      · simp only [List.concat_eq_append] at hp hf ⊢
        obtain ⟨s, hs, hrs⟩ := pathTo_subtree hp
        rw [subtreeAt_append] at hs
        cases hq : subtreeAt t q with
        | none => rw [hq] at hs; simp at hs
        | some sz =>
            rw [hq] at hs
            simp at hs
            cases sz with
            | leaf => simp [subtreeAt] at hs
            | node zl zi zr =>
                have hs2 : (if d then zl else zr) = s := by
                  cases d <;> simpa [subtreeAt] using hs
                have hroot : rootIdx (if d then zl else zr) = some x := by
                  rw [hs2]; exact hrs
                obtain ⟨pz, hrepz⟩ := rep_subtree hrep hq
                have hpar : (nd a x).parent = some zi := parent_of_child hrepz hroot
                have hqz : pathTo t zi = some q :=
                  subtree_pathTo hnd hq (by simp [rootIdx])
                have hlen : q.length < f := by
                  simp at hf
                  omega
                have := ih hqz hlen
                simp [depthF, hpar, this]

/-! ## Pointwise effect of the write operations -/

theorem wr_oob {a : List Node} {i : Nat} (f : Node → Node) (h : a.length ≤ i) :
    wr a i f = a := List.set_eq_of_length_le (by simpa using h)

theorem nd_wr (a : List Node) (i j : Nat) (f : Node → Node) :
    nd (wr a i f) j = if j = i ∧ i < a.length then f (nd a i) else nd a j := by
  by_cases h1 : j = i
  · subst h1
    by_cases h2 : j < a.length
    · simp [h2, nd_wr_self]
    · rw [wr_oob f (by omega)]
      simp [h2]
  · rw [nd_wr_other _ _ _ _ (fun he => h1 he.symm)]
    simp [h1]

theorem nd_wr_value (a : List Node) (i j : Nat) (f : Node → Node)
    (hf : ∀ v, (f v).value = v.value) : (nd (wr a i f) j).value = (nd a j).value := by
  rw [nd_wr]
  split
  · next h => rw [hf, h.1]
  · rfl

theorem set_left_length (a : List Node) (p : Nat) (l : Option Nat) :
    (set_left a p l).length = a.length := by
  cases l <;> simp [set_left, length_wr]

theorem set_right_length (a : List Node) (p : Nat) (r : Option Nat) :
    (set_right a p r).length = a.length := by
  cases r <;> simp [set_right, length_wr]

theorem nd_set_left_ne (a : List Node) (p : Nat) (l : Option Nat) (j : Nat)
    (hj : j ≠ p) (hl : l ≠ some j) : nd (set_left a p l) j = nd a j := by
  cases l with
  | none => simpa [set_left] using nd_wr_other _ _ _ _ (fun he => hj he.symm)
  | some li =>
      have hli : li ≠ j := fun he => hl (by rw [he])
      simp only [set_left]
      rw [nd_wr_other _ _ _ _ hli, nd_wr_other _ _ _ _ (fun he => hj he.symm)]

theorem nd_set_left_self (a : List Node) (p : Nat) (l : Option Nat)
    (hp : p < a.length) (hl : l ≠ some p) : nd (set_left a p l) p = { nd a p with left := l } := by
  cases l with
  | none => simpa [set_left] using nd_wr_self _ _ _ hp
  | some li =>
      have hli : li ≠ p := fun he => hl (by rw [he])
      simp only [set_left]
      rw [nd_wr_other _ _ _ _ hli, nd_wr_self _ _ _ hp]

theorem nd_set_left_child (a : List Node) (p li : Nat)
    (hli : li < a.length) (hne : p ≠ li) : nd (set_left a p (some li)) li = { nd a li with parent := some p } := by
  simp only [set_left]
  rw [nd_wr_self _ _ _ (by simpa [length_wr] using hli), nd_wr_other _ _ _ _ hne]

theorem nd_set_left_value (a : List Node) (p : Nat) (l : Option Nat) (j : Nat) :
    (nd (set_left a p l) j).value = (nd a j).value := by
  cases l with
  | none => simp only [set_left]; exact nd_wr_value _ _ _ _ (fun v => rfl)
  | some li =>
      simp only [set_left]
      have h1 := nd_wr_value (wr a p fun v => { v with left := some li }) li j
        (fun v => { v with parent := some p }) (fun v => rfl)
      have h2 := nd_wr_value a p j (fun v => { v with left := some li }) (fun v => rfl)
      exact h1.trans h2

theorem nd_set_right_ne (a : List Node) (p : Nat) (r : Option Nat) (j : Nat)
    (hj : j ≠ p) (hr : r ≠ some j) : nd (set_right a p r) j = nd a j := by
  cases r with
  | none => simpa [set_right] using nd_wr_other _ _ _ _ (fun he => hj he.symm)
  | some ri =>
      have hri : ri ≠ j := fun he => hr (by rw [he])
      simp only [set_right]
      rw [nd_wr_other _ _ _ _ hri, nd_wr_other _ _ _ _ (fun he => hj he.symm)]

theorem nd_set_right_self (a : List Node) (p : Nat) (r : Option Nat)
    (hp : p < a.length) (hr : r ≠ some p) : nd (set_right a p r) p = { nd a p with right := r } := by
  cases r with
  | none => simpa [set_right] using nd_wr_self _ _ _ hp
  | some ri =>
      have hri : ri ≠ p := fun he => hr (by rw [he])
      simp only [set_right]
      rw [nd_wr_other _ _ _ _ hri, nd_wr_self _ _ _ hp]

theorem nd_set_right_child (a : List Node) (p ri : Nat)
    (hri : ri < a.length) (hne : p ≠ ri) : nd (set_right a p (some ri)) ri = { nd a ri with parent := some p } := by
  simp only [set_right]
  rw [nd_wr_self _ _ _ (by simpa [length_wr] using hri), nd_wr_other _ _ _ _ hne]

theorem nd_set_right_value (a : List Node) (p : Nat) (r : Option Nat) (j : Nat) :
    (nd (set_right a p r) j).value = (nd a j).value := by
  cases r with
  | none => simp only [set_right]; exact nd_wr_value _ _ _ _ (fun v => rfl)
  | some ri =>
      simp only [set_right]
      have h1 := nd_wr_value (wr a p fun v => { v with right := some ri }) ri j
        (fun v => { v with parent := some p }) (fun v => rfl)
      have h2 := nd_wr_value a p j (fun v => { v with right := some ri }) (fun v => rfl)
      exact h1.trans h2

/-! ## Effect of the four child-link updates performed by a rotation -/

theorem chain4R_desc (b : List Node) (x y : Nat) (rA rB rC : Option Nat) (m : List Node)
    (hm : m = set_right (set_left (set_right (set_left b x rA) x (some y)) y rB) y rC)
    (hx : x < b.length) (hy : y < b.length) (hxy : x ≠ y)
    (hAx : rA ≠ some x) (hAy : rA ≠ some y)
    (hBx : rB ≠ some x) (hBy : rB ≠ some y)
    (hCx : rC ≠ some x) (hCy : rC ≠ some y)
    (hAB : ∀ c, rA = some c → rB ≠ some c)
    (hAC : ∀ c, rA = some c → rC ≠ some c)
    (hBC : ∀ c, rB = some c → rC ≠ some c)
    (hAlt : ∀ c, rA = some c → c < b.length)
    (hBlt : ∀ c, rB = some c → c < b.length)
    (hClt : ∀ c, rC = some c → c < b.length) :
    m.length = b.length ∧
    nd m x = { nd b x with left := rA, right := some y } ∧
    nd m y = { nd b y with parent := some x, left := rB, right := rC } ∧
    (∀ c, rA = some c → nd m c = { nd b c with parent := some x }) ∧
    (∀ c, rB = some c → nd m c = { nd b c with parent := some y }) ∧
    (∀ c, rC = some c → nd m c = { nd b c with parent := some y }) ∧
    (∀ j, j ≠ x → j ≠ y → rA ≠ some j → rB ≠ some j → rC ≠ some j → nd m j = nd b j) ∧
    (∀ j, (nd m j).value = (nd b j).value) := by
  subst hm
  have hyx : y ≠ x := fun h => hxy h.symm
  have hsyx : (some y : Option Nat) ≠ some x := by simpa using hyx
  have l1 : (set_left b x rA).length = b.length := set_left_length _ _ _
  have l2 : (set_right (set_left b x rA) x (some y)).length = b.length := by
    rw [set_right_length, l1]
  have l3 : (set_left (set_right (set_left b x rA) x (some y)) y rB).length = b.length := by
    rw [set_left_length, l2]
  refine ⟨?_, ?_, ?_, ?_, ?_, ?_, ?_, ?_⟩
  · rw [set_right_length, l3]
  · rw [nd_set_right_ne _ _ _ _ hxy hCx, nd_set_left_ne _ _ _ _ hxy hBx,
      nd_set_right_self _ _ _ (by rw [l1]; exact hx) hsyx,
      nd_set_left_self _ _ _ hx hAx]
  · rw [nd_set_right_self _ _ _ (by rw [l3]; exact hy) hCy,
      nd_set_left_self _ _ _ (by rw [l2]; exact hy) hBy,
      nd_set_right_child _ _ _ (by rw [l1]; exact hy) hxy,
      nd_set_left_ne _ _ _ _ hyx hAy]
  · intro c hc
    have hcx : c ≠ x := fun h => hAx (h ▸ hc)
    have hcy : c ≠ y := fun h => hAy (h ▸ hc)
    have hsyc : (some y : Option Nat) ≠ some c := by simpa using fun h => hcy h.symm
    rw [nd_set_right_ne _ _ _ _ hcy (hAC c hc), nd_set_left_ne _ _ _ _ hcy (hAB c hc),
      nd_set_right_ne _ _ _ _ hcx hsyc, hc,
      nd_set_left_child _ _ _ (hAlt c hc) (fun h => hcx h.symm)]
  · intro c hc
    have hcx : c ≠ x := fun h => hBx (h ▸ hc)
    have hcy : c ≠ y := fun h => hBy (h ▸ hc)
    have hsyc : (some y : Option Nat) ≠ some c := by simpa using fun h => hcy h.symm
    have hAc : rA ≠ some c := fun h => hAB c h hc
    rw [nd_set_right_ne _ _ _ _ hcy (hBC c hc), hc,
      nd_set_left_child _ _ _ (by rw [l2]; exact hBlt c hc) (fun h => hcy h.symm),
      nd_set_right_ne _ _ _ _ hcx hsyc, nd_set_left_ne _ _ _ _ hcx hAc]
  · intro c hc
    have hcx : c ≠ x := fun h => hCx (h ▸ hc)
    have hcy : c ≠ y := fun h => hCy (h ▸ hc)
    have hsyc : (some y : Option Nat) ≠ some c := by simpa using fun h => hcy h.symm
    have hAc : rA ≠ some c := fun h => hAC c h hc
    have hBc : rB ≠ some c := fun h => hBC c h hc
    rw [hc, nd_set_right_child _ _ _ (by rw [l3]; exact hClt c hc) (fun h => hcy h.symm),
      nd_set_left_ne _ _ _ _ hcy hBc,
      nd_set_right_ne _ _ _ _ hcx hsyc, nd_set_left_ne _ _ _ _ hcx hAc]
  · intro j hjx hjy hAj hBj hCj
    have hsyj : (some y : Option Nat) ≠ some j := by simpa using fun h => hjy h.symm
    rw [nd_set_right_ne _ _ _ _ hjy hCj, nd_set_left_ne _ _ _ _ hjy hBj,
      nd_set_right_ne _ _ _ _ hjx hsyj, nd_set_left_ne _ _ _ _ hjx hAj]
  · intro j
    rw [nd_set_right_value, nd_set_left_value, nd_set_right_value, nd_set_left_value]

theorem chain4L_desc (b : List Node) (x y : Nat) (rA rB rC : Option Nat) (m : List Node)
    (hm : m = set_left (set_right (set_left (set_right b y rC) y (some x)) x rB) x rA)
    (hx : x < b.length) (hy : y < b.length) (hxy : x ≠ y)
    (hAx : rA ≠ some x) (hAy : rA ≠ some y)
    (hBx : rB ≠ some x) (hBy : rB ≠ some y)
    (hCx : rC ≠ some x) (hCy : rC ≠ some y)
    (hAB : ∀ c, rA = some c → rB ≠ some c)
    (hAC : ∀ c, rA = some c → rC ≠ some c)
    (hBC : ∀ c, rB = some c → rC ≠ some c)
    (hAlt : ∀ c, rA = some c → c < b.length)
    (hBlt : ∀ c, rB = some c → c < b.length)
    (hClt : ∀ c, rC = some c → c < b.length) :
    m.length = b.length ∧
    nd m y = { nd b y with right := rC, left := some x } ∧
    nd m x = { nd b x with parent := some y, right := rB, left := rA } ∧
    (∀ c, rA = some c → nd m c = { nd b c with parent := some x }) ∧
    (∀ c, rB = some c → nd m c = { nd b c with parent := some x }) ∧
    (∀ c, rC = some c → nd m c = { nd b c with parent := some y }) ∧
    (∀ j, j ≠ x → j ≠ y → rA ≠ some j → rB ≠ some j → rC ≠ some j → nd m j = nd b j) ∧
    (∀ j, (nd m j).value = (nd b j).value) := by
  subst hm
  have hyx : y ≠ x := fun h => hxy h.symm
  have hsxy : (some x : Option Nat) ≠ some y := by simpa using hxy
  have l1 : (set_right b y rC).length = b.length := set_right_length _ _ _
  have l2 : (set_left (set_right b y rC) y (some x)).length = b.length := by
    rw [set_left_length, l1]
  have l3 : (set_right (set_left (set_right b y rC) y (some x)) x rB).length = b.length := by
    rw [set_right_length, l2]
  refine ⟨?_, ?_, ?_, ?_, ?_, ?_, ?_, ?_⟩
  · rw [set_left_length, l3]
  · rw [nd_set_left_ne _ _ _ _ hyx hAy, nd_set_right_ne _ _ _ _ hyx hBy,
      nd_set_left_self _ _ _ (by rw [l1]; exact hy) hsxy,
      nd_set_right_self _ _ _ hy hCy]
  · rw [nd_set_left_self _ _ _ (by rw [l3]; exact hx) hAx,
      nd_set_right_self _ _ _ (by rw [l2]; exact hx) hBx,
      nd_set_left_child _ _ _ (by rw [l1]; exact hx) hyx,
      nd_set_right_ne _ _ _ _ hxy hCx]
  · intro c hc
    have hcx : c ≠ x := fun h => hAx (h ▸ hc)
    have hcy : c ≠ y := fun h => hAy (h ▸ hc)
    have hsxc : (some x : Option Nat) ≠ some c := by simpa using fun h => hcx h.symm
    rw [hc, nd_set_left_child _ _ _ (by rw [l3]; exact hAlt c hc) (fun h => hcx h.symm),
      nd_set_right_ne _ _ _ _ hcx (hAB c hc),
      nd_set_left_ne _ _ _ _ hcy hsxc, nd_set_right_ne _ _ _ _ hcy (hAC c hc)]
  · intro c hc
    have hcx : c ≠ x := fun h => hBx (h ▸ hc)
    have hcy : c ≠ y := fun h => hBy (h ▸ hc)
    have hsxc : (some x : Option Nat) ≠ some c := by simpa using fun h => hcx h.symm
    have hAc : rA ≠ some c := fun h => hAB c h hc
    rw [nd_set_left_ne _ _ _ _ hcx hAc, hc,
      nd_set_right_child _ _ _ (by rw [l2]; exact hBlt c hc) (fun h => hcx h.symm),
      nd_set_left_ne _ _ _ _ hcy hsxc, nd_set_right_ne _ _ _ _ hcy (hBC c hc)]
  · intro c hc
    have hcx : c ≠ x := fun h => hCx (h ▸ hc)
    have hcy : c ≠ y := fun h => hCy (h ▸ hc)
    have hsxc : (some x : Option Nat) ≠ some c := by simpa using fun h => hcx h.symm
    have hAc : rA ≠ some c := fun h => hAC c h hc
    have hBc : rB ≠ some c := fun h => hBC c h hc
    rw [nd_set_left_ne _ _ _ _ hcx hAc, nd_set_right_ne _ _ _ _ hcx hBc,
      nd_set_left_ne _ _ _ _ hcy hsxc, hc,
      nd_set_right_child _ _ _ (hClt c hc) (fun h => hcy h.symm)]
  · intro j hjx hjy hAj hBj hCj
    have hsxj : (some x : Option Nat) ≠ some j := by simpa using fun h => hjx h.symm
    rw [nd_set_left_ne _ _ _ _ hjx hAj, nd_set_right_ne _ _ _ _ hjx hBj,
      nd_set_left_ne _ _ _ _ hjy hsxj, nd_set_right_ne _ _ _ _ hjy hCj]
  · intro j
    rw [nd_set_left_value, nd_set_right_value, nd_set_left_value, nd_set_right_value]

/-! ## Simulation: `rotate_right` on the arena realises the abstract rotation -/

/-- Core simulation lemma for the C `rotate_right`, generalized over the
position of the rotated subtree.  If the arena realises `t` and the subtree
at path `p` is `node (node A x B) y C`, then after `rotate_right T y` the
arena realises `t` with that subtree replaced by `node A x (node B y C)`;
nodes outside the subtree keep their fields except the subtree's parent
`z0`, whose child pointer moves from `y` to `x` (this is what `swap_child`
does); the recorded root becomes `x` exactly when the subtree was the whole
tree; sizes, lengths and all keys are unchanged. -/
theorem rot_right_aux (p : List Bool) (T : Tree) (par : Option Nat)
    (t A B C : BT) (x y : Nat)
    (hrep : rep T.nodes par t)
    (hnd : (idxs t).Nodup)
    (hsub : subtreeAt t p = some (.node (.node A x B) y C))
    (hout : ∀ j, par = some j → j ∉ idxs t ∧ j < T.nodes.length)
    (hz : ∀ z0, par = some z0 → p = [] →
       (nd T.nodes z0).left = some y ∨ (nd T.nodes z0).right = some y) :
    rep (rotate_right T y).nodes par (replaceAt t p (.node A x (.node B y C))) ∧
    (∀ j, j ∉ idxs t → par ≠ some j → nd (rotate_right T y).nodes j = nd T.nodes j) ∧
    (∀ z0, par = some z0 →
       (if p = [] then
          (if (nd T.nodes z0).left = some y
           then nd (rotate_right T y).nodes z0 = { nd T.nodes z0 with left := some x }
           else nd (rotate_right T y).nodes z0 = { nd T.nodes z0 with right := some x })
        else nd (rotate_right T y).nodes z0 = nd T.nodes z0)) ∧
    (rotate_right T y).root = (if p = [] ∧ par = none then x else T.root) ∧
    (rotate_right T y).nodes.length = T.nodes.length ∧
    (rotate_right T y).size = T.size ∧
    (∀ j, (nd (rotate_right T y).nodes j).value = (nd T.nodes j).value) := by
  induction p generalizing par t with
  | nil =>
      have ht : t = BT.node (BT.node A x B) y C := by simpa [subtreeAt] using hsub
      subst ht
      simp only [rep, rootIdx_node] at hrep
      obtain ⟨hylt, hypar, hyleft, hyright, ⟨hxlt, hxpar, hxleft, hxright, hrepA, hrepB⟩,
        hrepC⟩ := hrep
      obtain ⟨hndL, hndC, hyL, hyC, hdisLC⟩ := nodup_node hnd
      obtain ⟨hndA, hndB, hxA, hxB, hdisAB⟩ := nodup_node hndL
      have hxmemL : x ∈ idxs (BT.node A x B) := by simp [idxs]
      have hmemA : ∀ c ∈ idxs A, c ∈ idxs (BT.node A x B) := by
        intro c hc; simp [idxs]; exact Or.inl hc
      have hmemB : ∀ c ∈ idxs B, c ∈ idxs (BT.node A x B) := by
        intro c hc; simp [idxs]; exact Or.inr (Or.inr hc)
      have hxy : x ≠ y := fun h => hyL (h ▸ hxmemL)
      have hAx : rootIdx A ≠ some x := fun h => hxA (rootIdx_mem h)
      have hAy : rootIdx A ≠ some y := fun h => hyL (hmemA _ (rootIdx_mem h))
      have hBx : rootIdx B ≠ some x := fun h => hxB (rootIdx_mem h)
      have hBy : rootIdx B ≠ some y := fun h => hyL (hmemB _ (rootIdx_mem h))
      have hCx : rootIdx C ≠ some x := fun h => hdisLC x hxmemL (rootIdx_mem h)
      have hCy : rootIdx C ≠ some y := fun h => hyC (rootIdx_mem h)
      have hAB : ∀ c, rootIdx A = some c → rootIdx B ≠ some c :=
        fun c hc h => hdisAB c (rootIdx_mem hc) (rootIdx_mem h)
      have hAC : ∀ c, rootIdx A = some c → rootIdx C ≠ some c :=
        fun c hc h => hdisLC c (hmemA _ (rootIdx_mem hc)) (rootIdx_mem h)
      have hBC : ∀ c, rootIdx B = some c → rootIdx C ≠ some c :=
        fun c hc h => hdisLC c (hmemB _ (rootIdx_mem hc)) (rootIdx_mem h)
      have hAlt : ∀ c, rootIdx A = some c → c < T.nodes.length :=
        fun c hc => rep_lt hrepA (rootIdx_mem hc)
      have hBlt : ∀ c, rootIdx B = some c → c < T.nodes.length :=
        fun c hc => rep_lt hrepB (rootIdx_mem hc)
      have hClt : ∀ c, rootIdx C = some c → c < T.nodes.length :=
        fun c hc => rep_lt hrepC (rootIdx_mem hc)
      -- memberships in the whole pattern, for the frame clauses
      have hmemLt : ∀ c ∈ idxs (BT.node A x B), c ∈ idxs (BT.node (BT.node A x B) y C) := by
        intro c hc; simp [idxs] at hc ⊢; tauto
      have hmemCt : ∀ c ∈ idxs C, c ∈ idxs (BT.node (BT.node A x B) y C) := by
        intro c hc; simp [idxs]; tauto
      have hymem : y ∈ idxs (BT.node (BT.node A x B) y C) := by simp [idxs]
      cases par with
      | none =>
          have hrw : rotate_right T y =
              { size := T.size, root := x,
                nodes := set_right (set_left (set_right (set_left
                  (wr T.nodes x (fun v => { v with parent := none })) x (rootIdx A)) x (some y)) y
                  (rootIdx B)) y (rootIdx C) } := by
            simp only [rotate_right, hyleft, hxleft, hxright, hyright, hypar, swap_child]
          have hblen : (wr T.nodes x (fun v => { v with parent := none })).length
              = T.nodes.length := length_wr _ _ _
          obtain ⟨d1, d2, d3, d4, d5, d6, d7, d8⟩ :=
            chain4R_desc (wr T.nodes x (fun v => { v with parent := none })) x y
              (rootIdx A) (rootIdx B) (rootIdx C) _ rfl
              (by rw [hblen]; exact hxlt) (by rw [hblen]; exact hylt) hxy
              hAx hAy hBx hBy hCx hCy hAB hAC hBC
              (fun c hc => by rw [hblen]; exact hAlt c hc)
              (fun c hc => by rw [hblen]; exact hBlt c hc)
              (fun c hc => by rw [hblen]; exact hClt c hc)
          have hbx : nd (wr T.nodes x fun v => { v with parent := none }) x
              = { nd T.nodes x with parent := none } := nd_wr_self _ _ _ hxlt
          have hbo : ∀ j, j ≠ x → nd (wr T.nodes x fun v => { v with parent := none }) j
              = nd T.nodes j := fun j hj => nd_wr_other _ _ _ _ (fun h => hj h.symm)
          rw [hrw]
          dsimp only
          have hmx : (nd (set_right (set_left (set_right (set_left
              (wr T.nodes x (fun v => { v with parent := none })) x (rootIdx A)) x (some y)) y
              (rootIdx B)) y (rootIdx C)) x)
              = { nd T.nodes x with parent := none, left := rootIdx A, right := some y } := by
            rw [d2, hbx]
          have hmy : (nd (set_right (set_left (set_right (set_left
              (wr T.nodes x (fun v => { v with parent := none })) x (rootIdx A)) x (some y)) y
              (rootIdx B)) y (rootIdx C)) y)
              = { nd T.nodes y with parent := some x, left := rootIdx B, right := rootIdx C } := by
            rw [d3, hbo y (fun h => hxy h.symm)]
          refine ⟨?_, ?_, ?_, ?_, ?_, ?_, ?_⟩
          · simp only [replaceAt, rep, rootIdx_node]
            refine ⟨by rw [d1, hblen]; exact hxlt, by rw [hmx], by rw [hmx], by rw [hmx],
              ?_, by rw [d1, hblen]; exact hylt, by rw [hmy], by rw [hmy], by rw [hmy], ?_, ?_⟩
            · refine rep_reparent hrepA ?_ ?_ (by rw [d1, hblen]) hndA
              · intro c hc
                have hcx : c ≠ x := fun h => hAx (h ▸ hc)
                rw [d4 c hc, hbo c hcx]
                exact ⟨rfl, rfl, rfl⟩
              · intro j hj hjr
                have hjx : j ≠ x := fun h => hxA (h ▸ hj)
                have hjy : j ≠ y := fun h => hyL (hmemA _ (h ▸ hj))
                have hBj : rootIdx B ≠ some j := fun h => hdisAB j hj (rootIdx_mem h)
                have hCj : rootIdx C ≠ some j := fun h => hdisLC j (hmemA _ hj) (rootIdx_mem h)
                rw [d7 j hjx hjy hjr hBj hCj, hbo j hjx]
            · refine rep_reparent hrepB ?_ ?_ (by rw [d1, hblen]) hndB
              · intro c hc
                have hcx : c ≠ x := fun h => hBx (h ▸ hc)
                rw [d5 c hc, hbo c hcx]
                exact ⟨rfl, rfl, rfl⟩
              · intro j hj hjr
                have hjx : j ≠ x := fun h => hxB (h ▸ hj)
                have hjy : j ≠ y := fun h => hyL (hmemB _ (h ▸ hj))
                have hAj : rootIdx A ≠ some j := fun h => hdisAB j (rootIdx_mem h) hj
                have hCj : rootIdx C ≠ some j := fun h => hdisLC j (hmemB _ hj) (rootIdx_mem h)
                rw [d7 j hjx hjy hAj hjr hCj, hbo j hjx]
            · refine rep_reparent hrepC ?_ ?_ (by rw [d1, hblen]) hndC
              · intro c hc
                have hcx : c ≠ x := fun h => hCx (h ▸ hc)
                rw [d6 c hc, hbo c hcx]
                exact ⟨rfl, rfl, rfl⟩
              · intro j hj hjr
                have hjx : j ≠ x := fun h => hdisLC x hxmemL (h ▸ hj)
                have hjy : j ≠ y := fun h => hyC (h ▸ hj)
                have hAj : rootIdx A ≠ some j := fun h => hdisLC j (hmemA _ (rootIdx_mem h)) hj
                have hBj : rootIdx B ≠ some j := fun h => hdisLC j (hmemB _ (rootIdx_mem h)) hj
                rw [d7 j hjx hjy hAj hBj hjr, hbo j hjx]
          · intro j hjt _
            have hjx : j ≠ x := fun h => hjt (h ▸ hmemLt x hxmemL)
            have hjy : j ≠ y := fun h => hjt (h ▸ hymem)
            have hAj : rootIdx A ≠ some j := fun h => hjt (hmemLt j (hmemA _ (rootIdx_mem h)))
            have hBj : rootIdx B ≠ some j := fun h => hjt (hmemLt j (hmemB _ (rootIdx_mem h)))
            have hCj : rootIdx C ≠ some j := fun h => hjt (hmemCt j (rootIdx_mem h))
            rw [d7 j hjx hjy hAj hBj hCj, hbo j hjx]
          · intro z0 h0
            exact absurd h0 (by simp)
          · simp
          · rw [d1, hblen]
          · rfl
          · intro j
            exact (d8 j).trans (nd_wr_value T.nodes x j
              (fun v => { v with parent := none }) (fun v => rfl))
      | some z0 =>
          obtain ⟨hz0t, hz0lt⟩ := hout z0 rfl
          have hz0x : z0 ≠ x := fun h => hz0t (h ▸ hmemLt x hxmemL)
          have hz0y : z0 ≠ y := fun h => hz0t (h ▸ hymem)
          have hAz0 : rootIdx A ≠ some z0 := fun h => hz0t (hmemLt z0 (hmemA _ (rootIdx_mem h)))
          have hBz0 : rootIdx B ≠ some z0 := fun h => hz0t (hmemLt z0 (hmemB _ (rootIdx_mem h)))
          have hCz0 : rootIdx C ≠ some z0 := fun h => hz0t (hmemCt z0 (rootIdx_mem h))
          have hxz0 : x ≠ z0 := fun h => hz0x h.symm
          have hred : (nd (wr T.nodes x (fun v => { v with parent := some z0 })) z0).left
              = (nd T.nodes z0).left := by rw [nd_wr_other _ _ _ _ hxz0]
          have hred2 : (nd (wr T.nodes x (fun v => { v with parent := some z0 })) z0).right
              = (nd T.nodes z0).right := by rw [nd_wr_other _ _ _ _ hxz0]
          by_cases hzl : (nd T.nodes z0).left = some y
          · -- swap_child rewrites z0's left pointer
            have hrw : rotate_right T y =
                { size := T.size, root := T.root,
                  nodes := set_right (set_left (set_right (set_left
                    (wr (wr T.nodes x (fun v => { v with parent := some z0 })) z0
                      (fun v => { v with left := some x })) x (rootIdx A)) x (some y)) y
                    (rootIdx B)) y (rootIdx C) } := by
              simp only [rotate_right, hyleft, hxleft, hxright, hyright, hypar, swap_child,
                hred, hzl, if_pos]
            have hblen : (wr (wr T.nodes x (fun v => { v with parent := some z0 })) z0
                (fun v => { v with left := some x })).length = T.nodes.length := by
              rw [length_wr, length_wr]
            have hbx : nd (wr (wr T.nodes x (fun v => { v with parent := some z0 })) z0
                (fun v => { v with left := some x })) x = { nd T.nodes x with parent := some z0 } := by
              rw [nd_wr_other _ _ _ _ hz0x, nd_wr_self _ _ _ hxlt]
            have hbz0 : nd (wr (wr T.nodes x (fun v => { v with parent := some z0 })) z0
                (fun v => { v with left := some x })) z0 = { nd T.nodes z0 with left := some x } := by
              rw [nd_wr_self _ _ _ (by rw [length_wr]; exact hz0lt),
                nd_wr_other _ _ _ _ hxz0]
            have hbo : ∀ j, j ≠ x → j ≠ z0 →
                nd (wr (wr T.nodes x (fun v => { v with parent := some z0 })) z0
                  (fun v => { v with left := some x })) j = nd T.nodes j := by
              intro j hjx hjz
              rw [nd_wr_other _ _ _ _ (fun h => hjz h.symm), nd_wr_other _ _ _ _ (fun h => hjx h.symm)]
            obtain ⟨d1, d2, d3, d4, d5, d6, d7, d8⟩ :=
              chain4R_desc (wr (wr T.nodes x (fun v => { v with parent := some z0 })) z0
                (fun v => { v with left := some x })) x y
                (rootIdx A) (rootIdx B) (rootIdx C) _ rfl
                (by rw [hblen]; exact hxlt) (by rw [hblen]; exact hylt) hxy
                hAx hAy hBx hBy hCx hCy hAB hAC hBC
                (fun c hc => by rw [hblen]; exact hAlt c hc)
                (fun c hc => by rw [hblen]; exact hBlt c hc)
                (fun c hc => by rw [hblen]; exact hClt c hc)
            rw [hrw]
            dsimp only
            have hmx : (nd (set_right (set_left (set_right (set_left
                (wr (wr T.nodes x (fun v => { v with parent := some z0 })) z0
                  (fun v => { v with left := some x })) x (rootIdx A)) x (some y)) y
                (rootIdx B)) y (rootIdx C)) x)
                = { nd T.nodes x with parent := some z0, left := rootIdx A, right := some y } := by
              rw [d2, hbx]
            have hmy : (nd (set_right (set_left (set_right (set_left
                (wr (wr T.nodes x (fun v => { v with parent := some z0 })) z0
                  (fun v => { v with left := some x })) x (rootIdx A)) x (some y)) y
                (rootIdx B)) y (rootIdx C)) y)
                = { nd T.nodes y with parent := some x, left := rootIdx B, right := rootIdx C } := by
              rw [d3, hbo y (fun h => hxy h.symm) hz0y.symm]
            refine ⟨?_, ?_, ?_, ?_, ?_, ?_, ?_⟩
            · simp only [replaceAt, rep, rootIdx_node]
              refine ⟨by rw [d1, hblen]; exact hxlt, by rw [hmx], by rw [hmx], by rw [hmx],
                ?_, by rw [d1, hblen]; exact hylt, by rw [hmy], by rw [hmy], by rw [hmy], ?_, ?_⟩
              · refine rep_reparent hrepA ?_ ?_ (by rw [d1, hblen]) hndA
                · intro c hc
                  have hcx : c ≠ x := fun h => hAx (h ▸ hc)
                  have hcz : c ≠ z0 := fun h => hAz0 (h ▸ hc)
                  rw [d4 c hc, hbo c hcx hcz]
                  exact ⟨rfl, rfl, rfl⟩
                · intro j hj hjr
                  have hjx : j ≠ x := fun h => hxA (h ▸ hj)
                  have hjy : j ≠ y := fun h => hyL (hmemA _ (h ▸ hj))
                  have hjz : j ≠ z0 := fun h => hz0t (h ▸ hmemLt j (hmemA _ hj))
                  have hBj : rootIdx B ≠ some j := fun h => hdisAB j hj (rootIdx_mem h)
                  have hCj : rootIdx C ≠ some j := fun h => hdisLC j (hmemA _ hj) (rootIdx_mem h)
                  rw [d7 j hjx hjy hjr hBj hCj, hbo j hjx hjz]
              · refine rep_reparent hrepB ?_ ?_ (by rw [d1, hblen]) hndB
                · intro c hc
                  have hcx : c ≠ x := fun h => hBx (h ▸ hc)
                  have hcz : c ≠ z0 := fun h => hBz0 (h ▸ hc)
                  rw [d5 c hc, hbo c hcx hcz]
                  exact ⟨rfl, rfl, rfl⟩
                · intro j hj hjr
                  have hjx : j ≠ x := fun h => hxB (h ▸ hj)
                  have hjy : j ≠ y := fun h => hyL (hmemB _ (h ▸ hj))
                  have hjz : j ≠ z0 := fun h => hz0t (h ▸ hmemLt j (hmemB _ hj))
                  have hAj : rootIdx A ≠ some j := fun h => hdisAB j (rootIdx_mem h) hj
                  have hCj : rootIdx C ≠ some j := fun h => hdisLC j (hmemB _ hj) (rootIdx_mem h)
                  rw [d7 j hjx hjy hAj hjr hCj, hbo j hjx hjz]
              · refine rep_reparent hrepC ?_ ?_ (by rw [d1, hblen]) hndC
                · intro c hc
                  have hcx : c ≠ x := fun h => hCx (h ▸ hc)
                  have hcz : c ≠ z0 := fun h => hCz0 (h ▸ hc)
                  rw [d6 c hc, hbo c hcx hcz]
                  exact ⟨rfl, rfl, rfl⟩
                · intro j hj hjr
                  have hjx : j ≠ x := fun h => hdisLC x hxmemL (h ▸ hj)
                  have hjy : j ≠ y := fun h => hyC (h ▸ hj)
                  have hjz : j ≠ z0 := fun h => hz0t (h ▸ hmemCt j hj)
                  have hAj : rootIdx A ≠ some j := fun h => hdisLC j (hmemA _ (rootIdx_mem h)) hj
                  have hBj : rootIdx B ≠ some j := fun h => hdisLC j (hmemB _ (rootIdx_mem h)) hj
                  rw [d7 j hjx hjy hAj hBj hjr, hbo j hjx hjz]
            · intro j hjt hpj
              have hjx : j ≠ x := fun h => hjt (h ▸ hmemLt x hxmemL)
              have hjy : j ≠ y := fun h => hjt (h ▸ hymem)
              have hjz : j ≠ z0 := fun h => hpj (by rw [h])
              have hAj : rootIdx A ≠ some j := fun h => hjt (hmemLt j (hmemA _ (rootIdx_mem h)))
              have hBj : rootIdx B ≠ some j := fun h => hjt (hmemLt j (hmemB _ (rootIdx_mem h)))
              have hCj : rootIdx C ≠ some j := fun h => hjt (hmemCt j (rootIdx_mem h))
              rw [d7 j hjx hjy hAj hBj hCj, hbo j hjx hjz]
            · intro w hw
              have hwz : w = z0 := by simpa using hw.symm
              subst hwz
              rw [if_pos rfl, if_pos hzl]
              rw [d7 _ hz0x hz0y hAz0 hBz0 hCz0, hbz0]
            · simp
            · rw [d1, hblen]
            · rfl
            · intro j
              have h1 := nd_wr_value (wr T.nodes x (fun v => { v with parent := some z0 })) z0 j
                (fun v => { v with left := some x }) (fun v => rfl)
              have h2 := nd_wr_value T.nodes x j
                (fun v => { v with parent := some z0 }) (fun v => rfl)
              exact (d8 j).trans (h1.trans h2)
          · -- z0's right pointer must be y; swap_child rewrites it
            have hzr : (nd T.nodes z0).right = some y := by
              rcases hz z0 rfl rfl with h | h
              · exact absurd h hzl
              · exact h
            have hrw : rotate_right T y =
                { size := T.size, root := T.root,
                  nodes := set_right (set_left (set_right (set_left
                    (wr (wr T.nodes x (fun v => { v with parent := some z0 })) z0
                      (fun v => { v with right := some x })) x (rootIdx A)) x (some y)) y
                    (rootIdx B)) y (rootIdx C) } := by
              simp only [rotate_right, hyleft, hxleft, hxright, hyright, hypar, swap_child,
                hred, hred2, hzl, hzr, if_neg, if_pos]
              rfl
            have hblen : (wr (wr T.nodes x (fun v => { v with parent := some z0 })) z0
                (fun v => { v with right := some x })).length = T.nodes.length := by
              rw [length_wr, length_wr]
            have hbx : nd (wr (wr T.nodes x (fun v => { v with parent := some z0 })) z0
                (fun v => { v with right := some x })) x = { nd T.nodes x with parent := some z0 } := by
              rw [nd_wr_other _ _ _ _ hz0x, nd_wr_self _ _ _ hxlt]
            have hbz0 : nd (wr (wr T.nodes x (fun v => { v with parent := some z0 })) z0
                (fun v => { v with right := some x })) z0 = { nd T.nodes z0 with right := some x } := by
              rw [nd_wr_self _ _ _ (by rw [length_wr]; exact hz0lt),
                nd_wr_other _ _ _ _ hxz0]
            have hbo : ∀ j, j ≠ x → j ≠ z0 →
                nd (wr (wr T.nodes x (fun v => { v with parent := some z0 })) z0
                  (fun v => { v with right := some x })) j = nd T.nodes j := by
              intro j hjx hjz
              rw [nd_wr_other _ _ _ _ (fun h => hjz h.symm), nd_wr_other _ _ _ _ (fun h => hjx h.symm)]
            obtain ⟨d1, d2, d3, d4, d5, d6, d7, d8⟩ :=
              chain4R_desc (wr (wr T.nodes x (fun v => { v with parent := some z0 })) z0
                (fun v => { v with right := some x })) x y
                (rootIdx A) (rootIdx B) (rootIdx C) _ rfl
                (by rw [hblen]; exact hxlt) (by rw [hblen]; exact hylt) hxy
                hAx hAy hBx hBy hCx hCy hAB hAC hBC
                (fun c hc => by rw [hblen]; exact hAlt c hc)
                (fun c hc => by rw [hblen]; exact hBlt c hc)
                (fun c hc => by rw [hblen]; exact hClt c hc)
            rw [hrw]
            dsimp only
            have hmx : (nd (set_right (set_left (set_right (set_left
                (wr (wr T.nodes x (fun v => { v with parent := some z0 })) z0
                  (fun v => { v with right := some x })) x (rootIdx A)) x (some y)) y
                (rootIdx B)) y (rootIdx C)) x)
                = { nd T.nodes x with parent := some z0, left := rootIdx A, right := some y } := by
              rw [d2, hbx]
            have hmy : (nd (set_right (set_left (set_right (set_left
                (wr (wr T.nodes x (fun v => { v with parent := some z0 })) z0
                  (fun v => { v with right := some x })) x (rootIdx A)) x (some y)) y
                (rootIdx B)) y (rootIdx C)) y)
                = { nd T.nodes y with parent := some x, left := rootIdx B, right := rootIdx C } := by
              rw [d3, hbo y (fun h => hxy h.symm) hz0y.symm]
            refine ⟨?_, ?_, ?_, ?_, ?_, ?_, ?_⟩
            · simp only [replaceAt, rep, rootIdx_node]
              refine ⟨by rw [d1, hblen]; exact hxlt, by rw [hmx], by rw [hmx], by rw [hmx],
                ?_, by rw [d1, hblen]; exact hylt, by rw [hmy], by rw [hmy], by rw [hmy], ?_, ?_⟩
              · refine rep_reparent hrepA ?_ ?_ (by rw [d1, hblen]) hndA
                · intro c hc
                  have hcx : c ≠ x := fun h => hAx (h ▸ hc)
                  have hcz : c ≠ z0 := fun h => hAz0 (h ▸ hc)
                  rw [d4 c hc, hbo c hcx hcz]
                  exact ⟨rfl, rfl, rfl⟩
                · intro j hj hjr
                  have hjx : j ≠ x := fun h => hxA (h ▸ hj)
                  have hjy : j ≠ y := fun h => hyL (hmemA _ (h ▸ hj))
                  have hjz : j ≠ z0 := fun h => hz0t (h ▸ hmemLt j (hmemA _ hj))
                  have hBj : rootIdx B ≠ some j := fun h => hdisAB j hj (rootIdx_mem h)
                  have hCj : rootIdx C ≠ some j := fun h => hdisLC j (hmemA _ hj) (rootIdx_mem h)
                  rw [d7 j hjx hjy hjr hBj hCj, hbo j hjx hjz]
              · refine rep_reparent hrepB ?_ ?_ (by rw [d1, hblen]) hndB
                · intro c hc
                  have hcx : c ≠ x := fun h => hBx (h ▸ hc)
                  have hcz : c ≠ z0 := fun h => hBz0 (h ▸ hc)
                  rw [d5 c hc, hbo c hcx hcz]
                  exact ⟨rfl, rfl, rfl⟩
                · intro j hj hjr
                  have hjx : j ≠ x := fun h => hxB (h ▸ hj)
                  have hjy : j ≠ y := fun h => hyL (hmemB _ (h ▸ hj))
                  have hjz : j ≠ z0 := fun h => hz0t (h ▸ hmemLt j (hmemB _ hj))
                  have hAj : rootIdx A ≠ some j := fun h => hdisAB j (rootIdx_mem h) hj
                  have hCj : rootIdx C ≠ some j := fun h => hdisLC j (hmemB _ hj) (rootIdx_mem h)
                  rw [d7 j hjx hjy hAj hjr hCj, hbo j hjx hjz]
              · refine rep_reparent hrepC ?_ ?_ (by rw [d1, hblen]) hndC
                · intro c hc
                  have hcx : c ≠ x := fun h => hCx (h ▸ hc)
                  have hcz : c ≠ z0 := fun h => hCz0 (h ▸ hc)
                  rw [d6 c hc, hbo c hcx hcz]
                  exact ⟨rfl, rfl, rfl⟩
                · intro j hj hjr
                  have hjx : j ≠ x := fun h => hdisLC x hxmemL (h ▸ hj)
                  have hjy : j ≠ y := fun h => hyC (h ▸ hj)
                  have hjz : j ≠ z0 := fun h => hz0t (h ▸ hmemCt j hj)
                  have hAj : rootIdx A ≠ some j := fun h => hdisLC j (hmemA _ (rootIdx_mem h)) hj
                  have hBj : rootIdx B ≠ some j := fun h => hdisLC j (hmemB _ (rootIdx_mem h)) hj
                  rw [d7 j hjx hjy hAj hBj hjr, hbo j hjx hjz]
            · intro j hjt hpj
              have hjx : j ≠ x := fun h => hjt (h ▸ hmemLt x hxmemL)
              have hjy : j ≠ y := fun h => hjt (h ▸ hymem)
              have hjz : j ≠ z0 := fun h => hpj (by rw [h])
              have hAj : rootIdx A ≠ some j := fun h => hjt (hmemLt j (hmemA _ (rootIdx_mem h)))
              have hBj : rootIdx B ≠ some j := fun h => hjt (hmemLt j (hmemB _ (rootIdx_mem h)))
              have hCj : rootIdx C ≠ some j := fun h => hjt (hmemCt j (rootIdx_mem h))
              rw [d7 j hjx hjy hAj hBj hCj, hbo j hjx hjz]
            · intro w hw
              have hwz : w = z0 := by simpa using hw.symm
              subst hwz
              rw [if_pos rfl, if_neg hzl]
              rw [d7 _ hz0x hz0y hAz0 hBz0 hCz0, hbz0]
            · simp
            · rw [d1, hblen]
            · rfl
            · intro j
              have h1 := nd_wr_value (wr T.nodes x (fun v => { v with parent := some z0 })) z0 j
                (fun v => { v with right := some x }) (fun v => rfl)
              have h2 := nd_wr_value T.nodes x j
                (fun v => { v with parent := some z0 }) (fun v => rfl)
              exact (d8 j).trans (h1.trans h2)
  | cons d p ih =>
      cases t with
      | leaf => cases d <;> simp [subtreeAt] at hsub
      | node l i r =>
          simp only [rep] at hrep
          obtain ⟨hilt, hipar, hileft, hiright, hrepl, hrepr⟩ := hrep
          obtain ⟨hndl, hndr, hil, hir, hdislr⟩ := nodup_node hnd
          have himem : i ∈ idxs (BT.node l i r) := by simp [idxs]
          cases d
          · -- descend right
            simp only [subtreeAt] at hsub
            have hout2 : ∀ j, (some i : Option Nat) = some j → j ∉ idxs r ∧ j < T.nodes.length := by
              rintro j hj
              have : i = j := by simpa using hj
              subst this
              exact ⟨hir, hilt⟩
            have hz2 : ∀ z0, (some i : Option Nat) = some z0 → p = [] →
                (nd T.nodes z0).left = some y ∨ (nd T.nodes z0).right = some y := by
              rintro z0 hz0 hp
              have : i = z0 := by simpa using hz0
              subst this
              subst hp
              have hr2 : r = BT.node (BT.node A x B) y C := by simpa [subtreeAt] using hsub
              right
              rw [hiright, hr2]
              rfl
            obtain ⟨ih1, ih2, ih3, ih4, ih5, ih6, ih7⟩ :=
              ih (some i) r hrepr hndr hsub hout2 hz2
            have hmi : (nd (rotate_right T y).nodes i).parent = (nd T.nodes i).parent ∧
                (nd (rotate_right T y).nodes i).left = (nd T.nodes i).left ∧
                (nd (rotate_right T y).nodes i).right
                  = rootIdx (replaceAt r p (BT.node A x (BT.node B y C))) := by
              have hspec := ih3 i rfl
              by_cases hp : p = []
              · subst hp
                have hr2 : r = BT.node (BT.node A x B) y C := by simpa [subtreeAt] using hsub
                have hry : (nd T.nodes i).right = some y := by rw [hiright, hr2]; rfl
                have hly : (nd T.nodes i).left ≠ some y := by
                  rw [hileft]
                  intro hcon
                  have hymem2 : y ∈ idxs l := rootIdx_mem hcon
                  have : y ∈ idxs r := by rw [hr2]; simp [idxs]
                  exact hdislr y hymem2 this
                rw [if_pos rfl, if_neg hly] at hspec
                rw [hspec]
                refine ⟨rfl, rfl, ?_⟩
                simp [replaceAt, rootIdx_node]
              · rw [if_neg hp] at hspec
                rw [hspec, rootIdx_replaceAt hp, hiright]
                exact ⟨rfl, rfl, rfl⟩
            refine ⟨?_, ?_, ?_, ?_, ih5, ih6, ih7⟩
            · simp only [replaceAt, rep]
              refine ⟨by rw [ih5]; exact hilt, by rw [hmi.1]; exact hipar,
                by rw [hmi.2.1]; exact hileft, hmi.2.2, ?_, ih1⟩
              refine rep_frame ih5 (fun j hj => ?_) hrepl
              refine ih2 j (fun hc => hdislr j hj hc) ?_
              simp only [ne_eq, Option.some.injEq]
              rintro rfl
              exact hil hj
            · intro j hjt hpj
              have hjr : j ∉ idxs r := fun hc => hjt (by simp [idxs]; tauto)
              have hji : (some i : Option Nat) ≠ some j := by
                simp only [ne_eq, Option.some.injEq]
                intro he
                exact hjt (he ▸ himem)
              exact ih2 j hjr hji
            · intro z0 hz0
              obtain ⟨hz0t, _⟩ := hout z0 hz0
              rw [if_neg (by simp : ¬(false :: p : List Bool) = [])]
              have hz0r : z0 ∉ idxs r := fun hc => hz0t (by simp [idxs]; tauto)
              have hiz0 : (some i : Option Nat) ≠ some z0 := by
                simp only [ne_eq, Option.some.injEq]
                intro he
                exact hz0t (he ▸ himem)
              exact ih2 z0 hz0r hiz0
            · rw [ih4]
              simp
          · -- descend left
            simp only [subtreeAt] at hsub
            have hout2 : ∀ j, (some i : Option Nat) = some j → j ∉ idxs l ∧ j < T.nodes.length := by
              rintro j hj
              have : i = j := by simpa using hj
              subst this
              exact ⟨hil, hilt⟩
            have hz2 : ∀ z0, (some i : Option Nat) = some z0 → p = [] →
                (nd T.nodes z0).left = some y ∨ (nd T.nodes z0).right = some y := by
              rintro z0 hz0 hp
              have : i = z0 := by simpa using hz0
              subst this
              subst hp
              have hl2 : l = BT.node (BT.node A x B) y C := by simpa [subtreeAt] using hsub
              left
              rw [hileft, hl2]
              rfl
            obtain ⟨ih1, ih2, ih3, ih4, ih5, ih6, ih7⟩ :=
              ih (some i) l hrepl hndl hsub hout2 hz2
            have hmi : (nd (rotate_right T y).nodes i).parent = (nd T.nodes i).parent ∧
                (nd (rotate_right T y).nodes i).left
                  = rootIdx (replaceAt l p (BT.node A x (BT.node B y C))) ∧
                (nd (rotate_right T y).nodes i).right = (nd T.nodes i).right := by
              have hspec := ih3 i rfl
              by_cases hp : p = []
              · subst hp
                have hl2 : l = BT.node (BT.node A x B) y C := by simpa [subtreeAt] using hsub
                have hly : (nd T.nodes i).left = some y := by rw [hileft, hl2]; rfl
                rw [if_pos rfl, if_pos hly] at hspec
                rw [hspec]
                refine ⟨rfl, ?_, rfl⟩
                simp [replaceAt, rootIdx_node]
              · rw [if_neg hp] at hspec
                rw [hspec, rootIdx_replaceAt hp, hileft]
                exact ⟨rfl, rfl, rfl⟩
            refine ⟨?_, ?_, ?_, ?_, ih5, ih6, ih7⟩
            · simp only [replaceAt, rep]
              refine ⟨by rw [ih5]; exact hilt, by rw [hmi.1]; exact hipar,
                hmi.2.1, by rw [hmi.2.2]; exact hiright, ih1, ?_⟩
              refine rep_frame ih5 (fun j hj => ?_) hrepr
              refine ih2 j (fun hc => hdislr j hc hj) ?_
              simp only [ne_eq, Option.some.injEq]
              rintro rfl
              exact hir hj
            · intro j hjt hpj
              have hjl : j ∉ idxs l := fun hc => hjt (by simp [idxs]; tauto)
              have hji : (some i : Option Nat) ≠ some j := by
                simp only [ne_eq, Option.some.injEq]
                intro he
                exact hjt (he ▸ himem)
              exact ih2 j hjl hji
            · intro z0 hz0
              obtain ⟨hz0t, _⟩ := hout z0 hz0
              rw [if_neg (by simp : ¬(true :: p : List Bool) = [])]
              have hz0l : z0 ∉ idxs l := fun hc => hz0t (by simp [idxs]; tauto)
              have hiz0 : (some i : Option Nat) ≠ some z0 := by
                simp only [ne_eq, Option.some.injEq]
                intro he
                exact hz0t (he ▸ himem)
              exact ih2 z0 hz0l hiz0
            · rw [ih4]
              simp

/-- Mirror of `rot_right_aux` for the C `rotate_left`: the subtree at `p` is
`node A x (node B y C)` and `rotate_left T x` turns it into
`node (node A x B) y C`. -/
theorem rot_left_aux (p : List Bool) (T : Tree) (par : Option Nat)
    (t A B C : BT) (x y : Nat)
    (hrep : rep T.nodes par t)
    (hnd : (idxs t).Nodup)
    (hsub : subtreeAt t p = some (.node A x (.node B y C)))
    (hout : ∀ j, par = some j → j ∉ idxs t ∧ j < T.nodes.length)
    (hz : ∀ z0, par = some z0 → p = [] →
       (nd T.nodes z0).left = some x ∨ (nd T.nodes z0).right = some x) :
    rep (rotate_left T x).nodes par (replaceAt t p (.node (.node A x B) y C)) ∧
    (∀ j, j ∉ idxs t → par ≠ some j → nd (rotate_left T x).nodes j = nd T.nodes j) ∧
    (∀ z0, par = some z0 →
       (if p = [] then
          (if (nd T.nodes z0).left = some x
           then nd (rotate_left T x).nodes z0 = { nd T.nodes z0 with left := some y }
           else nd (rotate_left T x).nodes z0 = { nd T.nodes z0 with right := some y })
        else nd (rotate_left T x).nodes z0 = nd T.nodes z0)) ∧
    (rotate_left T x).root = (if p = [] ∧ par = none then y else T.root) ∧
    (rotate_left T x).nodes.length = T.nodes.length ∧
    (rotate_left T x).size = T.size ∧
    (∀ j, (nd (rotate_left T x).nodes j).value = (nd T.nodes j).value) := by
  induction p generalizing par t with
  | nil =>
      have ht : t = BT.node A x (BT.node B y C) := by simpa [subtreeAt] using hsub
      subst ht
      simp only [rep, rootIdx_node] at hrep
      obtain ⟨hxlt, hxpar, hxleft, hxright, hrepA,
        ⟨hylt, hypar, hyleft, hyright, hrepB, hrepC⟩⟩ := hrep
      obtain ⟨hndA, hndR, hxA, hxR, hdisAR⟩ := nodup_node hnd
      obtain ⟨hndB, hndC, hyB, hyC, hdisBC⟩ := nodup_node hndR
      have hymemR : y ∈ idxs (BT.node B y C) := by simp [idxs]
      have hmemB : ∀ c ∈ idxs B, c ∈ idxs (BT.node B y C) := by
        intro c hc; simp [idxs]; exact Or.inl hc
      have hmemC : ∀ c ∈ idxs C, c ∈ idxs (BT.node B y C) := by
        intro c hc; simp [idxs]; exact Or.inr (Or.inr hc)
      have hxy : x ≠ y := fun h => hxR (h ▸ hymemR)
      have hAx : rootIdx A ≠ some x := fun h => hxA (rootIdx_mem h)
      have hAy : rootIdx A ≠ some y := fun h => hdisAR y (rootIdx_mem h) hymemR
      have hBx : rootIdx B ≠ some x := fun h => hxR (hmemB _ (rootIdx_mem h))
      have hBy : rootIdx B ≠ some y := fun h => hyB (rootIdx_mem h)
      have hCx : rootIdx C ≠ some x := fun h => hxR (hmemC _ (rootIdx_mem h))
      have hCy : rootIdx C ≠ some y := fun h => hyC (rootIdx_mem h)
      have hAB : ∀ c, rootIdx A = some c → rootIdx B ≠ some c :=
        fun c hc h => hdisAR c (rootIdx_mem hc) (hmemB _ (rootIdx_mem h))
      have hAC : ∀ c, rootIdx A = some c → rootIdx C ≠ some c :=
        fun c hc h => hdisAR c (rootIdx_mem hc) (hmemC _ (rootIdx_mem h))
      have hBC : ∀ c, rootIdx B = some c → rootIdx C ≠ some c :=
        fun c hc h => hdisBC c (rootIdx_mem hc) (rootIdx_mem h)
      have hAlt : ∀ c, rootIdx A = some c → c < T.nodes.length :=
        fun c hc => rep_lt hrepA (rootIdx_mem hc)
      have hBlt : ∀ c, rootIdx B = some c → c < T.nodes.length :=
        fun c hc => rep_lt hrepB (rootIdx_mem hc)
      have hClt : ∀ c, rootIdx C = some c → c < T.nodes.length :=
        fun c hc => rep_lt hrepC (rootIdx_mem hc)
      have hmemRt : ∀ c ∈ idxs (BT.node B y C), c ∈ idxs (BT.node A x (BT.node B y C)) := by
        intro c hc; simp [idxs] at hc ⊢; tauto
      have hmemAt : ∀ c ∈ idxs A, c ∈ idxs (BT.node A x (BT.node B y C)) := by
        intro c hc; simp [idxs]; tauto
      have hxmem : x ∈ idxs (BT.node A x (BT.node B y C)) := by simp [idxs]
      have hymem : y ∈ idxs (BT.node A x (BT.node B y C)) := hmemRt y hymemR
      cases par with
      | none =>
          have hrw : rotate_left T x =
              { size := T.size, root := y,
                nodes := set_left (set_right (set_left (set_right
                  (wr T.nodes y (fun v => { v with parent := none })) y (rootIdx C)) y (some x)) x
                  (rootIdx B)) x (rootIdx A) } := by
            simp only [rotate_left, hxright, hxleft, hyleft, hyright, hxpar, swap_child]
          have hblen : (wr T.nodes y (fun v => { v with parent := none })).length
              = T.nodes.length := length_wr _ _ _
          obtain ⟨d1, d2, d3, d4, d5, d6, d7, d8⟩ :=
            chain4L_desc (wr T.nodes y (fun v => { v with parent := none })) x y
              (rootIdx A) (rootIdx B) (rootIdx C) _ rfl
              (by rw [hblen]; exact hxlt) (by rw [hblen]; exact hylt) hxy
              hAx hAy hBx hBy hCx hCy hAB hAC hBC
              (fun c hc => by rw [hblen]; exact hAlt c hc)
              (fun c hc => by rw [hblen]; exact hBlt c hc)
              (fun c hc => by rw [hblen]; exact hClt c hc)
          have hby : nd (wr T.nodes y fun v => { v with parent := none }) y
              = { nd T.nodes y with parent := none } := nd_wr_self _ _ _ hylt
          have hbo : ∀ j, j ≠ y → nd (wr T.nodes y fun v => { v with parent := none }) j
              = nd T.nodes j := fun j hj => nd_wr_other _ _ _ _ (fun h => hj h.symm)
          rw [hrw]
          dsimp only
          have hmy : (nd (set_left (set_right (set_left (set_right
              (wr T.nodes y (fun v => { v with parent := none })) y (rootIdx C)) y (some x)) x
              (rootIdx B)) x (rootIdx A)) y)
              = { nd T.nodes y with parent := none, right := rootIdx C, left := some x } := by
            rw [d2, hby]
          have hmx : (nd (set_left (set_right (set_left (set_right
              (wr T.nodes y (fun v => { v with parent := none })) y (rootIdx C)) y (some x)) x
              (rootIdx B)) x (rootIdx A)) x)
              = { nd T.nodes x with parent := some y, right := rootIdx B, left := rootIdx A } := by
            rw [d3, hbo x hxy]
          refine ⟨?_, ?_, ?_, ?_, ?_, ?_, ?_⟩
          · simp only [replaceAt, rep, rootIdx_node]
            refine ⟨by rw [d1, hblen]; exact hylt, by rw [hmy], by rw [hmy], by rw [hmy],
              ⟨by rw [d1, hblen]; exact hxlt, by rw [hmx], by rw [hmx], by rw [hmx], ?_, ?_⟩, ?_⟩
            · refine rep_reparent hrepA ?_ ?_ (by rw [d1, hblen]) hndA
              · intro c hc
                have hcy : c ≠ y := fun h => hAy (h ▸ hc)
                rw [d4 c hc, hbo c hcy]
                exact ⟨rfl, rfl, rfl⟩
              · intro j hj hjr
                have hjx : j ≠ x := fun h => hxA (h ▸ hj)
                have hjy : j ≠ y := fun h => hdisAR y (h ▸ hj) hymemR
                have hBj : rootIdx B ≠ some j := fun h => hdisAR j hj (hmemB _ (rootIdx_mem h))
                have hCj : rootIdx C ≠ some j := fun h => hdisAR j hj (hmemC _ (rootIdx_mem h))
                rw [d7 j hjx hjy hjr hBj hCj, hbo j hjy]
            · refine rep_reparent hrepB ?_ ?_ (by rw [d1, hblen]) hndB
              · intro c hc
                have hcy : c ≠ y := fun h => hBy (h ▸ hc)
                rw [d5 c hc, hbo c hcy]
                exact ⟨rfl, rfl, rfl⟩
              · intro j hj hjr
                have hjx : j ≠ x := fun h => hxR (hmemB _ (h ▸ hj))
                have hjy : j ≠ y := fun h => hyB (h ▸ hj)
                have hAj : rootIdx A ≠ some j := fun h => hdisAR j (rootIdx_mem h) (hmemB _ hj)
                have hCj : rootIdx C ≠ some j := fun h => hdisBC j hj (rootIdx_mem h)
                rw [d7 j hjx hjy hAj hjr hCj, hbo j hjy]
            · refine rep_reparent hrepC ?_ ?_ (by rw [d1, hblen]) hndC
              · intro c hc
                have hcy : c ≠ y := fun h => hCy (h ▸ hc)
                rw [d6 c hc, hbo c hcy]
                exact ⟨rfl, rfl, rfl⟩
              · intro j hj hjr
                have hjx : j ≠ x := fun h => hxR (hmemC _ (h ▸ hj))
                have hjy : j ≠ y := fun h => hyC (h ▸ hj)
                have hAj : rootIdx A ≠ some j := fun h => hdisAR j (rootIdx_mem h) (hmemC _ hj)
                have hBj : rootIdx B ≠ some j := fun h => hdisBC j (rootIdx_mem h) hj
                rw [d7 j hjx hjy hAj hBj hjr, hbo j hjy]
          · intro j hjt _
            have hjx : j ≠ x := fun h => hjt (h ▸ hxmem)
            have hjy : j ≠ y := fun h => hjt (h ▸ hymem)
            have hAj : rootIdx A ≠ some j := fun h => hjt (hmemAt j (rootIdx_mem h))
            have hBj : rootIdx B ≠ some j := fun h => hjt (hmemRt j (hmemB _ (rootIdx_mem h)))
            have hCj : rootIdx C ≠ some j := fun h => hjt (hmemRt j (hmemC _ (rootIdx_mem h)))
            rw [d7 j hjx hjy hAj hBj hCj, hbo j hjy]
          · intro z0 h0
            exact absurd h0 (by simp)
          · simp
          · rw [d1, hblen]
          · rfl
          · intro j
            exact (d8 j).trans (nd_wr_value T.nodes y j
              (fun v => { v with parent := none }) (fun v => rfl))
      | some z0 =>
          obtain ⟨hz0t, hz0lt⟩ := hout z0 rfl
          have hz0x : z0 ≠ x := fun h => hz0t (h ▸ hxmem)
          have hz0y : z0 ≠ y := fun h => hz0t (h ▸ hymem)
          have hAz0 : rootIdx A ≠ some z0 := fun h => hz0t (hmemAt z0 (rootIdx_mem h))
          have hBz0 : rootIdx B ≠ some z0 := fun h => hz0t (hmemRt z0 (hmemB _ (rootIdx_mem h)))
          have hCz0 : rootIdx C ≠ some z0 := fun h => hz0t (hmemRt z0 (hmemC _ (rootIdx_mem h)))
          have hyz0 : y ≠ z0 := fun h => hz0y h.symm
          have hred : (nd (wr T.nodes y (fun v => { v with parent := some z0 })) z0).left
              = (nd T.nodes z0).left := by rw [nd_wr_other _ _ _ _ hyz0]
          have hred2 : (nd (wr T.nodes y (fun v => { v with parent := some z0 })) z0).right
              = (nd T.nodes z0).right := by rw [nd_wr_other _ _ _ _ hyz0]
          by_cases hzl : (nd T.nodes z0).left = some x
          · have hrw : rotate_left T x =
                { size := T.size, root := T.root,
                  nodes := set_left (set_right (set_left (set_right
                    (wr (wr T.nodes y (fun v => { v with parent := some z0 })) z0
                      (fun v => { v with left := some y })) y (rootIdx C)) y (some x)) x
                    (rootIdx B)) x (rootIdx A) } := by
              simp only [rotate_left, hxright, hxleft, hyleft, hyright, hxpar, swap_child,
                hred, hzl, if_pos]
            have hblen : (wr (wr T.nodes y (fun v => { v with parent := some z0 })) z0
                (fun v => { v with left := some y })).length = T.nodes.length := by
              rw [length_wr, length_wr]
            have hby : nd (wr (wr T.nodes y (fun v => { v with parent := some z0 })) z0
                (fun v => { v with left := some y })) y = { nd T.nodes y with parent := some z0 } := by
              rw [nd_wr_other _ _ _ _ hz0y, nd_wr_self _ _ _ hylt]
            have hbz0 : nd (wr (wr T.nodes y (fun v => { v with parent := some z0 })) z0
                (fun v => { v with left := some y })) z0 = { nd T.nodes z0 with left := some y } := by
              rw [nd_wr_self _ _ _ (by rw [length_wr]; exact hz0lt),
                nd_wr_other _ _ _ _ hyz0]
            have hbo : ∀ j, j ≠ y → j ≠ z0 →
                nd (wr (wr T.nodes y (fun v => { v with parent := some z0 })) z0
                  (fun v => { v with left := some y })) j = nd T.nodes j := by
              intro j hjy hjz
              rw [nd_wr_other _ _ _ _ (fun h => hjz h.symm), nd_wr_other _ _ _ _ (fun h => hjy h.symm)]
            obtain ⟨d1, d2, d3, d4, d5, d6, d7, d8⟩ :=
              chain4L_desc (wr (wr T.nodes y (fun v => { v with parent := some z0 })) z0
                (fun v => { v with left := some y })) x y
                (rootIdx A) (rootIdx B) (rootIdx C) _ rfl
                (by rw [hblen]; exact hxlt) (by rw [hblen]; exact hylt) hxy
                hAx hAy hBx hBy hCx hCy hAB hAC hBC
                (fun c hc => by rw [hblen]; exact hAlt c hc)
                (fun c hc => by rw [hblen]; exact hBlt c hc)
                (fun c hc => by rw [hblen]; exact hClt c hc)
            rw [hrw]
            dsimp only
            have hmy : (nd (set_left (set_right (set_left (set_right
                (wr (wr T.nodes y (fun v => { v with parent := some z0 })) z0
                  (fun v => { v with left := some y })) y (rootIdx C)) y (some x)) x
                (rootIdx B)) x (rootIdx A)) y)
                = { nd T.nodes y with parent := some z0, right := rootIdx C, left := some x } := by
              rw [d2, hby]
            have hmx : (nd (set_left (set_right (set_left (set_right
                (wr (wr T.nodes y (fun v => { v with parent := some z0 })) z0
                  (fun v => { v with left := some y })) y (rootIdx C)) y (some x)) x
                (rootIdx B)) x (rootIdx A)) x)
                = { nd T.nodes x with parent := some y, right := rootIdx B, left := rootIdx A } := by
              rw [d3, hbo x hxy (fun h => hz0x h.symm)]
            refine ⟨?_, ?_, ?_, ?_, ?_, ?_, ?_⟩
            · simp only [replaceAt, rep, rootIdx_node]
              refine ⟨by rw [d1, hblen]; exact hylt, by rw [hmy], by rw [hmy], by rw [hmy],
                ⟨by rw [d1, hblen]; exact hxlt, by rw [hmx], by rw [hmx], by rw [hmx], ?_, ?_⟩, ?_⟩
              · refine rep_reparent hrepA ?_ ?_ (by rw [d1, hblen]) hndA
                · intro c hc
                  have hcy : c ≠ y := fun h => hAy (h ▸ hc)
                  have hcz : c ≠ z0 := fun h => hAz0 (h ▸ hc)
                  rw [d4 c hc, hbo c hcy hcz]
                  exact ⟨rfl, rfl, rfl⟩
                · intro j hj hjr
                  have hjx : j ≠ x := fun h => hxA (h ▸ hj)
                  have hjy : j ≠ y := fun h => hdisAR y (h ▸ hj) hymemR
                  have hjz : j ≠ z0 := fun h => hz0t (h ▸ hmemAt j hj)
                  have hBj : rootIdx B ≠ some j := fun h => hdisAR j hj (hmemB _ (rootIdx_mem h))
                  have hCj : rootIdx C ≠ some j := fun h => hdisAR j hj (hmemC _ (rootIdx_mem h))
                  rw [d7 j hjx hjy hjr hBj hCj, hbo j hjy hjz]
              · refine rep_reparent hrepB ?_ ?_ (by rw [d1, hblen]) hndB
                · intro c hc
                  have hcy : c ≠ y := fun h => hBy (h ▸ hc)
                  have hcz : c ≠ z0 := fun h => hBz0 (h ▸ hc)
                  rw [d5 c hc, hbo c hcy hcz]
                  exact ⟨rfl, rfl, rfl⟩
                · intro j hj hjr
                  have hjx : j ≠ x := fun h => hxR (hmemB _ (h ▸ hj))
                  have hjy : j ≠ y := fun h => hyB (h ▸ hj)
                  have hjz : j ≠ z0 := fun h => hz0t (h ▸ hmemRt j (hmemB _ hj))
                  have hAj : rootIdx A ≠ some j := fun h => hdisAR j (rootIdx_mem h) (hmemB _ hj)
                  have hCj : rootIdx C ≠ some j := fun h => hdisBC j hj (rootIdx_mem h)
                  rw [d7 j hjx hjy hAj hjr hCj, hbo j hjy hjz]
              · refine rep_reparent hrepC ?_ ?_ (by rw [d1, hblen]) hndC
                · intro c hc
                  have hcy : c ≠ y := fun h => hCy (h ▸ hc)
                  have hcz : c ≠ z0 := fun h => hCz0 (h ▸ hc)
                  rw [d6 c hc, hbo c hcy hcz]
                  exact ⟨rfl, rfl, rfl⟩
                · intro j hj hjr
                  have hjx : j ≠ x := fun h => hxR (hmemC _ (h ▸ hj))
                  have hjy : j ≠ y := fun h => hyC (h ▸ hj)
                  have hjz : j ≠ z0 := fun h => hz0t (h ▸ hmemRt j (hmemC _ hj))
                  have hAj : rootIdx A ≠ some j := fun h => hdisAR j (rootIdx_mem h) (hmemC _ hj)
                  have hBj : rootIdx B ≠ some j := fun h => hdisBC j (rootIdx_mem h) hj
                  rw [d7 j hjx hjy hAj hBj hjr, hbo j hjy hjz]
            · intro j hjt hpj
              have hjx : j ≠ x := fun h => hjt (h ▸ hxmem)
              have hjy : j ≠ y := fun h => hjt (h ▸ hymem)
              have hjz : j ≠ z0 := fun h => hpj (by rw [h])
              have hAj : rootIdx A ≠ some j := fun h => hjt (hmemAt j (rootIdx_mem h))
              have hBj : rootIdx B ≠ some j := fun h => hjt (hmemRt j (hmemB _ (rootIdx_mem h)))
              have hCj : rootIdx C ≠ some j := fun h => hjt (hmemRt j (hmemC _ (rootIdx_mem h)))
              rw [d7 j hjx hjy hAj hBj hCj, hbo j hjy hjz]
            · intro w hw
              have hwz : w = z0 := by simpa using hw.symm
              subst hwz
              rw [if_pos rfl, if_pos hzl]
              rw [d7 _ hz0x hz0y hAz0 hBz0 hCz0, hbz0]
            · simp
            · rw [d1, hblen]
            · rfl
            · intro j
              have h1 := nd_wr_value (wr T.nodes y (fun v => { v with parent := some z0 })) z0 j
                (fun v => { v with left := some y }) (fun v => rfl)
              have h2 := nd_wr_value T.nodes y j
                (fun v => { v with parent := some z0 }) (fun v => rfl)
              exact (d8 j).trans (h1.trans h2)
          · have hzr : (nd T.nodes z0).right = some x := by
              rcases hz z0 rfl rfl with h | h
              · exact absurd h hzl
              · exact h
            have hrw : rotate_left T x =
                { size := T.size, root := T.root,
                  nodes := set_left (set_right (set_left (set_right
                    (wr (wr T.nodes y (fun v => { v with parent := some z0 })) z0
                      (fun v => { v with right := some y })) y (rootIdx C)) y (some x)) x
                    (rootIdx B)) x (rootIdx A) } := by
              simp only [rotate_left, hxright, hxleft, hyleft, hyright, hxpar, swap_child,
                hred, hred2, hzl, hzr, if_neg, if_pos]
              rfl
            have hblen : (wr (wr T.nodes y (fun v => { v with parent := some z0 })) z0
                (fun v => { v with right := some y })).length = T.nodes.length := by
              rw [length_wr, length_wr]
            have hby : nd (wr (wr T.nodes y (fun v => { v with parent := some z0 })) z0
                (fun v => { v with right := some y })) y = { nd T.nodes y with parent := some z0 } := by
              rw [nd_wr_other _ _ _ _ hz0y, nd_wr_self _ _ _ hylt]
            have hbz0 : nd (wr (wr T.nodes y (fun v => { v with parent := some z0 })) z0
                (fun v => { v with right := some y })) z0 = { nd T.nodes z0 with right := some y } := by
              rw [nd_wr_self _ _ _ (by rw [length_wr]; exact hz0lt),
                nd_wr_other _ _ _ _ hyz0]
            have hbo : ∀ j, j ≠ y → j ≠ z0 →
                nd (wr (wr T.nodes y (fun v => { v with parent := some z0 })) z0
                  (fun v => { v with right := some y })) j = nd T.nodes j := by
              intro j hjy hjz
              rw [nd_wr_other _ _ _ _ (fun h => hjz h.symm), nd_wr_other _ _ _ _ (fun h => hjy h.symm)]
            obtain ⟨d1, d2, d3, d4, d5, d6, d7, d8⟩ :=
              chain4L_desc (wr (wr T.nodes y (fun v => { v with parent := some z0 })) z0
                (fun v => { v with right := some y })) x y
                (rootIdx A) (rootIdx B) (rootIdx C) _ rfl
                (by rw [hblen]; exact hxlt) (by rw [hblen]; exact hylt) hxy
                hAx hAy hBx hBy hCx hCy hAB hAC hBC
                (fun c hc => by rw [hblen]; exact hAlt c hc)
                (fun c hc => by rw [hblen]; exact hBlt c hc)
                (fun c hc => by rw [hblen]; exact hClt c hc)
            rw [hrw]
            dsimp only
            have hmy : (nd (set_left (set_right (set_left (set_right
                (wr (wr T.nodes y (fun v => { v with parent := some z0 })) z0
                  (fun v => { v with right := some y })) y (rootIdx C)) y (some x)) x
                (rootIdx B)) x (rootIdx A)) y)
                = { nd T.nodes y with parent := some z0, right := rootIdx C, left := some x } := by
              rw [d2, hby]
            have hmx : (nd (set_left (set_right (set_left (set_right
                (wr (wr T.nodes y (fun v => { v with parent := some z0 })) z0
                  (fun v => { v with right := some y })) y (rootIdx C)) y (some x)) x
                (rootIdx B)) x (rootIdx A)) x)
                = { nd T.nodes x with parent := some y, right := rootIdx B, left := rootIdx A } := by
              rw [d3, hbo x hxy (fun h => hz0x h.symm)]
            refine ⟨?_, ?_, ?_, ?_, ?_, ?_, ?_⟩
            · simp only [replaceAt, rep, rootIdx_node]
              refine ⟨by rw [d1, hblen]; exact hylt, by rw [hmy], by rw [hmy], by rw [hmy],
                ⟨by rw [d1, hblen]; exact hxlt, by rw [hmx], by rw [hmx], by rw [hmx], ?_, ?_⟩, ?_⟩
              · refine rep_reparent hrepA ?_ ?_ (by rw [d1, hblen]) hndA
                · intro c hc
                  have hcy : c ≠ y := fun h => hAy (h ▸ hc)
                  have hcz : c ≠ z0 := fun h => hAz0 (h ▸ hc)
                  rw [d4 c hc, hbo c hcy hcz]
                  exact ⟨rfl, rfl, rfl⟩
                · intro j hj hjr
                  have hjx : j ≠ x := fun h => hxA (h ▸ hj)
                  have hjy : j ≠ y := fun h => hdisAR y (h ▸ hj) hymemR
                  have hjz : j ≠ z0 := fun h => hz0t (h ▸ hmemAt j hj)
                  have hBj : rootIdx B ≠ some j := fun h => hdisAR j hj (hmemB _ (rootIdx_mem h))
                  have hCj : rootIdx C ≠ some j := fun h => hdisAR j hj (hmemC _ (rootIdx_mem h))
                  rw [d7 j hjx hjy hjr hBj hCj, hbo j hjy hjz]
              · refine rep_reparent hrepB ?_ ?_ (by rw [d1, hblen]) hndB
                · intro c hc
                  have hcy : c ≠ y := fun h => hBy (h ▸ hc)
                  have hcz : c ≠ z0 := fun h => hBz0 (h ▸ hc)
                  rw [d5 c hc, hbo c hcy hcz]
                  exact ⟨rfl, rfl, rfl⟩
                · intro j hj hjr
                  have hjx : j ≠ x := fun h => hxR (hmemB _ (h ▸ hj))
                  have hjy : j ≠ y := fun h => hyB (h ▸ hj)
                  have hjz : j ≠ z0 := fun h => hz0t (h ▸ hmemRt j (hmemB _ hj))
                  have hAj : rootIdx A ≠ some j := fun h => hdisAR j (rootIdx_mem h) (hmemB _ hj)
                  have hCj : rootIdx C ≠ some j := fun h => hdisBC j hj (rootIdx_mem h)
                  rw [d7 j hjx hjy hAj hjr hCj, hbo j hjy hjz]
              · refine rep_reparent hrepC ?_ ?_ (by rw [d1, hblen]) hndC
                · intro c hc
                  have hcy : c ≠ y := fun h => hCy (h ▸ hc)
                  have hcz : c ≠ z0 := fun h => hCz0 (h ▸ hc)
                  rw [d6 c hc, hbo c hcy hcz]
                  exact ⟨rfl, rfl, rfl⟩
                · intro j hj hjr
                  have hjx : j ≠ x := fun h => hxR (hmemC _ (h ▸ hj))
                  have hjy : j ≠ y := fun h => hyC (h ▸ hj)
                  have hjz : j ≠ z0 := fun h => hz0t (h ▸ hmemRt j (hmemC _ hj))
                  have hAj : rootIdx A ≠ some j := fun h => hdisAR j (rootIdx_mem h) (hmemC _ hj)
                  have hBj : rootIdx B ≠ some j := fun h => hdisBC j (rootIdx_mem h) hj
                  rw [d7 j hjx hjy hAj hBj hjr, hbo j hjy hjz]
            · intro j hjt hpj
              have hjx : j ≠ x := fun h => hjt (h ▸ hxmem)
              have hjy : j ≠ y := fun h => hjt (h ▸ hymem)
              have hjz : j ≠ z0 := fun h => hpj (by rw [h])
              have hAj : rootIdx A ≠ some j := fun h => hjt (hmemAt j (rootIdx_mem h))
              have hBj : rootIdx B ≠ some j := fun h => hjt (hmemRt j (hmemB _ (rootIdx_mem h)))
              have hCj : rootIdx C ≠ some j := fun h => hjt (hmemRt j (hmemC _ (rootIdx_mem h)))
              rw [d7 j hjx hjy hAj hBj hCj, hbo j hjy hjz]
            · intro w hw
              have hwz : w = z0 := by simpa using hw.symm
              subst hwz
              rw [if_pos rfl, if_neg hzl]
              rw [d7 _ hz0x hz0y hAz0 hBz0 hCz0, hbz0]
            · simp
            · rw [d1, hblen]
            · rfl
            · intro j
              have h1 := nd_wr_value (wr T.nodes y (fun v => { v with parent := some z0 })) z0 j
                (fun v => { v with right := some y }) (fun v => rfl)
              have h2 := nd_wr_value T.nodes y j
                (fun v => { v with parent := some z0 }) (fun v => rfl)
              exact (d8 j).trans (h1.trans h2)
  | cons d p ih =>
      cases t with
      | leaf => cases d <;> simp [subtreeAt] at hsub
      | node l i r =>
          simp only [rep] at hrep
          obtain ⟨hilt, hipar, hileft, hiright, hrepl, hrepr⟩ := hrep
          obtain ⟨hndl, hndr, hil, hir, hdislr⟩ := nodup_node hnd
          have himem : i ∈ idxs (BT.node l i r) := by simp [idxs]
          cases d
          · -- descend right
            simp only [subtreeAt] at hsub
            have hout2 : ∀ j, (some i : Option Nat) = some j → j ∉ idxs r ∧ j < T.nodes.length := by
              rintro j hj
              have : i = j := by simpa using hj
              subst this
              exact ⟨hir, hilt⟩
            have hz2 : ∀ z0, (some i : Option Nat) = some z0 → p = [] →
                (nd T.nodes z0).left = some x ∨ (nd T.nodes z0).right = some x := by
              rintro z0 hz0 hp
              have : i = z0 := by simpa using hz0
              subst this
              subst hp
              have hr2 : r = BT.node A x (BT.node B y C) := by simpa [subtreeAt] using hsub
              right
              rw [hiright, hr2]
              rfl
            obtain ⟨ih1, ih2, ih3, ih4, ih5, ih6, ih7⟩ :=
              ih (some i) r hrepr hndr hsub hout2 hz2
            have hmi : (nd (rotate_left T x).nodes i).parent = (nd T.nodes i).parent ∧
                (nd (rotate_left T x).nodes i).left = (nd T.nodes i).left ∧
                (nd (rotate_left T x).nodes i).right
                  = rootIdx (replaceAt r p (BT.node (BT.node A x B) y C)) := by
              have hspec := ih3 i rfl
              by_cases hp : p = []
              · subst hp
                have hr2 : r = BT.node A x (BT.node B y C) := by simpa [subtreeAt] using hsub
                have hry : (nd T.nodes i).right = some x := by rw [hiright, hr2]; rfl
                have hly : (nd T.nodes i).left ≠ some x := by
                  rw [hileft]
                  intro hcon
                  have hxmem2 : x ∈ idxs l := rootIdx_mem hcon
                  have : x ∈ idxs r := by rw [hr2]; simp [idxs]
                  exact hdislr x hxmem2 this
                rw [if_pos rfl, if_neg hly] at hspec
                rw [hspec]
                refine ⟨rfl, rfl, ?_⟩
                simp [replaceAt, rootIdx_node]
              · rw [if_neg hp] at hspec
                rw [hspec, rootIdx_replaceAt hp, hiright]
                exact ⟨rfl, rfl, rfl⟩
            refine ⟨?_, ?_, ?_, ?_, ih5, ih6, ih7⟩
            · simp only [replaceAt, rep]
              refine ⟨by rw [ih5]; exact hilt, by rw [hmi.1]; exact hipar,
                by rw [hmi.2.1]; exact hileft, hmi.2.2, ?_, ih1⟩
              refine rep_frame ih5 (fun j hj => ?_) hrepl
              refine ih2 j (fun hc => hdislr j hj hc) ?_
              simp only [ne_eq, Option.some.injEq]
              rintro rfl
              exact hil hj
            · intro j hjt hpj
              have hjr : j ∉ idxs r := fun hc => hjt (by simp [idxs]; tauto)
              have hji : (some i : Option Nat) ≠ some j := by
                simp only [ne_eq, Option.some.injEq]
                intro he
                exact hjt (he ▸ himem)
              exact ih2 j hjr hji
            · intro z0 hz0
              obtain ⟨hz0t, _⟩ := hout z0 hz0
              rw [if_neg (by simp : ¬(false :: p : List Bool) = [])]
              have hz0r : z0 ∉ idxs r := fun hc => hz0t (by simp [idxs]; tauto)
              have hiz0 : (some i : Option Nat) ≠ some z0 := by
                simp only [ne_eq, Option.some.injEq]
                intro he
                exact hz0t (he ▸ himem)
              exact ih2 z0 hz0r hiz0
            · rw [ih4]
              simp
          · -- descend left
            simp only [subtreeAt] at hsub
            have hout2 : ∀ j, (some i : Option Nat) = some j → j ∉ idxs l ∧ j < T.nodes.length := by
              rintro j hj
              have : i = j := by simpa using hj
              subst this
              exact ⟨hil, hilt⟩
            have hz2 : ∀ z0, (some i : Option Nat) = some z0 → p = [] →
                (nd T.nodes z0).left = some x ∨ (nd T.nodes z0).right = some x := by
              rintro z0 hz0 hp
              have : i = z0 := by simpa using hz0
              subst this
              subst hp
              have hl2 : l = BT.node A x (BT.node B y C) := by simpa [subtreeAt] using hsub
              left
              rw [hileft, hl2]
              rfl
            obtain ⟨ih1, ih2, ih3, ih4, ih5, ih6, ih7⟩ :=
              ih (some i) l hrepl hndl hsub hout2 hz2
            have hmi : (nd (rotate_left T x).nodes i).parent = (nd T.nodes i).parent ∧
                (nd (rotate_left T x).nodes i).left
                  = rootIdx (replaceAt l p (BT.node (BT.node A x B) y C)) ∧
                (nd (rotate_left T x).nodes i).right = (nd T.nodes i).right := by
              have hspec := ih3 i rfl
              by_cases hp : p = []
              · subst hp
                have hl2 : l = BT.node A x (BT.node B y C) := by simpa [subtreeAt] using hsub
                have hly : (nd T.nodes i).left = some x := by rw [hileft, hl2]; rfl
                rw [if_pos rfl, if_pos hly] at hspec
                rw [hspec]
                refine ⟨rfl, ?_, rfl⟩
                simp [replaceAt, rootIdx_node]
              · rw [if_neg hp] at hspec
                rw [hspec, rootIdx_replaceAt hp, hileft]
                exact ⟨rfl, rfl, rfl⟩
            refine ⟨?_, ?_, ?_, ?_, ih5, ih6, ih7⟩
            · simp only [replaceAt, rep]
              refine ⟨by rw [ih5]; exact hilt, by rw [hmi.1]; exact hipar,
                hmi.2.1, by rw [hmi.2.2]; exact hiright, ih1, ?_⟩
              refine rep_frame ih5 (fun j hj => ?_) hrepr
              refine ih2 j (fun hc => hdislr j hc hj) ?_
              simp only [ne_eq, Option.some.injEq]
              rintro rfl
              exact hir hj
            · intro j hjt hpj
              have hjl : j ∉ idxs l := fun hc => hjt (by simp [idxs]; tauto)
              have hji : (some i : Option Nat) ≠ some j := by
                simp only [ne_eq, Option.some.injEq]
                intro he
                exact hjt (he ▸ himem)
              exact ih2 j hjl hji
            · intro z0 hz0
              obtain ⟨hz0t, _⟩ := hout z0 hz0
              rw [if_neg (by simp : ¬(true :: p : List Bool) = [])]
              have hz0l : z0 ∉ idxs l := fun hc => hz0t (by simp [idxs]; tauto)
              have hiz0 : (some i : Option Nat) ≠ some z0 := by
                simp only [ne_eq, Option.some.injEq]
                intro he
                exact hz0t (he ▸ himem)
              exact ih2 z0 hz0l hiz0
            · rw [ih4]
              simp

/-! ## Invariant preservation by single rotations, and C/C++ agreement -/

theorem idxs_rotR_sub (A : BT) (x : Nat) (B : BT) (y : Nat) (C : BT) :
    idxs (BT.node A x (BT.node B y C)) = idxs (BT.node (BT.node A x B) y C) := by
  simp [idxs]

theorem rot_right_inv {n : Nat} {T : Tree} {t : BT} {p : List Bool} {A B C : BT} {x y : Nat}
    (hInv : Inv n T t) (hsub : subtreeAt t p = some (.node (.node A x B) y C)) :
    Inv n (rotate_right T y) (replaceAt t p (.node A x (.node B y C))) := by
  obtain ⟨h1, h2, h3, h4, h5, h6⟩ := hInv
  have hnd : (idxs t).Nodup := by rw [h3]; exact List.nodup_range n
  obtain ⟨a1, a2, a3, a4, a5, a6, a7⟩ :=
    rot_right_aux p T none t A B C x y h1 hnd hsub
      (fun j hj => absurd hj (by simp)) (fun z0 hz0 => absurd hz0 (by simp))
  refine ⟨a1, ?_, ?_, by rw [a5]; exact h4, by rw [a6]; exact h5, ?_⟩
  · rcases hp : p with _ | ⟨d, p1⟩
    · rw [hp] at a4 hsub
      have ht : t = BT.node (BT.node A x B) y C := by simpa [subtreeAt] using hsub
      rw [a4]
      simp [replaceAt, rootIdx_node]
    · rw [hp] at a4
      rw [a4, rootIdx_replaceAt (by simp), h2]
      simp
  · rw [idxs_replaceAt hsub (idxs_rotR_sub A x B y C), h3]
  · intro j hj
    rw [a7 j]
    exact h6 j hj

theorem rot_left_inv {n : Nat} {T : Tree} {t : BT} {p : List Bool} {A B C : BT} {x y : Nat}
    (hInv : Inv n T t) (hsub : subtreeAt t p = some (.node A x (.node B y C))) :
    Inv n (rotate_left T x) (replaceAt t p (.node (.node A x B) y C)) := by
  obtain ⟨h1, h2, h3, h4, h5, h6⟩ := hInv
  have hnd : (idxs t).Nodup := by rw [h3]; exact List.nodup_range n
  obtain ⟨a1, a2, a3, a4, a5, a6, a7⟩ :=
    rot_left_aux p T none t A B C x y h1 hnd hsub
      (fun j hj => absurd hj (by simp)) (fun z0 hz0 => absurd hz0 (by simp))
  refine ⟨a1, ?_, ?_, by rw [a5]; exact h4, by rw [a6]; exact h5, ?_⟩
  · rcases hp : p with _ | ⟨d, p1⟩
    · rw [hp] at a4 hsub
      have ht : t = BT.node A x (BT.node B y C) := by simpa [subtreeAt] using hsub
      rw [a4]
      simp [replaceAt, rootIdx_node]
    · rw [hp] at a4
      rw [a4, rootIdx_replaceAt (by simp), h2]
      simp
  · rw [idxs_replaceAt hsub (idxs_rotR_sub A x B y C).symm, h3]
  · intro j hj
    rw [a7 j]
    exact h6 j hj

theorem wr_comm (a : List Node) (i j : Nat) (f g : Node → Node) (h : i ≠ j) :
    wr (wr a i f) j g = wr (wr a j g) i f := by
  show (wr a i f).set j (g (nd (wr a i f) j)) = (wr a j g).set i (f (nd (wr a j g) i))
  rw [nd_wr_other a i j f h, nd_wr_other a j i g (fun he => h he.symm)]
  show (a.set i (f (nd a i))).set j (g (nd a j)) = (a.set j (g (nd a j))).set i (f (nd a i))
  exact List.set_comm _ _ _ h

/-- The parent pointer of the root of the subtree at `q` points at the
context node whose child pointer comes back down; that context node lies
outside the subtree. -/
theorem parent_facts {a : List Node} {t : BT} {q : List Bool} {s : BT} {w : Nat}
    (hrep : rep a none t) (hnd : (idxs t).Nodup)
    (hq : subtreeAt t q = some s) (hw : rootIdx s = some w) :
    ∀ z0, (nd a w).parent = some z0 → z0 ∈ idxs t ∧ z0 ∉ idxs s ∧
      ((nd a z0).left = some w ∨ (nd a z0).right = some w) := by
  intro z0 hp
  rcases List.eq_nil_or_concat q with rfl | ⟨q1, d, rfl⟩
  · have he : t = s := by simpa [subtreeAt] using hq
    subst he
    cases t with
    | leaf => simp [rootIdx] at hw
    | node l i r =>
        simp [rootIdx_node] at hw
        subst hw
        obtain ⟨_, h2, _⟩ := hrep
        rw [h2] at hp
        simp at hp
  · simp only [List.concat_eq_append] at hq
    rw [subtreeAt_append] at hq
    cases hq1 : subtreeAt t q1 with
    | none => rw [hq1] at hq; simp at hq
    | some sz =>
        rw [hq1] at hq
        simp at hq
        cases sz with
        | leaf => cases d <;> simp [subtreeAt] at hq
        | node zl zi zr =>
            obtain ⟨pz, hrepz⟩ := rep_subtree hrep hq1
            obtain ⟨hzlt, hzpar, hzleft, hzright, hrepzl, hrepzr⟩ := hrepz
            have hndz : (idxs (BT.node zl zi zr)).Nodup := subtree_nodup hq1 hnd
            obtain ⟨hndzl, hndzr, hzil, hzir, hdisz⟩ := nodup_node hndz
            cases d
            · -- s is the right child of zi
              simp only [subtreeAt] at hq
              have hs2 : zr = s := by simpa [subtreeAt] using hq
              subst hs2
              have hwz : (nd a w).parent = some zi := by
                cases zr with
                | leaf => simp [rootIdx] at hw
                | node rl ri rr =>
                    simp [rootIdx_node] at hw
                    subst hw
                    exact hrepzr.2.1
              rw [hwz] at hp
              have hz0 : z0 = zi := by simpa using hp.symm
              subst hz0
              refine ⟨subtree_mem hq1 _ (by simp [idxs]), hzir, Or.inr ?_⟩
              rw [hzright, hw]
            · -- s is the left child of zi
              simp only [subtreeAt] at hq
              have hs2 : zl = s := by simpa [subtreeAt] using hq
              subst hs2
              have hwz : (nd a w).parent = some zi := by
                cases zl with
                | leaf => simp [rootIdx] at hw
                | node ll li lr =>
                    simp [rootIdx_node] at hw
                    subst hw
                    exact hrepzl.2.1
              rw [hwz] at hp
              have hz0 : z0 = zi := by simpa using hp.symm
              subst hz0
              refine ⟨subtree_mem hq1 _ (by simp [idxs]), hzil, Or.inl ?_⟩
              rw [hzleft, hw]

/-- The C++ `rotate_right` computes the same state as the C `rotate_right`
whenever `y` has a left child and `y`'s parent, if any, is consistent
(one of its child pointers is `y`) and distinct from that left child. -/
theorem cpp_rotate_right_eq (T : Tree) (x y : Nat)
    (hxl : (nd T.nodes y).left = some x)
    (hzc : ∀ z0, (nd T.nodes y).parent = some z0 → z0 ≠ x ∧
      ((nd T.nodes z0).left = some y ∨ (nd T.nodes z0).right = some y)) :
    Cpp.rotate_right T y = some (rotate_right T y) := by
  rcases hzp : (nd T.nodes y).parent with _ | z0
  · simp only [rotate_right, Cpp.rotate_right, hxl, hzp, swap_child, Cpp.set_root,
      Option.map_some']
  · obtain ⟨hz0x, hdisj⟩ := hzc z0 hzp
    have hxz0 : x ≠ z0 := fun h => hz0x h.symm
    have hredl : (nd (wr T.nodes x (fun v => { v with parent := some z0 })) z0).left
        = (nd T.nodes z0).left := by rw [nd_wr_other _ _ _ _ hxz0]
    have hredr : (nd (wr T.nodes x (fun v => { v with parent := some z0 })) z0).right
        = (nd T.nodes z0).right := by rw [nd_wr_other _ _ _ _ hxz0]
    by_cases hl : (nd T.nodes z0).left = some y
    · simp only [rotate_right, Cpp.rotate_right, hxl, hzp, swap_child, Cpp.replace_child,
        hredl, hl, if_pos, Option.map_some', set_left]
      rw [wr_comm T.nodes x z0 _ _ hxz0]
    · have hr : (nd T.nodes z0).right = some y := by
        rcases hdisj with h | h
        · exact absurd h hl
        · exact h
      simp only [rotate_right, Cpp.rotate_right, hxl, hzp, swap_child, Cpp.replace_child,
        hredl, hredr, hl, hr, if_neg, if_pos, if_false, Option.map_some', set_right]
      rw [wr_comm T.nodes x z0 _ _ hxz0]

/-- Mirror of `cpp_rotate_right_eq` for the left rotation about `x`. -/
theorem cpp_rotate_left_eq (T : Tree) (x y : Nat)
    (hxr : (nd T.nodes x).right = some y)
    (hzc : ∀ z0, (nd T.nodes x).parent = some z0 → z0 ≠ y ∧
      ((nd T.nodes z0).left = some x ∨ (nd T.nodes z0).right = some x)) :
    Cpp.rotate_left T x = some (rotate_left T x) := by
  rcases hzp : (nd T.nodes x).parent with _ | z0
  · simp only [rotate_left, Cpp.rotate_left, hxr, hzp, swap_child, Cpp.set_root,
      Option.map_some']
  · obtain ⟨hz0y, hdisj⟩ := hzc z0 hzp
    have hyz0 : y ≠ z0 := fun h => hz0y h.symm
    have hredl : (nd (wr T.nodes y (fun v => { v with parent := some z0 })) z0).left
        = (nd T.nodes z0).left := by rw [nd_wr_other _ _ _ _ hyz0]
    have hredr : (nd (wr T.nodes y (fun v => { v with parent := some z0 })) z0).right
        = (nd T.nodes z0).right := by rw [nd_wr_other _ _ _ _ hyz0]
    by_cases hl : (nd T.nodes z0).left = some x
    · simp only [rotate_left, Cpp.rotate_left, hxr, hzp, swap_child, Cpp.replace_child,
        hredl, hl, if_pos, Option.map_some', set_left]
      rw [wr_comm T.nodes y z0 _ _ hyz0]
    · have hr : (nd T.nodes z0).right = some x := by
        rcases hdisj with h | h
        · exact absurd h hl
        · exact h
      simp only [rotate_left, Cpp.rotate_left, hxr, hzp, swap_child, Cpp.replace_child,
        hredl, hredr, hl, hr, if_neg, if_pos, if_false, Option.map_some', set_right]
      rw [wr_comm T.nodes y z0 _ _ hyz0]

/-! ## Shape analysis of one splay step -/

theorem replaceAt_nil (t s : BT) : replaceAt t [] s = s := by
  cases t <;> rfl

theorem replaceAt_collapse {t : BT} {q : List Bool} {s s1 s2 : BT}
    (h : subtreeAt t q = some s) :
    replaceAt (replaceAt t q s1) q s2 = replaceAt t q s2 := by
  induction q generalizing t with
  | nil => simp [replaceAt_nil]
  | cons d q ih =>
      cases t with
      | leaf => cases d <;> simp [subtreeAt] at h
      | node l i r =>
          cases d
          · simp only [subtreeAt] at h
            simp only [replaceAt]
            rw [ih h]
          · simp only [subtreeAt] at h
            simp only [replaceAt]
            rw [ih h]

theorem replaceAt_append_one {t : BT} {q : List Bool} {d : Bool} {s sp : BT}
    (h : subtreeAt t q = some sp) :
    replaceAt t (q ++ [d]) s = replaceAt t q (replaceAt sp [d] s) := by
  induction q generalizing t with
  | nil =>
      have he : t = sp := by simpa [subtreeAt] using h
      subst he
      simp [replaceAt_nil]
  | cons d1 q ih =>
      cases t with
      | leaf => cases d1 <;> simp [subtreeAt] at h
      | node l i r =>
          cases d1
          · simp only [subtreeAt] at h
            rw [List.cons_append]
            simp only [replaceAt]
            rw [ih h]
          · simp only [subtreeAt] at h
            rw [List.cons_append]
            simp only [replaceAt]
            rw [ih h]

/-- Zig with x as left child: `y` is the root, `x` its left child; one
right rotation about `y`. -/
theorem step_zigL {n : Nat} {T : Tree} {A B C : BT} {x y : Nat}
    (hInv : Inv n T (.node (.node A x B) y C)) :
    splay_step T x = rotate_right T y ∧
    Cpp.splay_step T x = some (splay_step T x) ∧
    Inv n (splay_step T x) (.node A x (.node B y C)) := by
  obtain ⟨h1, h2, h3, h4, h5, h6⟩ := hInv
  have hrep := h1
  simp only [rep, rootIdx_node] at hrep
  obtain ⟨hylt, hypar, hyleft, hyright, ⟨hxlt, hxpar, hxleft, hxright, hrepA, hrepB⟩,
    hrepC⟩ := hrep
  have heq : splay_step T x = rotate_right T y := by
    simp [splay_step, hxpar, hypar, hyleft]
  have hcpp : Cpp.splay_step T x = some (splay_step T x) := by
    rw [heq]
    rw [show Cpp.splay_step T x = Cpp.rotate_right T y by
      simp [Cpp.splay_step, hxpar, hypar, hyleft]]
    exact cpp_rotate_right_eq T x y hyleft
      (fun z0 h0 => absurd h0 (by rw [hypar]; simp))
  have hInv2 : Inv n (splay_step T x) (BT.node A x (BT.node B y C)) := by
    rw [heq]
    exact rot_right_inv (p := []) ⟨h1, h2, h3, h4, h5, h6⟩ rfl
  exact ⟨heq, hcpp, hInv2⟩

/-- Zig with x as right child: `y` is the root, `x` its right child; one
left rotation about `y`. -/
theorem step_zigR {n : Nat} {T : Tree} {A B C : BT} {x y : Nat}
    (hInv : Inv n T (.node A y (.node B x C))) :
    splay_step T x = rotate_left T y ∧
    Cpp.splay_step T x = some (splay_step T x) ∧
    Inv n (splay_step T x) (.node (.node A y B) x C) := by
  obtain ⟨h1, h2, h3, h4, h5, h6⟩ := hInv
  have hnd : (idxs (BT.node A y (BT.node B x C))).Nodup := by
    rw [h3]; exact List.nodup_range n
  obtain ⟨hndA, hndR, hyA, hyR, hdisAR⟩ := nodup_node hnd
  have hrep := h1
  simp only [rep, rootIdx_node] at hrep
  obtain ⟨hylt, hypar, hyleft, hyright, hrepA,
    ⟨hxlt, hxpar, hxleft, hxright, hrepB, hrepC⟩⟩ := hrep
  have hAx : rootIdx A ≠ some x := by
    intro h
    exact hdisAR x (rootIdx_mem h) (by simp [idxs])
  have heq : splay_step T x = rotate_left T y := by
    simp [splay_step, hxpar, hypar, hyleft, hyright, hAx]
  have hcpp : Cpp.splay_step T x = some (splay_step T x) := by
    rw [heq]
    rw [show Cpp.splay_step T x = Cpp.rotate_left T y by
      simp [Cpp.splay_step, hxpar, hypar, hyleft, hyright, hAx]]
    exact cpp_rotate_left_eq T y x hyright
      (fun z0 h0 => absurd h0 (by rw [hypar]; simp))
  have hInv2 : Inv n (splay_step T x) (BT.node (BT.node A y B) x C) := by
    rw [heq]
    exact rot_left_inv (p := []) ⟨h1, h2, h3, h4, h5, h6⟩ rfl
  exact ⟨heq, hcpp, hInv2⟩

/-- Zig-zig, all-left: x is y's left child, y is z's left child.  The code
rotates at z first, then at y (both right rotations). -/
theorem step_zzLL {n : Nat} {T : Tree} {t : BT} {q : List Bool} {A B C D : BT} {x y z : Nat}
    (hInv : Inv n T t)
    (hsub : subtreeAt t q = some (.node (.node (.node A x B) y C) z D)) :
    splay_step T x = rotate_right (rotate_right T z) y ∧
    Cpp.splay_step T x = some (splay_step T x) ∧
    Inv n (splay_step T x) (replaceAt t q (.node A x (.node B y (.node C z D)))) ∧
    subtreeAt (replaceAt t q (.node A x (.node B y (.node C z D)))) q
      = some (.node A x (.node B y (.node C z D))) := by
  obtain ⟨h1, h2, h3, h4, h5, h6⟩ := hInv
  have hnd : (idxs t).Nodup := by rw [h3]; exact List.nodup_range n
  obtain ⟨pz, hrepS⟩ := rep_subtree h1 hsub
  have hndS := subtree_nodup hsub hnd
  simp only [rep, rootIdx_node] at hrepS
  obtain ⟨hzlt, hzpar, hzleft, hzright,
    ⟨hylt, hypar, hyleft, hyright, ⟨hxlt, hxpar, hxleft, hxright, hrepA, hrepB⟩, hrepC⟩,
    hrepD⟩ := hrepS
  obtain ⟨hndL1, hndD, hzL1, hzD, hdisL1D⟩ := nodup_node hndS
  obtain ⟨hndM, hndC, hyM, hyC2, hdisMC⟩ := nodup_node hndL1
  have hxmemM : x ∈ idxs (BT.node A x B) := by simp [idxs]
  have hxmemL1 : x ∈ idxs (BT.node (BT.node A x B) y C) := by simp [idxs]
  have hymemS : y ∈ idxs (BT.node (BT.node (BT.node A x B) y C) z D) := by simp [idxs]
  have hCx : rootIdx C ≠ some x := fun h => hdisMC x hxmemM (rootIdx_mem h)
  have heq : splay_step T x = rotate_right (rotate_right T z) y := by
    cases D with
    | leaf =>
        simp [splay_step, hxpar, hypar, hzleft, hzright, hyleft, hyright,
          optRight, optLeft, hCx, rootIdx_leaf]
    | node dl di dr =>
        simp only [rep, rootIdx_node] at hrepD
        obtain ⟨hdilt, hdipar, hdileft, hdiright, hrepdl, hrepdr⟩ := hrepD
        have hdlx : rootIdx dl ≠ some x := by
          intro h
          have hxD : x ∈ idxs (BT.node dl di dr) := by
            simp only [idxs, List.mem_append, List.mem_cons]
            exact Or.inl (rootIdx_mem h)
          exact hdisL1D x hxmemL1 hxD
        simp [splay_step, hxpar, hypar, hzleft, hzright, hyleft, hyright,
          optRight, optLeft, hCx, hdlx, hdileft, rootIdx_node]
  have hpf := parent_facts h1 hnd hsub (rootIdx_node _ z _)
  have hcz1 : Cpp.rotate_right T z = some (rotate_right T z) := by
    refine cpp_rotate_right_eq T y z hzleft (fun z0 h0 => ?_)
    obtain ⟨_, hnmem, hdisj⟩ := hpf z0 h0
    exact ⟨fun he => hnmem (he ▸ hymemS), hdisj⟩
  have hInv1 := rot_right_inv (n := n) ⟨h1, h2, h3, h4, h5, h6⟩ hsub
  have hsub1 := @subtreeAt_replaceAt _ _ _ (BT.node (BT.node A x B) y (BT.node C z D)) hsub
  obtain ⟨g1, g2, g3, g4, g5, g6⟩ := hInv1
  have hnd1 : (idxs (replaceAt t q (BT.node (BT.node A x B) y (BT.node C z D)))).Nodup := by
    rw [g3]; exact List.nodup_range n
  obtain ⟨p1, hrepS1⟩ := rep_subtree g1 hsub1
  simp only [rep, rootIdx_node] at hrepS1
  obtain ⟨_, _, hyleft1, _, _, _⟩ := hrepS1
  have hpf1 := parent_facts g1 hnd1 hsub1 (rootIdx_node _ y _)
  have hcz2 : Cpp.rotate_right (rotate_right T z) y = some (rotate_right (rotate_right T z) y) := by
    refine cpp_rotate_right_eq _ x y hyleft1 (fun z0 h0 => ?_)
    obtain ⟨_, hnmem, hdisj⟩ := hpf1 z0 h0
    refine ⟨fun he => hnmem (he ▸ ?_), hdisj⟩
    simp [idxs]
  have hcpp : Cpp.splay_step T x = some (splay_step T x) := by
    have hstep : Cpp.splay_step T x
        = (Cpp.rotate_right T z).bind fun T1 => Cpp.rotate_right T1 y := by
      cases D with
      | leaf =>
          simp [Cpp.splay_step, hxpar, hypar, hzleft, hzright, hyleft, hyright,
            optRight, optLeft, hCx, rootIdx_leaf]
      | node dl di dr =>
          simp only [rep, rootIdx_node] at hrepD
          obtain ⟨hdilt, hdipar, hdileft, hdiright, hrepdl, hrepdr⟩ := hrepD
          have hdlx : rootIdx dl ≠ some x := by
            intro h
            have hxD : x ∈ idxs (BT.node dl di dr) := by
              simp only [idxs, List.mem_append, List.mem_cons]
              exact Or.inl (rootIdx_mem h)
            exact hdisL1D x hxmemL1 hxD
          simp [Cpp.splay_step, hxpar, hypar, hzleft, hzright, hyleft, hyright,
            optRight, optLeft, hCx, hdlx, hdileft, rootIdx_node]
    rw [heq, hstep, hcz1]
    show Cpp.rotate_right (rotate_right T z) y = some (rotate_right (rotate_right T z) y)
    exact hcz2
  have hInv2 := rot_right_inv (n := n) ⟨g1, g2, g3, g4, g5, g6⟩ hsub1
  rw [replaceAt_collapse hsub] at hInv2
  rw [← heq] at hInv2
  exact ⟨heq, hcpp, hInv2, subtreeAt_replaceAt hsub⟩

/-- Zig-zig, all-right: x is y's right child, y is z's right child.  The
code rotates at z first, then at y (both left rotations). -/
theorem step_zzRR {n : Nat} {T : Tree} {t : BT} {q : List Bool} {A B C D : BT} {x y z : Nat}
    (hInv : Inv n T t)
    (hsub : subtreeAt t q = some (.node A z (.node B y (.node C x D)))) :
    splay_step T x = rotate_left (rotate_left T z) y ∧
    Cpp.splay_step T x = some (splay_step T x) ∧
    Inv n (splay_step T x) (replaceAt t q (.node (.node (.node A z B) y C) x D)) ∧
    subtreeAt (replaceAt t q (.node (.node (.node A z B) y C) x D)) q
      = some (.node (.node (.node A z B) y C) x D) := by
  obtain ⟨h1, h2, h3, h4, h5, h6⟩ := hInv
  have hnd : (idxs t).Nodup := by rw [h3]; exact List.nodup_range n
  obtain ⟨pz, hrepS⟩ := rep_subtree h1 hsub
  have hndS := subtree_nodup hsub hnd
  simp only [rep, rootIdx_node] at hrepS
  obtain ⟨hzlt, hzpar, hzleft, hzright, hrepA,
    ⟨hylt, hypar, hyleft, hyright, hrepB,
      ⟨hxlt, hxpar, hxleft, hxright, hrepC, hrepD⟩⟩⟩ := hrepS
  obtain ⟨hndA, hndR1, hzA, hzR1, hdisAR1⟩ := nodup_node hndS
  obtain ⟨hndB, hndR2, hyB, hyR2, hdisBR2⟩ := nodup_node hndR1
  have hxmemR2 : x ∈ idxs (BT.node C x D) := by simp [idxs]
  have hxmemR1 : x ∈ idxs (BT.node B y (BT.node C x D)) := by
    simp only [idxs, List.mem_append, List.mem_cons]
    right; right
    simp [idxs] at hxmemR2 ⊢
  have hymemS : y ∈ idxs (BT.node A z (BT.node B y (BT.node C x D))) := by simp [idxs]
  have hBx : rootIdx B ≠ some x := fun h => hdisBR2 x (rootIdx_mem h) hxmemR2
  have heq : splay_step T x = rotate_left (rotate_left T z) y := by
    cases A with
    | leaf =>
        simp [splay_step, hxpar, hypar, hzleft, hzright, hyleft, hyright,
          optRight, optLeft, hBx, rootIdx_leaf]
    | node al ai ar =>
        simp only [rep, rootIdx_node] at hrepA
        obtain ⟨hailt, haipar, haileft, hairight, hrepal, hrepar⟩ := hrepA
        have harx : rootIdx ar ≠ some x := by
          intro h
          have hxA : x ∈ idxs (BT.node al ai ar) := by
            simp only [idxs, List.mem_append, List.mem_cons]
            right; right
            exact rootIdx_mem h
          exact hdisAR1 x hxA hxmemR1
        have halx : rootIdx al ≠ some x := by
          intro h
          have hxA : x ∈ idxs (BT.node al ai ar) := by
            simp only [idxs, List.mem_append, List.mem_cons]
            exact Or.inl (rootIdx_mem h)
          exact hdisAR1 x hxA hxmemR1
        simp [splay_step, hxpar, hypar, hzleft, hzright, hyleft, hyright,
          optRight, optLeft, hBx, harx, halx, haileft, hairight, rootIdx_node]
  have hpf := parent_facts h1 hnd hsub (rootIdx_node _ z _)
  have hcz1 : Cpp.rotate_left T z = some (rotate_left T z) := by
    refine cpp_rotate_left_eq T z y hzright (fun z0 h0 => ?_)
    obtain ⟨_, hnmem, hdisj⟩ := hpf z0 h0
    exact ⟨fun he => hnmem (he ▸ hymemS), hdisj⟩
  have hInv1 := rot_left_inv (n := n) ⟨h1, h2, h3, h4, h5, h6⟩ hsub
  have hsub1 := @subtreeAt_replaceAt _ _ _ (BT.node (BT.node A z B) y (BT.node C x D)) hsub
  obtain ⟨g1, g2, g3, g4, g5, g6⟩ := hInv1
  have hnd1 : (idxs (replaceAt t q (BT.node (BT.node A z B) y (BT.node C x D)))).Nodup := by
    rw [g3]; exact List.nodup_range n
  obtain ⟨p1, hrepS1⟩ := rep_subtree g1 hsub1
  simp only [rep, rootIdx_node] at hrepS1
  obtain ⟨_, _, _, hyright1, _, _⟩ := hrepS1
  have hpf1 := parent_facts g1 hnd1 hsub1 (rootIdx_node _ y _)
  have hcz2 : Cpp.rotate_left (rotate_left T z) y = some (rotate_left (rotate_left T z) y) := by
    refine cpp_rotate_left_eq _ y x hyright1 (fun z0 h0 => ?_)
    obtain ⟨_, hnmem, hdisj⟩ := hpf1 z0 h0
    refine ⟨fun he => hnmem (he ▸ ?_), hdisj⟩
    simp [idxs]
  have hcpp : Cpp.splay_step T x = some (splay_step T x) := by
    have hstep : Cpp.splay_step T x
        = (Cpp.rotate_left T z).bind fun T1 => Cpp.rotate_left T1 y := by
      cases A with
      | leaf =>
          simp [Cpp.splay_step, hxpar, hypar, hzleft, hzright, hyleft, hyright,
            optRight, optLeft, hBx, rootIdx_leaf]
      | node al ai ar =>
          simp only [rep, rootIdx_node] at hrepA
          obtain ⟨hailt, haipar, haileft, hairight, hrepal, hrepar⟩ := hrepA
          have harx : rootIdx ar ≠ some x := by
            intro h
            have hxA : x ∈ idxs (BT.node al ai ar) := by
              simp only [idxs, List.mem_append, List.mem_cons]
              right; right
              exact rootIdx_mem h
            exact hdisAR1 x hxA hxmemR1
          have halx : rootIdx al ≠ some x := by
            intro h
            have hxA : x ∈ idxs (BT.node al ai ar) := by
              simp only [idxs, List.mem_append, List.mem_cons]
              exact Or.inl (rootIdx_mem h)
            exact hdisAR1 x hxA hxmemR1
          simp [Cpp.splay_step, hxpar, hypar, hzleft, hzright, hyleft, hyright,
            optRight, optLeft, hBx, harx, halx, haileft, hairight, rootIdx_node]
    rw [heq, hstep, hcz1]
    show Cpp.rotate_left (rotate_left T z) y = some (rotate_left (rotate_left T z) y)
    exact hcz2
  have hInv2 := rot_left_inv (n := n) ⟨g1, g2, g3, g4, g5, g6⟩ hsub1
  rw [replaceAt_collapse hsub] at hInv2
  rw [← heq] at hInv2
  exact ⟨heq, hcpp, hInv2, subtreeAt_replaceAt hsub⟩

/-- Zig-zag, left-right: y is z's left child, x is y's right child.  The
code rotates left at y, then right at z. -/
theorem step_zagLR {n : Nat} {T : Tree} {t : BT} {q : List Bool} {A B C D : BT} {x y z : Nat}
    (hInv : Inv n T t)
    (hsub : subtreeAt t q = some (.node (.node A y (.node B x C)) z D)) :
    splay_step T x = rotate_right (rotate_left T y) z ∧
    Cpp.splay_step T x = some (splay_step T x) ∧
    Inv n (splay_step T x) (replaceAt t q (.node (.node A y B) x (.node C z D))) ∧
    subtreeAt (replaceAt t q (.node (.node A y B) x (.node C z D))) q
      = some (.node (.node A y B) x (.node C z D)) := by
  obtain ⟨h1, h2, h3, h4, h5, h6⟩ := hInv
  have hnd : (idxs t).Nodup := by rw [h3]; exact List.nodup_range n
  obtain ⟨pz, hrepS⟩ := rep_subtree h1 hsub
  simp only [rep, rootIdx_node] at hrepS
  obtain ⟨hzlt, hzpar, hzleft, hzright,
    ⟨hylt, hypar, hyleft, hyright, hrepA,
      ⟨hxlt, hxpar, hxleft, hxright, hrepB, hrepC⟩⟩, hrepD⟩ := hrepS
  have hxmemI : x ∈ idxs (BT.node A y (BT.node B x C)) := by simp [idxs]
  have heq : splay_step T x = rotate_right (rotate_left T y) z := by
    simp [splay_step, hxpar, hypar, hzleft, hyright, optRight]
  have hsubI : subtreeAt t (q ++ [true]) = some (BT.node A y (BT.node B x C)) := by
    rw [subtreeAt_append, hsub]
    rfl
  have hpfI := parent_facts h1 hnd hsubI (rootIdx_node _ y _)
  have hcy1 : Cpp.rotate_left T y = some (rotate_left T y) := by
    refine cpp_rotate_left_eq T y x hyright (fun z0 h0 => ?_)
    obtain ⟨_, hnmem, hdisj⟩ := hpfI z0 h0
    exact ⟨fun he => hnmem (he ▸ hxmemI), hdisj⟩
  have hInv1 := rot_left_inv (n := n) ⟨h1, h2, h3, h4, h5, h6⟩ hsubI
  have hrw1 : replaceAt t (q ++ [true]) (BT.node (BT.node A y B) x C)
      = replaceAt t q (BT.node (BT.node (BT.node A y B) x C) z D) := by
    rw [replaceAt_append_one hsub]
    simp [replaceAt, replaceAt_nil]
  rw [hrw1] at hInv1
  have hsub1 := @subtreeAt_replaceAt _ _ _ (BT.node (BT.node (BT.node A y B) x C) z D) hsub
  obtain ⟨g1, g2, g3, g4, g5, g6⟩ := hInv1
  have hnd1 : (idxs (replaceAt t q
      (BT.node (BT.node (BT.node A y B) x C) z D))).Nodup := by
    rw [g3]; exact List.nodup_range n
  obtain ⟨p1, hrepS1⟩ := rep_subtree g1 hsub1
  simp only [rep, rootIdx_node] at hrepS1
  obtain ⟨_, _, hzleft1, _, _, _⟩ := hrepS1
  have hpf1 := parent_facts g1 hnd1 hsub1 (rootIdx_node _ z _)
  have hcz2 : Cpp.rotate_right (rotate_left T y) z = some (rotate_right (rotate_left T y) z) := by
    refine cpp_rotate_right_eq _ x z hzleft1 (fun z0 h0 => ?_)
    obtain ⟨_, hnmem, hdisj⟩ := hpf1 z0 h0
    refine ⟨fun he => hnmem (he ▸ ?_), hdisj⟩
    simp [idxs]
  have hcpp : Cpp.splay_step T x = some (splay_step T x) := by
    have hstep : Cpp.splay_step T x
        = (Cpp.rotate_left T y).bind fun T1 => Cpp.rotate_right T1 z := by
      simp [Cpp.splay_step, hxpar, hypar, hzleft, hyright, optRight]
    rw [heq, hstep, hcy1]
    show Cpp.rotate_right (rotate_left T y) z = some (rotate_right (rotate_left T y) z)
    exact hcz2
  have hInv2 := rot_right_inv (n := n) ⟨g1, g2, g3, g4, g5, g6⟩ hsub1
  rw [replaceAt_collapse hsub] at hInv2
  rw [← heq] at hInv2
  exact ⟨heq, hcpp, hInv2, subtreeAt_replaceAt hsub⟩

/-- Zig-zag, right-left: y is z's right child, x is y's left child.  The
code rotates right at y, then left at z. -/
theorem step_zagRL {n : Nat} {T : Tree} {t : BT} {q : List Bool} {A B C D : BT} {x y z : Nat}
    (hInv : Inv n T t)
    (hsub : subtreeAt t q = some (.node A z (.node (.node B x C) y D))) :
    splay_step T x = rotate_left (rotate_right T y) z ∧
    Cpp.splay_step T x = some (splay_step T x) ∧
    Inv n (splay_step T x) (replaceAt t q (.node (.node A z B) x (.node C y D))) ∧
    subtreeAt (replaceAt t q (.node (.node A z B) x (.node C y D))) q
      = some (.node (.node A z B) x (.node C y D)) := by
  obtain ⟨h1, h2, h3, h4, h5, h6⟩ := hInv
  have hnd : (idxs t).Nodup := by rw [h3]; exact List.nodup_range n
  obtain ⟨pz, hrepS⟩ := rep_subtree h1 hsub
  have hndS := subtree_nodup hsub hnd
  simp only [rep, rootIdx_node] at hrepS
  obtain ⟨hzlt, hzpar, hzleft, hzright, hrepA,
    ⟨hylt, hypar, hyleft, hyright,
      ⟨hxlt, hxpar, hxleft, hxright, hrepB, hrepC⟩, hrepD⟩⟩ := hrepS
  obtain ⟨hndA, hndR1, hzA, hzR1, hdisAR1⟩ := nodup_node hndS
  have hxmemM : x ∈ idxs (BT.node B x C) := by simp [idxs]
  have hxmemR1 : x ∈ idxs (BT.node (BT.node B x C) y D) := by
    simp only [idxs, List.mem_append, List.mem_cons]
    left
    simp [idxs] at hxmemM ⊢
  have hxmemI : x ∈ idxs (BT.node (BT.node B x C) y D) := hxmemR1
  have heq : splay_step T x = rotate_left (rotate_right T y) z := by
    cases A with
    | leaf =>
        simp [splay_step, hxpar, hypar, hzleft, hzright, hyleft,
          optRight, optLeft, rootIdx_leaf]
    | node al ai ar =>
        simp only [rep, rootIdx_node] at hrepA
        obtain ⟨hailt, haipar, haileft, hairight, hrepal, hrepar⟩ := hrepA
        have harx : rootIdx ar ≠ some x := by
          intro h
          have hxA : x ∈ idxs (BT.node al ai ar) := by
            simp only [idxs, List.mem_append, List.mem_cons]
            right; right
            exact rootIdx_mem h
          exact hdisAR1 x hxA hxmemR1
        simp [splay_step, hxpar, hypar, hzleft, hzright, hyleft,
          optRight, optLeft, harx, hairight, rootIdx_node]
  have hsubI : subtreeAt t (q ++ [false]) = some (BT.node (BT.node B x C) y D) := by
    rw [subtreeAt_append, hsub]
    rfl
  have hpfI := parent_facts h1 hnd hsubI (rootIdx_node _ y _)
  have hcy1 : Cpp.rotate_right T y = some (rotate_right T y) := by
    refine cpp_rotate_right_eq T x y hyleft (fun z0 h0 => ?_)
    obtain ⟨_, hnmem, hdisj⟩ := hpfI z0 h0
    exact ⟨fun he => hnmem (he ▸ hxmemI), hdisj⟩
  have hInv1 := rot_right_inv (n := n) ⟨h1, h2, h3, h4, h5, h6⟩ hsubI
  have hrw1 : replaceAt t (q ++ [false]) (BT.node B x (BT.node C y D))
      = replaceAt t q (BT.node A z (BT.node B x (BT.node C y D))) := by
    rw [replaceAt_append_one hsub]
    simp [replaceAt, replaceAt_nil]
  rw [hrw1] at hInv1
  have hsub1 := @subtreeAt_replaceAt _ _ _ (BT.node A z (BT.node B x (BT.node C y D))) hsub
  obtain ⟨g1, g2, g3, g4, g5, g6⟩ := hInv1
  have hnd1 : (idxs (replaceAt t q
      (BT.node A z (BT.node B x (BT.node C y D))))).Nodup := by
    rw [g3]; exact List.nodup_range n
  obtain ⟨p1, hrepS1⟩ := rep_subtree g1 hsub1
  simp only [rep, rootIdx_node] at hrepS1
  obtain ⟨_, _, _, hzright1, _, _⟩ := hrepS1
  have hpf1 := parent_facts g1 hnd1 hsub1 (rootIdx_node _ z _)
  have hcz2 : Cpp.rotate_left (rotate_right T y) z = some (rotate_left (rotate_right T y) z) := by
    refine cpp_rotate_left_eq _ z x hzright1 (fun z0 h0 => ?_)
    obtain ⟨_, hnmem, hdisj⟩ := hpf1 z0 h0
    refine ⟨fun he => hnmem (he ▸ ?_), hdisj⟩
    simp [idxs]
  have hcpp : Cpp.splay_step T x = some (splay_step T x) := by
    have hstep : Cpp.splay_step T x
        = (Cpp.rotate_right T y).bind fun T1 => Cpp.rotate_left T1 z := by
      cases A with
      | leaf =>
          simp [Cpp.splay_step, hxpar, hypar, hzleft, hzright, hyleft,
            optRight, optLeft, rootIdx_leaf]
      | node al ai ar =>
          simp only [rep, rootIdx_node] at hrepA
          obtain ⟨hailt, haipar, haileft, hairight, hrepal, hrepar⟩ := hrepA
          have harx : rootIdx ar ≠ some x := by
            intro h
            have hxA : x ∈ idxs (BT.node al ai ar) := by
              simp only [idxs, List.mem_append, List.mem_cons]
              right; right
              exact rootIdx_mem h
            exact hdisAR1 x hxA hxmemR1
          simp [Cpp.splay_step, hxpar, hypar, hzleft, hzright, hyleft,
            optRight, optLeft, harx, hairight, rootIdx_node]
    rw [heq, hstep, hcy1]
    show Cpp.rotate_left (rotate_right T y) z = some (rotate_left (rotate_right T y) z)
    exact hcz2
  have hInv2 := rot_left_inv (n := n) ⟨g1, g2, g3, g4, g5, g6⟩ hsub1
  rw [replaceAt_collapse hsub] at hInv2
  rw [← heq] at hInv2
  exact ⟨heq, hcpp, hInv2, subtreeAt_replaceAt hsub⟩

/-- One `splay_step` on a non-root node `x`: the invariant is preserved,
the C++ step computes the same tree, and the distance from the root to `x`
shrinks by exactly 1 (zig) or 2 (zig-zig / zig-zag). -/
theorem splay_step_progress {n : Nat} {T : Tree} {t : BT} {x : Nat} {p : List Bool}
    (hInv : Inv n T t) (hp : pathTo t x = some p) (hne : p ≠ []) :
    ∃ t' p', Inv n (splay_step T x) t' ∧
      Cpp.splay_step T x = some (splay_step T x) ∧
      pathTo t' x = some p' ∧
      (p.length = p'.length + 1 ∨ p.length = p'.length + 2) := by
  rcases List.eq_nil_or_concat p with rfl | ⟨q1, d2, rfl⟩
  · exact absurd rfl hne
  simp only [List.concat_eq_append] at hp ⊢
  rcases List.eq_nil_or_concat q1 with rfl | ⟨q, d1, rfl⟩
  · -- zig: the parent of x is the root
    simp only [List.nil_append] at hp
    obtain ⟨s, hs, hrs⟩ := pathTo_subtree hp
    cases t with
    | leaf => simp [pathTo] at hp
    | node l i r =>
        cases d2
        · have hrsr : r = s := by simpa [subtreeAt] using hs
          subst hrsr
          cases r with
          | leaf => simp [rootIdx] at hrs
          | node B x0 C =>
              have hx0 : x0 = x := by simpa [rootIdx_node] using hrs
              subst hx0
              obtain ⟨heq, hcpp, hInv2⟩ := step_zigR hInv
              exact ⟨_, [], hInv2, hcpp, by simp [pathTo], by simp⟩
        · have hrsl : l = s := by simpa [subtreeAt] using hs
          subst hrsl
          cases l with
          | leaf => simp [rootIdx] at hrs
          | node A x0 B =>
              have hx0 : x0 = x := by simpa [rootIdx_node] using hrs
              subst hx0
              obtain ⟨heq, hcpp, hInv2⟩ := step_zigL hInv
              exact ⟨_, [], hInv2, hcpp, by simp [pathTo], by simp⟩
  · -- zig-zig or zig-zag: x has a grandparent
    simp only [List.concat_eq_append] at hp ⊢
    obtain ⟨s, hs, hrs⟩ := pathTo_subtree hp
    rw [subtreeAt_append] at hs
    cases hq2 : subtreeAt t (q ++ [d1]) with
    | none => rw [hq2] at hs; simp at hs
    | some sy =>
        rw [hq2] at hs
        simp only [Option.some_bind] at hs
        rw [subtreeAt_append] at hq2
        cases hq : subtreeAt t q with
        | none => rw [hq] at hq2; simp at hq2
        | some sz =>
            rw [hq] at hq2
            simp only [Option.some_bind] at hq2
            cases sz with
            | leaf => cases d1 <;> simp [subtreeAt] at hq2
            | node zl zi zr =>
                cases d1
                · -- the parent of x is the right child of the grandparent
                  have hsy : zr = sy := by simpa [subtreeAt] using hq2
                  subst hsy
                  cases zr with
                  | leaf => cases d2 <;> simp [subtreeAt] at hs
                  | node yl yi yr =>
                      cases d2
                      · -- zig-zig RR
                        have hsx : yr = s := by simpa [subtreeAt] using hs
                        subst hsx
                        cases yr with
                        | leaf => simp [rootIdx] at hrs
                        | node C x0 D =>
                            have hx0 : x0 = x := by simpa [rootIdx_node] using hrs
                            subst hx0
                            obtain ⟨heq, hcpp, hInv2, hsub2⟩ := step_zzRR hInv hq
                            have g3 := hInv2.2.2.1
                            have hnd2 : (idxs (replaceAt t q
                                (BT.node (BT.node (BT.node zl zi yl) yi C) x0 D))).Nodup := by
                              rw [g3]; exact List.nodup_range n
                            exact ⟨_, q, hInv2, hcpp,
                              subtree_pathTo hnd2 hsub2 (rootIdx_node _ x0 _), by simp⟩
                      · -- zig-zag RL
                        have hsx : yl = s := by simpa [subtreeAt] using hs
                        subst hsx
                        cases yl with
                        | leaf => simp [rootIdx] at hrs
                        | node B x0 C =>
                            have hx0 : x0 = x := by simpa [rootIdx_node] using hrs
                            subst hx0
                            obtain ⟨heq, hcpp, hInv2, hsub2⟩ := step_zagRL hInv hq
                            have g3 := hInv2.2.2.1
                            have hnd2 : (idxs (replaceAt t q
                                (BT.node (BT.node zl zi B) x0 (BT.node C yi yr)))).Nodup := by
                              rw [g3]; exact List.nodup_range n
                            exact ⟨_, q, hInv2, hcpp,
                              subtree_pathTo hnd2 hsub2 (rootIdx_node _ x0 _), by simp⟩
                · -- the parent of x is the left child of the grandparent
                  have hsy : zl = sy := by simpa [subtreeAt] using hq2
                  subst hsy
                  cases zl with
                  | leaf => cases d2 <;> simp [subtreeAt] at hs
                  | node yl yi yr =>
                      cases d2
                      · -- zig-zag LR
                        have hsx : yr = s := by simpa [subtreeAt] using hs
                        subst hsx
                        cases yr with
                        | leaf => simp [rootIdx] at hrs
                        | node B x0 C =>
                            have hx0 : x0 = x := by simpa [rootIdx_node] using hrs
                            subst hx0
                            obtain ⟨heq, hcpp, hInv2, hsub2⟩ := step_zagLR hInv hq
                            have g3 := hInv2.2.2.1
                            have hnd2 : (idxs (replaceAt t q
                                (BT.node (BT.node yl yi B) x0 (BT.node C zi zr)))).Nodup := by
                              rw [g3]; exact List.nodup_range n
                            exact ⟨_, q, hInv2, hcpp,
                              subtree_pathTo hnd2 hsub2 (rootIdx_node _ x0 _), by simp⟩
                      · -- zig-zig LL
                        have hsx : yl = s := by simpa [subtreeAt] using hs
                        subst hsx
                        cases yl with
                        | leaf => simp [rootIdx] at hrs
                        | node A x0 B =>
                            have hx0 : x0 = x := by simpa [rootIdx_node] using hrs
                            subst hx0
                            obtain ⟨heq, hcpp, hInv2, hsub2⟩ := step_zzLL hInv hq
                            have g3 := hInv2.2.2.1
                            have hnd2 : (idxs (replaceAt t q
                                (BT.node A x0 (BT.node B yi (BT.node yr zi zr))))).Nodup := by
                              rw [g3]; exact List.nodup_range n
                            exact ⟨_, q, hInv2, hcpp,
                              subtree_pathTo hnd2 hsub2 (rootIdx_node _ x0 _), by simp⟩

/-- The splay loop with enough fuel roots `x` and preserves the invariant,
and the C++ loop computes the same tree. -/
theorem splay_loop_master {n : Nat} (fuel : Nat) {T : Tree} {t : BT} {x : Nat} {p : List Bool}
    (hInv : Inv n T t) (hp : pathTo t x = some p) (hf : p.length < fuel) :
    ∃ t', Inv n (splay_loop fuel T x) t' ∧ (splay_loop fuel T x).root = x ∧
      Cpp.splay_loop fuel T x = some (splay_loop fuel T x) := by
  induction fuel generalizing T t p with
  | zero => omega
  | succ f ih =>
      by_cases hr : T.root = x
      · have hC : splay_loop (f + 1) T x = T := by simp [splay_loop, hr]
        have hCpp : Cpp.splay_loop (f + 1) T x = some T := by simp [Cpp.splay_loop, hr]
        rw [hC, hCpp]
        exact ⟨t, hInv, hr, rfl⟩
      · have hne : p ≠ [] := by
          intro he
          subst he
          have := pathTo_nil hp
          rw [hInv.2.1] at this
          simp at this
          exact hr this
        obtain ⟨t1, p1, hInv1, hcpp1, hp1, hlen⟩ := splay_step_progress hInv hp hne
        have hlen1 : p1.length < f := by omega
        obtain ⟨t', hI, hroot, hcpp'⟩ := ih hInv1 hp1 hlen1
        have hC : splay_loop (f + 1) T x = splay_loop f (splay_step T x) x := by
          simp [splay_loop, hr]
        have hCpp : Cpp.splay_loop (f + 1) T x
            = Cpp.splay_loop f (splay_step T x) x := by
          simp only [Cpp.splay_loop, if_neg hr, hcpp1, Option.some_bind]
        rw [hC, hCpp]
        exact ⟨t', hI, hroot, hcpp'⟩

/-- `splay_node` on any member of a well-formed tree terminates with `x` at
the root, preserves the invariant, and agrees with the C++ `splay`. -/
theorem splay_node_master {n : Nat} {T : Tree} {t : BT} {x : Nat}
    (hInv : Inv n T t) (hx : x ∈ idxs t) :
    ∃ t', Inv n (splay_node T x) t' ∧ (splay_node T x).root = x ∧
      Cpp.splay T x = some (splay_node T x) := by
  obtain ⟨p, hp⟩ := Option.isSome_iff_exists.mp (pathTo_isSome_iff.mpr hx)
  have hb : p.length < n := by
    have h1 := pathTo_length_lt_bcount hp
    rw [bcount_eq_length_idxs, hInv.2.2.1, List.length_range] at h1
    exact h1
  have h4 := hInv.2.2.2.1
  have h5 := hInv.2.2.2.2.1
  have hC : splay_node T x = splay_loop n T x := by rw [splay_node, h5]
  have hCpp : Cpp.splay T x = Cpp.splay_loop n T x := by rw [Cpp.splay, h4]
  rw [hC, hCpp]
  exact splay_loop_master n hInv hp hb

/-- The root of a tree satisfying the invariant is in range and holds key
`root + 1`, and its parent pointer is `NULL`. -/
theorem root_facts {n : Nat} {T : Tree} {t : BT} (hInv : Inv n T t) :
    T.root < n ∧ (nd T.nodes T.root).value = T.root + 1 ∧
    (nd T.nodes T.root).parent = none := by
  obtain ⟨h1, h2, h3, h4, h5, h6⟩ := hInv
  have hmem : T.root ∈ idxs t := rootIdx_mem h2
  rw [h3, List.mem_range] at hmem
  refine ⟨hmem, h6 _ hmem, ?_⟩
  cases t with
  | leaf => simp [rootIdx] at h2
  | node l i r =>
      simp [rootIdx_node] at h2
      subst h2
      exact h1.2.1

/-- The C entry point `splay(T, k)` on a well-formed tree with `k` in
range: the error branch does not fire, the target pointer computation
lands exactly on index `k - 1`, and the splay roots that node. -/
theorem splay_entry {n : Nat} {T : Tree} {t : BT} {k : Int}
    (hInv : Inv n T t) (hk1 : 1 ≤ k) (hkn : k ≤ (n : Int)) :
    splay T k = (false, some (splay_node T (k - 1).toNat)) ∧
    ∃ t', Inv n (splay_node T (k - 1).toNat) t' ∧
      (splay_node T (k - 1).toNat).root = (k - 1).toNat := by
  obtain ⟨hrlt, hrval, _⟩ := root_facts hInv
  have h4 := hInv.2.2.2.1
  have h5 := hInv.2.2.2.2.1
  have h3 := hInv.2.2.1
  have htgt : (T.root : Int) + (k - ((nd T.nodes T.root).value : Int)) = k - 1 := by
    rw [hrval]
    push_cast
    ring
  have herr : ¬(k ≤ 0 ∨ (T.size : Int) < k) := by
    rw [h5]; omega
  have hC : splay T k = (false, some (splay_node T (k - 1).toNat)) := by
    unfold splay
    rw [htgt]
    rw [if_pos (by rw [h4]; omega)]
    simp [herr]
  have hxmem : (k - 1).toNat ∈ idxs t := by
    rw [h3, List.mem_range]
    omega
  obtain ⟨t', hI, hroot, _⟩ := splay_node_master hInv hxmem
  exact ⟨hC, t', hI, hroot⟩

/-- The C++ entry point `splay_by_key(key)` on a well-formed tree with
`key` in range: the assert passes and the node at index `key - 1` (which
holds `key`) is splayed to the root, computing the same tree as the C
`splay_node`. -/
theorem splay_by_key_entry {n : Nat} {T : Tree} {t : BT} {k : Nat}
    (hInv : Inv n T t) (hk1 : 1 ≤ k) (hkn : k ≤ n) :
    Cpp.splay_by_key T k = some (splay_node T (k - 1)) ∧
    ∃ t', Inv n (splay_node T (k - 1)) t' ∧ (splay_node T (k - 1)).root = k - 1 := by
  have h4 := hInv.2.2.2.1
  have h3 := hInv.2.2.1
  have hxmem : k - 1 ∈ idxs t := by
    rw [h3, List.mem_range]
    omega
  obtain ⟨t', hI, hroot, hcpp⟩ := splay_node_master hInv hxmem
  refine ⟨?_, t', hI, hroot⟩
  rw [Cpp.splay_by_key, if_pos (by rw [h4]; exact ⟨hk1, hkn⟩)]
  exact hcpp

/-! ## Closed form of construction -/

theorem nd_replicate (n j : Nat) : nd (List.replicate n default) j = default := by
  unfold nd
  rcases Nat.lt_or_ge j n with h | h
  · rw [List.getD_eq_getElem?_getD, List.getElem?_replicate]
    simp [h]
  · rw [List.getD_eq_getElem?_getD, List.getElem?_eq_none (by simpa using h)]
    rfl

theorem chainArena_length (n : Nat) : (chainArena n).length = n := by
  simp [chainArena]

theorem nd_chainArena {n j : Nat} (h : j < n) : nd (chainArena n) j = chainNode n j := by
  unfold nd chainArena
  rw [List.getD_eq_getElem?_getD, List.getElem?_map, List.getElem?_range h]
  rfl

/-- Invariant of the `initialize_tree` loop: entering iteration `i` with
`cur = i - 1`, the nodes below `cur` are fully chained, `cur` has only its
left pointer set, and everything above is still zeroed; on exit the same
holds with `cur = n - 1`. -/
theorem initLoop_spec (n : Nat) : ∀ k i a, n - i = k → 1 ≤ i → i ≤ n → a.length = n →
    (∀ j, j < i - 1 → nd a j = chainNode n j) →
    nd a (i - 1) =
      { parent := none
        left := if i - 1 = 0 then none else some (i - 1 - 1)
        right := none
        value := 0 } →
    (∀ j, i ≤ j → j < n → nd a j = default) →
    (initLoop n a (i - 1) i).2 = n - 1 ∧
    (initLoop n a (i - 1) i).1.length = n ∧
    (∀ j, j < n - 1 → nd (initLoop n a (i - 1) i).1 j = chainNode n j) ∧
    nd (initLoop n a (i - 1) i).1 (n - 1) =
      { parent := none
        left := if n - 1 = 0 then none else some (n - 1 - 1)
        right := none
        value := 0 } := by
  intro k
  induction k with
  | zero =>
      intro i a hk h1 hn hlen hlow hcur hhigh
      have hin : i = n := by omega
      subst hin
      rw [initLoop, if_neg (by omega)]
      exact ⟨rfl, hlen, hlow, hcur⟩
  | succ k ih =>
      intro i a hk h1 hn hlen hlow hcur hhigh
      have hin : i < n := by omega
      have he : i - 1 + 1 = i := by omega
      rw [initLoop, if_pos hin, he]
      have hilen : i - 1 < a.length := by omega
      have hilen2 : i < a.length := by omega
      have hne : i - 1 ≠ i := by omega
      set a1 := wr a (i - 1) (fun v => { v with value := i }) with ha1
      set a2 := wr a1 (i - 1) (fun v => { v with parent := some i }) with ha2
      set a3 := wr a2 i (fun v => { v with left := some (i - 1) }) with ha3
      have hlen3 : a3.length = n := by
        rw [ha3, ha2, ha1, length_wr, length_wr, length_wr, hlen]
      have hnd_frozen : ∀ j, j < i - 1 → nd a3 j = nd a j := by
        intro j hj
        rw [ha3, nd_wr_other _ _ _ _ (by omega), ha2,
          nd_wr_other _ _ _ _ (by omega), ha1, nd_wr_other _ _ _ _ (by omega)]
      have hnd_cur : nd a3 (i - 1) =
          { parent := some i
            left := if i - 1 = 0 then none else some (i - 1 - 1)
            right := none
            value := i } := by
        rw [ha3, nd_wr_other _ _ _ _ (by omega), ha2, nd_wr_self _ _ _ (by rw [length_wr]; exact hilen),
          ha1, nd_wr_self _ _ _ hilen, hcur]
      have hnd_next : nd a3 i =
          { parent := none
            left := some (i - 1)
            right := none
            value := 0 } := by
        rw [ha3, nd_wr_self _ _ _ (by rw [ha2, ha1, length_wr, length_wr]; exact hilen2),
          ha2, nd_wr_other _ _ _ _ hne, ha1, nd_wr_other _ _ _ _ hne,
          hhigh i (le_refl i) (by omega)]
        rfl
      have hhigh3 : ∀ j, i + 1 ≤ j → j < n → nd a3 j = default := by
        intro j hj1 hj2
        rw [ha3, nd_wr_other _ _ _ _ (by omega), ha2,
          nd_wr_other _ _ _ _ (by omega), ha1, nd_wr_other _ _ _ _ (by omega)]
        exact hhigh j (by omega) hj2
      have hmain := ih (i + 1) a3 (by omega) (by omega) (by omega) hlen3
        (by
          intro j hj
          have hj2 : j < i := by omega
          rcases Nat.lt_or_ge j (i - 1) with hjc | hjc
          · rw [hnd_frozen j hjc]
            exact hlow j hjc
          · have hjeq : j = i - 1 := by omega
            subst hjeq
            rw [hnd_cur]
            unfold chainNode
            rw [he, if_pos hin])
        (by
          have h2 : i + 1 - 1 = i := by omega
          rw [h2, hnd_next, if_neg (show ¬i = 0 by omega)])
        (fun j hj1 hj2 => hhigh3 j hj1 hj2)
      have h2 : i + 1 - 1 = i := by omega
      rw [h2] at hmain
      exact hmain

theorem init_tree_eq {n : Nat} (hn : 1 ≤ n) : init_tree n = some (chainTree n) := by
  obtain ⟨hcur, hlen, hlow, hlast⟩ := initLoop_spec n (n - 1) 1 (List.replicate n default)
    (by omega) (le_refl 1) hn (by simp)
    (fun j hj => absurd hj (by omega))
    (by rw [nd_replicate]; rfl)
    (fun j h1 h2 => nd_replicate n j)
  have hcur' : (initLoop n (List.replicate n default) 0 1).2 = n - 1 := hcur
  have hlen' : (initLoop n (List.replicate n default) 0 1).1.length = n := hlen
  have hlow' : ∀ j, j < n - 1 → nd (initLoop n (List.replicate n default) 0 1).1 j
      = chainNode n j := hlow
  have hlast' : nd (initLoop n (List.replicate n default) 0 1).1 (n - 1) =
      { parent := none
        left := if n - 1 = 0 then none else some (n - 1 - 1)
        right := none
        value := 0 } := hlast
  unfold init_tree
  rw [if_neg (by omega)]
  show some
    { size := n, root := (initLoop n (List.replicate n default) 0 1).2,
      nodes := wr (initLoop n (List.replicate n default) 0 1).1
        (initLoop n (List.replicate n default) 0 1).2
        (fun v => { v with value := n }) } = some (chainTree n)
  rw [hcur']
  have harena : wr (initLoop n (List.replicate n default) 0 1).1 (n - 1)
      (fun v => { v with value := n }) = chainArena n := by
    apply arena_ext
    · rw [length_wr, hlen', chainArena_length]
    · intro j hj
      rw [length_wr, hlen'] at hj
      rcases eq_or_ne j (n - 1) with hje | hje
      · subst hje
        rw [nd_wr_self _ _ _ (by rw [hlen']; omega), hlast',
          nd_chainArena (by omega)]
        unfold chainNode
        have hv : n - 1 + 1 = n := by omega
        rw [hv, if_neg (Nat.lt_irrefl n)]
      · rw [nd_wr_other _ _ _ _ (fun hc => hje hc.symm), hlow' j (by omega),
          nd_chainArena (by omega)]
  rw [harena]
  rfl

theorem rootIdx_chainBT (k : Nat) :
    rootIdx (chainBT k) = if k = 0 then none else some (k - 1) := by
  cases k <;> simp [chainBT, rootIdx]

theorem idxs_chainBT (k : Nat) : idxs (chainBT k) = List.range k := by
  induction k with
  | zero => simp [chainBT, idxs]
  | succ m ih => simp [chainBT, idxs, ih, List.range_succ m]

theorem rep_chainBT (n : Nat) : ∀ k, k ≤ n →
    rep (chainArena n) (if k < n then some k else none) (chainBT k) := by
  intro k
  induction k with
  | zero => intro _; trivial
  | succ m ih =>
      intro hk
      have hmn : m < n := by omega
      show rep (chainArena n) _ (BT.node (chainBT m) m BT.leaf)
      refine ⟨by rw [chainArena_length]; omega, ?_, ?_, ?_, ?_, trivial⟩
      · rw [nd_chainArena hmn]
        rfl
      · rw [nd_chainArena hmn, rootIdx_chainBT]
        rfl
      · rw [nd_chainArena hmn]
        rfl
      · have := ih (by omega)
        rw [if_pos hmn] at this
        exact this

/-- After construction the tree of size `n ≥ 1` satisfies the full
invariant, with the degenerate chain as abstract tree. -/
theorem chain_inv {n : Nat} (hn : 1 ≤ n) : Inv n (chainTree n) (chainBT n) := by
  refine ⟨?_, ?_, idxs_chainBT n, chainArena_length n, rfl, ?_⟩
  · have := rep_chainBT n n (le_refl n)
    rw [if_neg (by omega)] at this
    exact this
  · rw [rootIdx_chainBT, if_neg (by omega)]
    rfl
  · intro j hj
    show (nd (chainArena n) j).value = j + 1
    rw [nd_chainArena hj]
    rfl

theorem nd_append_lt {a b : List Node} {j : Nat} (h : j < a.length) :
    nd (a ++ b) j = nd a j := by
  unfold nd
  rw [List.getD_eq_getElem?_getD, List.getD_eq_getElem?_getD,
    List.getElem?_append, if_pos h]

theorem nd_append_last (a : List Node) (v : Node) : nd (a ++ [v]) a.length = v := by
  unfold nd
  rw [List.getD_eq_getElem?_getD, List.getElem?_append_right (le_refl a.length)]
  simp

theorem wr_self_id {a : List Node} {j : Nat} {f : Node → Node}
    (h : f (nd a j) = nd a j) : wr a j f = a := by
  apply arena_ext _ _ (length_wr a j f)
  intro j2 hj2
  rw [length_wr] at hj2
  rcases eq_or_ne j2 j with he | he
  · subst he
    rw [nd_wr_self _ _ _ hj2, h]
  · rw [nd_wr_other _ _ _ _ (fun hc => he hc.symm)]

/-- Invariant of the C++ constructor loop: entering iteration `i` the
vector holds exactly the chain of `i` nodes; each iteration emplaces node
`i + 1` and links it, extending the chain. -/
theorem buildLoop_spec (n : Nat) : ∀ k i, n - i = k → 1 ≤ i →
    Cpp.buildLoop n (chainArena i) i = chainArena (max n i) := by
  intro k
  induction k with
  | zero =>
      intro i hk h1
      rw [Cpp.buildLoop, if_neg (by omega), Nat.max_eq_right (by omega)]
  | succ k ih =>
      intro i hk h1
      have hin : i < n := by omega
      rw [Cpp.buildLoop, if_pos hin]
      have hlenA : (chainArena i ++
          [({ parent := none, left := none, right := none, value := i + 1 } : Node)]).length
          = i + 1 := by
        rw [List.length_append, chainArena_length]
        rfl
      have harena : set_left (chainArena i ++
          [({ parent := none, left := none, right := none, value := i + 1 } : Node)]) i
          (some (i - 1)) = chainArena (i + 1) := by
        unfold set_left
        apply arena_ext
        · rw [length_wr, length_wr, hlenA, chainArena_length]
        · intro j hj
          rw [length_wr, length_wr, hlenA] at hj
          have hgetA : ∀ j2, j2 < i → nd (chainArena i ++
              [({ parent := none, left := none, right := none, value := i + 1 } : Node)]) j2
              = chainNode i j2 := by
            intro j2 hj2
            rw [nd_append_lt (by rw [chainArena_length]; exact hj2), nd_chainArena hj2]
          have hgetLast : nd (chainArena i ++
              [({ parent := none, left := none, right := none, value := i + 1 } : Node)]) i
              = { parent := none, left := none, right := none, value := i + 1 } := by
            have := nd_append_last (chainArena i)
              ({ parent := none, left := none, right := none, value := i + 1 } : Node)
            rw [chainArena_length] at this
            exact this
          rcases eq_or_ne j i with he | he
          · subst he
            rw [nd_wr_other _ _ _ _ (show j - 1 ≠ j by omega),
              nd_wr_self _ _ _ (by rw [hlenA]; omega), hgetLast,
              nd_chainArena (show j < j + 1 by omega)]
            unfold chainNode
            rw [if_neg (show ¬j + 1 < j + 1 from Nat.lt_irrefl _),
              if_neg (show ¬j = 0 by omega)]
          · rcases eq_or_ne j (i - 1) with he2 | he2
            · subst he2
              rw [nd_wr_self _ _ _ (by rw [length_wr, hlenA]; omega),
                nd_wr_other _ _ _ _ (show i ≠ i - 1 from fun hc => he hc.symm),
                hgetA _ (show i - 1 < i by omega),
                nd_chainArena (show i - 1 < i + 1 by omega)]
              unfold chainNode
              have hv : i - 1 + 1 = i := by omega
              rw [hv, if_pos (show i < i + 1 by omega)]
            · have hji : j < i - 1 := by omega
              rw [nd_wr_other _ _ _ _ (show i - 1 ≠ j from fun hc => he2 hc.symm),
                nd_wr_other _ _ _ _ (show i ≠ j from fun hc => he hc.symm),
                hgetA _ (show j < i by omega),
                nd_chainArena (show j < i + 1 by omega)]
              unfold chainNode
              rw [if_pos (show j + 1 < i by omega), if_pos (show j + 1 < i + 1 by omega)]
      rw [harena, ih (i + 1) (by omega) (by omega),
        Nat.max_eq_left (by omega), Nat.max_eq_left (by omega)]

/-- Closed form of the C++ constructor: `SplayTree(n)` builds the chain of
`max n 1` nodes — one node too many when `n = 0`, because node 1 is
emplaced before the loop unconditionally. -/
theorem build_eq (n : Nat) : Cpp.build n = chainTree (max n 1) := by
  unfold Cpp.build
  have h1 : [({ parent := none, left := none, right := none, value := 1 } : Node)]
      = chainArena 1 := by decide
  rw [h1, buildLoop_spec n (n - 1) 1 rfl (le_refl 1)]
  have hm : 1 ≤ max n 1 := Nat.le_max_right n 1
  have hlen : (chainArena (max n 1)).length = max n 1 := chainArena_length _
  show Tree.mk (chainArena (max n 1)).length ((chainArena (max n 1)).length - 1)
      (wr (chainArena (max n 1)) ((chainArena (max n 1)).length - 1)
        (fun v => { v with parent := none })) = chainTree (max n 1)
  rw [hlen]
  have hroot : nd (chainArena (max n 1)) (max n 1 - 1) = chainNode (max n 1) (max n 1 - 1) :=
    nd_chainArena (by omega)
  have hwr : wr (chainArena (max n 1)) (max n 1 - 1)
      (fun v => { v with parent := none }) = chainArena (max n 1) := by
    apply wr_self_id
    rw [hroot]
    unfold chainNode
    have hv : max n 1 - 1 + 1 = max n 1 := by omega
    rw [hv, if_neg (Nat.lt_irrefl _)]
  rw [hwr]
  rfl

/-! ## Reachable states satisfy the invariant -/

theorem reachC_inv {n : Nat} {T : Tree} (h : ReachableC n T) :
    1 ≤ n ∧ ∃ t, Inv n T t := by
  induction h with
  | built hinit =>
      have hn : 1 ≤ n := by
        by_contra h0
        have hz : n = 0 := by omega
        subst hz
        simp [init_tree] at hinit
      rw [init_tree_eq hn] at hinit
      have hT : chainTree n = _ := Option.some_injective _ hinit
      rw [← hT]
      exact ⟨hn, chainBT n, chain_inv hn⟩
  | splayed hre hk1 hkn hs ih =>
      obtain ⟨hn, t, hI⟩ := ih
      obtain ⟨heq, t', hI', _⟩ := splay_entry hI hk1 hkn
      rw [heq] at hs
      have hT : splay_node _ _ = _ := Option.some_injective _ (congrArg Prod.snd hs)
      rw [← hT]
      exact ⟨hn, t', hI'⟩

theorem reachCpp_inv {n : Nat} {T : Tree} (h : ReachableCpp n T) :
    ∃ t, Inv (max n 1) T t := by
  induction h with
  | built =>
      rw [build_eq]
      exact ⟨chainBT (max n 1), chain_inv (Nat.le_max_right n 1)⟩
  | splayed hre hk1 hkn hs ih =>
      obtain ⟨t, hI⟩ := ih
      obtain ⟨heq, t', hI', _⟩ := splay_by_key_entry hI hk1
        (le_trans hkn (Nat.le_max_left n 1))
      rw [heq] at hs
      have hT : splay_node _ _ = _ := Option.some_injective _ hs
      rw [← hT]
      exact ⟨t', hI'⟩

/-! ## Inorder traversal of a represented tree -/

theorem inorder_rep {a : List Node} : ∀ (t : BT) (fuel : Nat) (par : Option Nat),
    bcount t ≤ fuel → rep a par t →
    inorderA a fuel (rootIdx t) = (idxs t).map (fun j => (nd a j).value) := by
  intro t
  induction t with
  | leaf =>
      intro fuel par _ _
      cases fuel <;> rfl
  | node l i r ihl ihr =>
      intro fuel par h hb
      obtain ⟨h1, h2, h3, h4, h5, h6⟩ := hb
      cases fuel with
      | zero => simp [bcount] at h
      | succ f =>
          simp only [bcount] at h
          simp only [rootIdx_node, inorderA]
          rw [h3, h4, ihl f (some i) (by omega) h5, ihr f (some i) (by omega) h6]
          simp [idxs]

/-- On a tree satisfying the invariant, the inorder key sequence read with
fuel `n` is exactly `1, 2, …, n`. -/
theorem inorder_inv {n : Nat} {T : Tree} {t : BT} (hInv : Inv n T t) :
    inorderA T.nodes n (some T.root) = (List.range n).map (fun j => j + 1) := by
  obtain ⟨h1, h2, h3, h4, h5, h6⟩ := hInv
  have hb : bcount t ≤ n := by
    rw [bcount_eq_length_idxs, h3, List.length_range]
  have := inorder_rep t n none hb h1
  rw [h2] at this
  rw [this, h3]
  apply List.map_congr_left
  intro j hj
  rw [List.mem_range] at hj
  exact h6 j hj

/-! ## Structural consistency of represented trees -/

/-- Every non-root member node has a parent, the parent is a member, and
exactly one of the parent's two child pointers comes back to the node. -/
theorem nonroot_parent {a : List Node} {t : BT} {x : Nat} {p : List Bool}
    (hrep : rep a none t) (hnd : (idxs t).Nodup)
    (hp : pathTo t x = some p) (hne : p ≠ []) :
    ∃ z, (nd a x).parent = some z ∧ z ∈ idxs t ∧
      (((nd a z).left = some x ∧ (nd a z).right ≠ some x) ∨
       ((nd a z).right = some x ∧ (nd a z).left ≠ some x)) := by
  rcases List.eq_nil_or_concat p with rfl | ⟨q, d, rfl⟩
  · exact absurd rfl hne
  simp only [List.concat_eq_append] at hp
  obtain ⟨s, hs, hrs⟩ := pathTo_subtree hp
  rw [subtreeAt_append] at hs
  cases hq : subtreeAt t q with
  | none => rw [hq] at hs; simp at hs
  | some sz =>
      rw [hq] at hs
      simp only [Option.some_bind] at hs
      cases sz with
      | leaf => cases d <;> simp [subtreeAt] at hs
      | node zl zi zr =>
          obtain ⟨pz, hrepz⟩ := rep_subtree hrep hq
          obtain ⟨hzlt, hzpar, hzleft, hzright, hrepl, hrepr⟩ := hrepz
          have hndz := subtree_nodup hq hnd
          obtain ⟨hndl, hndr, hzl2, hzr2, hdis⟩ := nodup_node hndz
          have hzmem : zi ∈ idxs t := subtree_mem hq _ (by simp [idxs])
          cases d
          · have hsr : zr = s := by simpa [subtreeAt] using hs
            subst hsr
            have hpar : (nd a x).parent = some zi :=
              parent_of_child ⟨hzlt, hzpar, hzleft, hzright, hrepl, hrepr⟩
                (d := false) (by simpa using hrs)
            refine ⟨zi, hpar, hzmem, Or.inr ⟨by rw [hzright, hrs], ?_⟩⟩
            rw [hzleft]
            intro hc
            exact hdis x (rootIdx_mem hc) (rootIdx_mem hrs)
          · have hsl : zl = s := by simpa [subtreeAt] using hs
            subst hsl
            have hpar : (nd a x).parent = some zi :=
              parent_of_child ⟨hzlt, hzpar, hzleft, hzright, hrepl, hrepr⟩
                (d := true) (by simpa using hrs)
            refine ⟨zi, hpar, hzmem, Or.inl ⟨by rw [hzleft, hrs], ?_⟩⟩
            rw [hzright]
            intro hc
            exact hdis x (rootIdx_mem hrs) (rootIdx_mem hc)

/-- The structural consistency facts of the spec, for any tree satisfying
the invariant: the recorded root is the unique parentless node, and every
other node is exactly one of its parent's children. -/
theorem struct_inv {n : Nat} {T : Tree} {t : BT} (hInv : Inv n T t) :
    (nd T.nodes T.root).parent = none ∧
    (∀ j, j < T.nodes.length → ((nd T.nodes j).parent = none ↔ j = T.root)) ∧
    (∀ j, j < T.nodes.length → j ≠ T.root →
      ∃ pj, (nd T.nodes j).parent = some pj ∧
        (((nd T.nodes pj).left = some j ∧ (nd T.nodes pj).right ≠ some j) ∨
         ((nd T.nodes pj).right = some j ∧ (nd T.nodes pj).left ≠ some j))) := by
  obtain ⟨hrlt, hrval, hrpar⟩ := root_facts hInv
  obtain ⟨h1, h2, h3, h4, h5, h6⟩ := hInv
  have hnd : (idxs t).Nodup := by rw [h3]; exact List.nodup_range n
  have key : ∀ j, j < n → j ≠ T.root →
      ∃ pj, (nd T.nodes j).parent = some pj ∧ pj ∈ idxs t ∧
        (((nd T.nodes pj).left = some j ∧ (nd T.nodes pj).right ≠ some j) ∨
         ((nd T.nodes pj).right = some j ∧ (nd T.nodes pj).left ≠ some j)) := by
    intro j hj hjr
    have hjm : j ∈ idxs t := by rw [h3]; exact List.mem_range.mpr hj
    obtain ⟨p, hp⟩ := Option.isSome_iff_exists.mp (pathTo_isSome_iff.mpr hjm)
    have hne : p ≠ [] := by
      intro hc
      subst hc
      have := pathTo_nil hp
      rw [h2] at this
      have h2j : T.root = j := by simpa using this
      exact hjr h2j.symm
    exact nonroot_parent h1 hnd hp hne
  refine ⟨hrpar, ?_, ?_⟩
  · intro j hj
    rw [h4] at hj
    constructor
    · intro hnone
      by_contra hjr
      obtain ⟨pj, hpj, _, _⟩ := key j hj hjr
      rw [hnone] at hpj
      exact Option.noConfusion hpj
    · intro hjr
      subst hjr
      exact hrpar
  · intro j hj hjr
    rw [h4] at hj
    obtain ⟨pj, hpj, hpjm, hside⟩ := key j hj hjr
    exact ⟨pj, hpj, hside⟩

/-! ## The claims -/

/-- Zeta-expanded equation of the C `splay` entry point. -/
theorem splay_eq (T : Tree) (k : Int) :
    splay T k =
      (if 0 ≤ (T.root : Int) + (k - ((nd T.nodes T.root).value : Int)) ∧
          (T.root : Int) + (k - ((nd T.nodes T.root).value : Int)) < (T.nodes.length : Int)
       then (decide (k ≤ 0 ∨ (T.size : Int) < k),
         some (splay_node T ((T.root : Int) + (k - ((nd T.nodes T.root).value : Int))).toNat))
       else (decide (k ≤ 0 ∨ (T.size : Int) < k), none)) := rfl

/-- C1: on every reachable tree of size `n` and every key `1 ≤ k ≤ n`, the
C `splay(T, k)` succeeds without firing its error branch and the C++
`splay_by_key(k)` passes its assert, and afterwards the recorded root
holds key `k`. -/
theorem C1_splay_postcondition {n k : Nat} (hk1 : 1 ≤ k) (hkn : k ≤ n) :
    (∀ T, ReachableC n T → ∃ T', splay T (k : Int) = (false, some T') ∧
      (nd T'.nodes T'.root).value = k) ∧
    (∀ T, ReachableCpp n T → ∃ T', Cpp.splay_by_key T k = some T' ∧
      (nd T'.nodes T'.root).value = k) := by
  constructor
  · intro T hT
    obtain ⟨hn, t, hI⟩ := reachC_inv hT
    obtain ⟨heq, t', hI', hroot⟩ := splay_entry (k := (k : Int)) hI
      (by exact_mod_cast hk1) (by exact_mod_cast hkn)
    refine ⟨_, heq, ?_⟩
    obtain ⟨_, hval, _⟩ := root_facts hI'
    rw [hval, hroot]
    omega
  · intro T hT
    obtain ⟨t, hI⟩ := reachCpp_inv hT
    obtain ⟨heq, t', hI', hroot⟩ := splay_by_key_entry hI hk1
      (le_trans hkn (Nat.le_max_left n 1))
    refine ⟨_, heq, ?_⟩
    obtain ⟨_, hval, _⟩ := root_facts hI'
    rw [hval, hroot]
    omega

/-- Witness for C1 at `n = 2`, `k = 1`, on the freshly built tree. -/
theorem C1_witness : ∃ T', splay (chainTree 2) ((1 : Nat) : Int) = (false, some T') ∧
    (nd T'.nodes T'.root).value = 1 :=
  (C1_splay_postcondition (by decide) (by decide)).1 (chainTree 2)
    (ReachableC.built (init_tree_eq (by decide)))

/-- C2: on every reachable state of either implementation (size `n ≥ 1`)
the inorder traversal of the keys is exactly `1, 2, …, n`, and a rotation
applied anywhere in a tree satisfying the invariant leaves the traversal
unchanged. -/
theorem C2_bst_order_invariant {n : Nat} (hn : 1 ≤ n) :
    (∀ T, ReachableC n T ∨ ReachableCpp n T →
      inorderA T.nodes n (some T.root) = (List.range n).map (fun j => j + 1)) ∧
    (∀ T t q A B C x y, Inv n T t →
      subtreeAt t q = some (BT.node (BT.node A x B) y C) →
      inorderA (rotate_right T y).nodes n (some (rotate_right T y).root)
        = inorderA T.nodes n (some T.root)) ∧
    (∀ T t q A B C x y, Inv n T t →
      subtreeAt t q = some (BT.node A x (BT.node B y C)) →
      inorderA (rotate_left T x).nodes n (some (rotate_left T x).root)
        = inorderA T.nodes n (some T.root)) := by
  refine ⟨?_, ?_, ?_⟩
  · rintro T (hC | hCpp)
    · obtain ⟨_, t, hI⟩ := reachC_inv hC
      exact inorder_inv hI
    · obtain ⟨t, hI⟩ := reachCpp_inv hCpp
      rw [Nat.max_eq_left hn] at hI
      exact inorder_inv hI
  · intro T t q A B C x y hI hsub
    rw [inorder_inv (rot_right_inv hI hsub), inorder_inv hI]
  · intro T t q A B C x y hI hsub
    rw [inorder_inv (rot_left_inv hI hsub), inorder_inv hI]

/-- Witness for C2 at `n = 2` on the freshly built C tree. -/
theorem C2_witness : inorderA (chainTree 2).nodes 2 (some (chainTree 2).root)
    = (List.range 2).map (fun j => j + 1) :=
  (C2_bst_order_invariant (by decide)).1 (chainTree 2)
    (Or.inl (ReachableC.built (init_tree_eq (by decide))))

/-- C3: what actually happens on an out-of-range key.  The C `splay` only
`printf`s (first component `true`) and then CONTINUES: it still forms the
target pointer `T->root + (k - T->root->value)`, which on a well-formed
tree lies outside the allocation for every out-of-range `k`, i.e. the code
runs on into undefined behavior (`none`) instead of stopping at the
check.  The C++ `splay_by_key` does abort its assert, as the spec
demands. -/
theorem C3_out_of_range_continues {n : Nat} {T : Tree} {t : BT} {k : Int}
    (hInv : Inv n T t) (hout : k ≤ 0 ∨ (n : Int) < k) :
    splay T k = (true, none) ∧
    (∀ key : Nat, ¬(1 ≤ key ∧ key ≤ n) → Cpp.splay_by_key T key = none) := by
  obtain ⟨hrlt, hrval, _⟩ := root_facts hInv
  have h4 := hInv.2.2.2.1
  have h5 := hInv.2.2.2.2.1
  have htgt : (T.root : Int) + (k - ((nd T.nodes T.root).value : Int)) = k - 1 := by
    rw [hrval]
    push_cast
    ring
  constructor
  · rw [splay_eq, htgt,
      if_neg (show ¬(0 ≤ k - 1 ∧ k - 1 < (T.nodes.length : Int)) from by rw [h4]; omega),
      h5, decide_eq_true hout]
  · intro key hkey
    rw [Cpp.splay_by_key, if_neg (by rw [h4]; exact hkey)]

/-- Witness for C3: on the freshly built 2-node tree, `splay(T, 3)` fires
the printf yet still runs on into the out-of-range pointer, while the C++
side aborts. -/
theorem C3_witness : splay (chainTree 2) 3 = (true, none) ∧
    (∀ key : Nat, ¬(1 ≤ key ∧ key ≤ 2) → Cpp.splay_by_key (chainTree 2) key = none) :=
  C3_out_of_range_continues (chain_inv (by decide)) (by decide)

/-- C4: construction with `n = 0`.  The C `initialize_tree(0)` returns
`NULL` (a well-defined empty result), but the C++ `SplayTree(0)` emplaces
node 1 before its loop unconditionally and therefore yields a ONE-node
tree, not an empty one. -/
theorem C4_build_zero : init_tree 0 = none ∧ Cpp.build 0 = chainTree 1 ∧
    (Cpp.build 0).size = 1 ∧ (Cpp.build 0).nodes.length = 1 ∧
    (nd (Cpp.build 0).nodes 0).value = 1 := by
  have hb : Cpp.build 0 = chainTree 1 := by
    rw [build_eq 0, Nat.max_eq_right (by decide)]
  refine ⟨rfl, hb, ?_, ?_, ?_⟩ <;> rw [hb] <;> decide

/-- C5: the exact rotations of one `splay_step`, per shape, on any tree
satisfying the invariant: zig is a single rotation at the root toward x;
zig-zig rotates at the grandparent z first then at the parent y, same
direction; zig-zag rotates at y first then at z, opposite directions,
leaving x as local root with y and z as its children (the `Inv`
conclusions record the resulting subtree shapes). -/
theorem C5_splay_step_shapes {n : Nat} {T : Tree} {t : BT} (hInv : Inv n T t) :
    (∀ A B C x y, t = BT.node (BT.node A x B) y C →
      splay_step T x = rotate_right T y ∧
      Inv n (splay_step T x) (BT.node A x (BT.node B y C))) ∧
    (∀ A B C x y, t = BT.node A y (BT.node B x C) →
      splay_step T x = rotate_left T y ∧
      Inv n (splay_step T x) (BT.node (BT.node A y B) x C)) ∧
    (∀ q A B C D x y z,
      subtreeAt t q = some (BT.node (BT.node (BT.node A x B) y C) z D) →
      splay_step T x = rotate_right (rotate_right T z) y ∧
      Inv n (splay_step T x) (replaceAt t q (BT.node A x (BT.node B y (BT.node C z D))))) ∧
    (∀ q A B C D x y z,
      subtreeAt t q = some (BT.node A z (BT.node B y (BT.node C x D))) →
      splay_step T x = rotate_left (rotate_left T z) y ∧
      Inv n (splay_step T x) (replaceAt t q (BT.node (BT.node (BT.node A z B) y C) x D))) ∧
    (∀ q A B C D x y z,
      subtreeAt t q = some (BT.node (BT.node A y (BT.node B x C)) z D) →
      splay_step T x = rotate_right (rotate_left T y) z ∧
      Inv n (splay_step T x) (replaceAt t q (BT.node (BT.node A y B) x (BT.node C z D)))) ∧
    (∀ q A B C D x y z,
      subtreeAt t q = some (BT.node A z (BT.node (BT.node B x C) y D)) →
      splay_step T x = rotate_left (rotate_right T y) z ∧
      Inv n (splay_step T x) (replaceAt t q (BT.node (BT.node A z B) x (BT.node C y D)))) := by
  refine ⟨?_, ?_, ?_, ?_, ?_, ?_⟩
  · intro A B C x y ht
    subst ht
    obtain ⟨e1, _, e3⟩ := step_zigL hInv
    exact ⟨e1, e3⟩
  · intro A B C x y ht
    subst ht
    obtain ⟨e1, _, e3⟩ := step_zigR hInv
    exact ⟨e1, e3⟩
  · intro q A B C D x y z hs
    obtain ⟨e1, _, e3, _⟩ := step_zzLL hInv hs
    exact ⟨e1, e3⟩
  · intro q A B C D x y z hs
    obtain ⟨e1, _, e3, _⟩ := step_zzRR hInv hs
    exact ⟨e1, e3⟩
  · intro q A B C D x y z hs
    obtain ⟨e1, _, e3, _⟩ := step_zagLR hInv hs
    exact ⟨e1, e3⟩
  · intro q A B C D x y z hs
    obtain ⟨e1, _, e3, _⟩ := step_zagRL hInv hs
    exact ⟨e1, e3⟩

/-- Witness for C5: the zig-zig (all-left) case on the freshly built
3-node chain, splaying the deepest node. -/
theorem C5_witness :
    splay_step (chainTree 3) 0 = rotate_right (rotate_right (chainTree 3) 2) 1 ∧
    Inv 3 (splay_step (chainTree 3) 0)
      (replaceAt (chainBT 3) []
        (BT.node BT.leaf 0 (BT.node BT.leaf 1 (BT.node BT.leaf 2 BT.leaf)))) :=
  (C5_splay_step_shapes (by decide)).2.2.1 [] BT.leaf BT.leaf BT.leaf BT.leaf
    0 1 2 (by decide)

/-- C6: one `splay_step` on a non-root member `x` decreases `x`'s depth by
exactly 1 or 2, and the splay loop therefore terminates with `x` at the
root. -/
theorem C6_depth_reduction_termination {n : Nat} {T : Tree} {t : BT} {x : Nat}
    (hInv : Inv n T t) (hmem : x ∈ idxs t) (hnr : T.root ≠ x) :
    (depthA (splay_step T x) x + 1 = depthA T x ∨
     depthA (splay_step T x) x + 2 = depthA T x) ∧
    (splay_node T x).root = x := by
  obtain ⟨p, hp⟩ := Option.isSome_iff_exists.mp (pathTo_isSome_iff.mpr hmem)
  have hnd : (idxs t).Nodup := by rw [hInv.2.2.1]; exact List.nodup_range n
  have hne : p ≠ [] := by
    intro hc
    subst hc
    have h0 := pathTo_nil hp
    rw [hInv.2.1] at h0
    have h1 : T.root = x := by simpa using h0
    exact hnr h1
  have hpl : p.length < n := by
    have h1 := pathTo_length_lt_bcount hp
    rw [bcount_eq_length_idxs, hInv.2.2.1, List.length_range] at h1
    exact h1
  have hd1 : depthA T x = p.length := by
    unfold depthA
    rw [hInv.2.2.2.2.1]
    exact depth_path hInv.1 hnd hp hpl
  obtain ⟨t1, p1, hInv1, _, hp1, hlen⟩ := splay_step_progress hInv hp hne
  have hnd1 : (idxs t1).Nodup := by rw [hInv1.2.2.1]; exact List.nodup_range n
  have hd2 : depthA (splay_step T x) x = p1.length := by
    unfold depthA
    rw [hInv1.2.2.2.2.1]
    exact depth_path hInv1.1 hnd1 hp1 (by omega)
  refine ⟨by rw [hd1, hd2]; omega, ?_⟩
  obtain ⟨t', _, hroot, _⟩ := splay_node_master hInv hmem
  exact hroot

/-- Witness for C6 on the freshly built 3-node chain, stepping the deepest
node (index 0, key 1). -/
theorem C6_witness :
    (depthA (splay_step (chainTree 3) 0) 0 + 1 = depthA (chainTree 3) 0 ∨
     depthA (splay_step (chainTree 3) 0) 0 + 2 = depthA (chainTree 3) 0) ∧
    (splay_node (chainTree 3) 0).root = 0 :=
  C6_depth_reduction_termination (n := 3) (t := chainBT 3) (by decide) (by decide)
    (by decide)

/-- C7: for every `n ≥ 1` both constructions produce the same tree of
exactly `n` nodes: node at index `j` holds key `j + 1`, its only child is
its left child `j - 1` (none for the deepest node, index 0), its parent is
`j + 1` (none for the root), and the root is index `n - 1`, key `n`. -/
theorem C7_construction_chain {n : Nat} (hn : 1 ≤ n) :
    ∃ T, init_tree n = some T ∧ Cpp.build n = T ∧
      T.size = n ∧ T.nodes.length = n ∧ T.root = n - 1 ∧
      (∀ j, j < n → (nd T.nodes j).value = j + 1) ∧
      (∀ j, j < n → (nd T.nodes j).left = (if j = 0 then none else some (j - 1))) ∧
      (∀ j, j < n → (nd T.nodes j).right = none) ∧
      (∀ j, j < n → (nd T.nodes j).parent = (if j + 1 < n then some (j + 1) else none)) := by
  refine ⟨chainTree n, init_tree_eq hn, ?_, rfl, chainArena_length n, rfl, ?_, ?_, ?_, ?_⟩
  · rw [build_eq n, Nat.max_eq_left hn]
  · intro j hj
    show (nd (chainArena n) j).value = j + 1
    simp [nd_chainArena hj, chainNode]
  · intro j hj
    show (nd (chainArena n) j).left = _
    simp [nd_chainArena hj, chainNode]
  · intro j hj
    show (nd (chainArena n) j).right = none
    simp [nd_chainArena hj, chainNode]
  · intro j hj
    show (nd (chainArena n) j).parent = _
    simp [nd_chainArena hj, chainNode]

/-- Witness for C7 at `n = 3`. -/
theorem C7_witness :
    ∃ T, init_tree 3 = some T ∧ Cpp.build 3 = T ∧
      T.size = 3 ∧ T.nodes.length = 3 ∧ T.root = 3 - 1 ∧
      (∀ j, j < 3 → (nd T.nodes j).value = j + 1) ∧
      (∀ j, j < 3 → (nd T.nodes j).left = (if j = 0 then none else some (j - 1))) ∧
      (∀ j, j < 3 → (nd T.nodes j).right = none) ∧
      (∀ j, j < 3 → (nd T.nodes j).parent = (if j + 1 < 3 then some (j + 1) else none)) :=
  C7_construction_chain (by decide)

/-- C8: on every reachable state of either implementation, the recorded
root is the unique parentless node, and every other node is exactly one of
its parent's two children. -/
theorem C8_structural_consistency {n : Nat} {T : Tree}
    (h : ReachableC n T ∨ ReachableCpp n T) :
    (nd T.nodes T.root).parent = none ∧
    (∀ j, j < T.nodes.length → ((nd T.nodes j).parent = none ↔ j = T.root)) ∧
    (∀ j, j < T.nodes.length → j ≠ T.root →
      ∃ pj, (nd T.nodes j).parent = some pj ∧
        (((nd T.nodes pj).left = some j ∧ (nd T.nodes pj).right ≠ some j) ∨
         ((nd T.nodes pj).right = some j ∧ (nd T.nodes pj).left ≠ some j))) := by
  rcases h with hC | hCpp
  · obtain ⟨_, t, hI⟩ := reachC_inv hC
    exact struct_inv hI
  · obtain ⟨t, hI⟩ := reachCpp_inv hCpp
    exact struct_inv hI

/-- Witness for C8 on the freshly built 2-node C tree. -/
theorem C8_witness : (nd (chainTree 2).nodes (chainTree 2).root).parent = none :=
  (C8_structural_consistency (Or.inl (ReachableC.built (init_tree_eq (by decide))))).1

/-- C9, counterexample: at size `n = 0` the two implementations already
diverge before any splay — the C `initialize_tree(0)` returns `NULL`
while the C++ constructor builds a one-node tree. -/
theorem C9_counterexample : ¬ optTreeEq (runC 0 []) (runCpp 0 []) := by
  intro h
  rw [show runC 0 [] = none from rfl] at h
  exact h

/-- C9, amended: for every size `n ≥ 1` and every sequence of in-range
keys, the C and C++ implementations compute literally the same sequence of
states (same root, same arena), and the C run is defined throughout. -/
theorem C9_equivalence_amended {n : Nat} (hn : 1 ≤ n) (ks : List Nat)
    (hks : ∀ k ∈ ks, 1 ≤ k ∧ k ≤ n) :
    runC n ks = runCpp n ks ∧ ∃ T, runC n ks = some T := by
  have main : ∀ (l : List Nat) (T : Tree) (t : BT), Inv n T t →
      (∀ k ∈ l, 1 ≤ k ∧ k ≤ n) →
      l.foldl (fun o k => o.bind (fun U => (splay U (k : Int)).2)) (some T)
        = l.foldl (fun o k => o.bind (fun U => Cpp.splay_by_key U k)) (some T) ∧
      ∃ T' t', l.foldl (fun o k => o.bind (fun U => (splay U (k : Int)).2)) (some T)
        = some T' ∧ Inv n T' t' := by
    intro l
    induction l with
    | nil =>
        intro T t hI _
        exact ⟨rfl, T, t, rfl, hI⟩
    | cons k l ih =>
        intro T t hI hks2
        obtain ⟨hk1, hkn⟩ := hks2 k (List.mem_cons_self k l)
        obtain ⟨heqC, t', hI', _⟩ := splay_entry (k := (k : Int)) hI
          (by exact_mod_cast hk1) (by exact_mod_cast hkn)
        obtain ⟨heqK, _⟩ := splay_by_key_entry hI hk1 hkn
        have hx : (((k : Nat) : Int) - 1).toNat = k - 1 := by omega
        rw [hx] at heqC hI'
        have h2 : (splay T (k : Int)).2 = some (splay_node T (k - 1)) := by
          rw [heqC]
        simp only [List.foldl_cons, Option.some_bind]
        rw [h2, heqK]
        exact ih (splay_node T (k - 1)) t' hI'
          (fun k2 hk2 => hks2 k2 (List.mem_cons_of_mem k hk2))
  have h0 := main ks (chainTree n) (chainBT n) (chain_inv hn) hks
  have hrc : runC n ks
      = ks.foldl (fun o k => o.bind (fun U => (splay U (k : Int)).2))
          (some (chainTree n)) := by
    unfold runC
    rw [init_tree_eq hn]
  have hrk : runCpp n ks
      = ks.foldl (fun o k => o.bind (fun U => Cpp.splay_by_key U k))
          (some (chainTree n)) := by
    unfold runCpp
    rw [build_eq n, Nat.max_eq_left hn]
  obtain ⟨he, T', t', hsome, _⟩ := h0
  exact ⟨by rw [hrc, hrk, he], T', by rw [hrc, hsome]⟩

/-- Witness for the amended C9 at `n = 2` with the key sequence `[1, 2]`. -/
theorem C9_witness : runC 2 [1, 2] = runCpp 2 [1, 2] ∧ ∃ T, runC 2 [1, 2] = some T :=
  C9_equivalence_amended (by decide) [1, 2] (by decide)

/-- C10: on every reachable state of the C implementation, the node
holding key `v` sits at offset `v - 1` of the allocation, and the pointer
`T->root + (k - T->root->value)` computed by `splay` equals `k - 1`, i.e.
addresses the node whose key is `k`, for every in-range `k`. -/
theorem C10_offset_addressing {n : Nat} {T : Tree} (hT : ReachableC n T) :
    (∀ v, 1 ≤ v → v ≤ n → (nd T.nodes (v - 1)).value = v) ∧
    (∀ k : Int, 1 ≤ k → k ≤ (n : Int) →
      (T.root : Int) + (k - ((nd T.nodes T.root).value : Int)) = k - 1 ∧
      (nd T.nodes ((T.root : Int) + (k - ((nd T.nodes T.root).value : Int))).toNat).value
        = k.toNat) := by
  obtain ⟨hn, t, hI⟩ := reachC_inv hT
  obtain ⟨hrlt, hrval, _⟩ := root_facts hI
  have h6 := hI.2.2.2.2.2
  constructor
  · intro v h1 h2
    rw [h6 (v - 1) (by omega)]
    omega
  · intro k hk1 hkn
    have htgt : (T.root : Int) + (k - ((nd T.nodes T.root).value : Int)) = k - 1 := by
      rw [hrval]
      push_cast
      ring
    refine ⟨htgt, ?_⟩
    rw [htgt, h6 _ (by omega)]
    omega

/-- Witness for C10 on the freshly built 2-node tree: key 2 sits at offset
1. -/
theorem C10_witness : (nd (chainTree 2).nodes (2 - 1)).value = 2 :=
  (C10_offset_addressing (ReachableC.built (init_tree_eq (by decide)))).1 2
    (by decide) (by decide)

end Splay
